import Mathlib

/-!
Verification of the skiplist package (glenn-brown/skiplist) against its
natural-language specification.

The model embeds the most feature-complete variant of the code
(skiplist.go: New, insert/Insert/Set, remove/Remove/RemoveN/RemoveElement,
prevs/prevsN, grow/shrink, ElementPos/ElementN/Pos/Get/GetAll/Front/String,
randLevels; score.go: scoreBytes, negativeScoreFn) as pure functions over an
explicit state.

Representation: a skiplist state holds the element count, the spine link
widths (one per level) and the elements in bottom-level (level-0) order.
Every element stores its key, value, cached score and its per-level link
widths; the length of that width list is the element's effective height.
Link targets are represented implicitly: at level L the chain threads
exactly the elements whose effective height exceeds L, in list order, which
is the discipline the pointer updates in the code maintain.  When shrink
pops the top spine level, the code leaves the popped per-element links in
place but they become unreachable (a regrown spine level starts with a nil
head pointer), so the model truncates element widths to the new spine
length; stale writes the code makes through such links are modeled as
no-ops, matching their unobservability.

Faults (index-out-of-range or nil dereference the Go runtime would turn
into a panic) and non-termination are modeled by returning none from the
corresponding operation.
-/

set_option maxHeartbeats 1000000
set_option linter.unusedSectionVars false

namespace SkiplistGo

/-- Element (skiplist.go, struct Element): key, Value, cached score, and the
per-level link widths; widths.length is the effective height. -/
structure Elem (K V : Type) where
  key : K
  value : V
  score : Int
  widths : List Int
deriving DecidableEq, Repr

instance {K V : Type} [Inhabited K] [Inhabited V] : Inhabited (Elem K V) :=
  ⟨⟨default, default, 0, []⟩⟩

/-- Skiplist state (skiplist.go, struct Skiplist): count, spine link widths
(one per level), elements in level-0 order.  The comparison function, score
function and random generator are passed explicitly.  cnt is kept as a Nat:
the Go int counter never goes negative on the modeled operations. -/
structure SL (K V : Type) where
  cnt : Nat
  spine : List Int
  elems : List (Elem K V)
deriving DecidableEq, Repr

variable {K V : Type}

/-- Replace the entry at an index, leaving the list unchanged when the index
is out of range (an out-of-range write models a write through a link that
shrink has made unreachable). -/
def modifyAt (f : α → α) : Nat → List α → List α
  | _, [] => []
  | 0, a :: as => f a :: as
  | n + 1, a :: as => a :: modifyAt f n as

/-- Insert a value so that it ends up at the given index. -/
def insertAt (x : α) : Nat → List α → List α
  | 0, as => x :: as
  | _ + 1, [] => [x]
  | n + 1, a :: as => a :: insertAt x n as

/-- Delete the entry at an index. -/
def eraseAt : Nat → List α → List α
  | _, [] => []
  | 0, _ :: as => as
  | n + 1, a :: as => a :: eraseAt n as

/-- First absolute index at or after i (the list argument being the suffix of
the full element list starting at i) whose entry satisfies p. -/
def findFrom (p : α → Bool) : Nat → List α → Option Nat
  | _, [] => none
  | i, a :: as => if p a then some i else findFrom p (i + 1) as

/-- Index right after a chain position: 0 for the spine head, i+1 for the
element at index i. -/
def startOf : Option Nat → Nat
  | none => 0
  | some i => i + 1

/-- Rank of a chain position as the code counts it: the spine head sits at
rank -1, the element at index i at rank i. -/
def idxInt : Option Nat → Int
  | none => -1
  | some i => (i : Int)

/-- First element at or after an absolute index whose effective height
exceeds L. -/
def nextFrom (es : List (Elem K V)) (L : Nat) (start : Nat) : Option Nat :=
  findFrom (fun e => decide (L < e.widths.length)) start (es.drop start)

/-- Target of the level-L link leaving position o: the first element after o
whose effective height exceeds L (none at the end of the level). -/
def nextIdx (es : List (Elem K V)) (L : Nat) (o : Option Nat) : Option Nat :=
  nextFrom es L (startOf o)

/-- Width stored in the level-L link slot at position o (spine head or
element index). -/
def slotW (spine : List Int) (es : List (Elem K V)) (L : Nat) (o : Option Nat) : Int :=
  match o with
  | none => spine.getD L 0
  | some i =>
    match es[i]? with
    | none => 0
    | some e => e.widths.getD L 0

/-- Element at an index, with a default out of range (only used at indices
shown to be in range). -/
def getE [Inhabited K] [Inhabited V] (es : List (Elem K V)) (i : Nat) : Elem K V :=
  es.getD i default

/-- Strictly-before test used by the key traversal (skiplist.go, prevs):
the element compares strictly before the key when its score is smaller, or
the scores tie and its key is less. -/
def sLT (less : K → K → Bool) (key : K) (sc : Int) (e : Elem K V) : Bool :=
  decide (e.score < sc) || (decide (e.score = sc) && less e.key key)

/-- Inner loop of prevs at one level (skiplist.go, prevs): advance to the
next level-L chain element while it compares strictly before the key,
accumulating link widths into pos.  The list argument is the suffix of the
element list starting at absolute index i; o is the current origin (none =
spine head), pos its accumulated rank and curW the width of its level-L
link. -/
def walkK (less : K → K → Bool) (key : K) (sc : Int) (L : Nat) :
    List (Elem K V) → Nat → Option Nat → Int → Int → Option Nat × Int
  | [], _, o, pos, _ => (o, pos)
  | e :: rest, i, o, pos, curW =>
    if L < e.widths.length then
      if sLT less key sc e then
        walkK less key sc L rest (i + 1) (some i) (pos + curW) (e.widths.getD L 0)
      else (o, pos)
    else walkK less key sc L rest (i + 1) o pos curW

/-- Outer loop of prevs (skiplist.go, prevs): process levels from the top
down, continuing each level from the horizontal position reached at the
level above.  The returned list has the level-L record at index L. -/
def prevsFrom (less : K → K → Bool) (key : K) (sc : Int)
    (spine : List Int) (es : List (Elem K V)) :
    Nat → Option Nat → Int → List (Option Nat × Int)
  | L, o, pos =>
    let r := walkK less key sc L (es.drop (startOf o)) (startOf o) o pos (slotW spine es L o)
    match L with
    | 0 => [r]
    | N + 1 => prevsFrom less key sc spine es N r.1 r.2 ++ [r]

/-- Predecessor record of a trace at a level (none at absent levels is only
read where shown irrelevant). -/
def originAt (prevArr : List (Option Nat × Int)) (L : Nat) : Option Nat :=
  (prevArr.getD L (none, 0)).1

/-- Stored rank of a trace record at a level. -/
def posAt (prevArr : List (Option Nat × Int)) (L : Nat) : Int :=
  (prevArr.getD L (none, 0)).2

/-- prevs (skiplist.go): predecessor trace for a key plus the insertion
rank.  On a zero-level list the trace is empty and the final pos is 0,
exactly as in the code. -/
def prevsGo (less : K → K → Bool) (sc : Int) (s : SL K V) (key : K) :
    List (Option Nat × Int) × Int :=
  match s.spine.length with
  | 0 => ([], 0)
  | N + 1 =>
    let arr := prevsFrom less key sc s.spine s.elems N none (-1)
    (arr, (arr.getD 0 (none, -1)).2 + 1)

/-- Inner loop of prevsN at one level (skiplist.go, prevsN): advance while
the accumulated rank of the link target does not pass index. -/
def walkN (index : Int) (L : Nat) :
    List (Elem K V) → Nat → Option Nat → Int → Int → Option Nat × Int
  | [], _, o, pos, _ => (o, pos)
  | e :: rest, i, o, pos, curW =>
    if L < e.widths.length then
      if pos + curW ≤ index then
        walkN index L rest (i + 1) (some i) (pos + curW) (e.widths.getD L 0)
      else (o, pos)
    else walkN index L rest (i + 1) o pos curW

/-- Outer loop of prevsN (skiplist.go, prevsN). -/
def prevsNFrom (index : Int) (spine : List Int) (es : List (Elem K V)) :
    Nat → Option Nat → Int → List (Option Nat × Int)
  | L, o, pos =>
    let r := walkN index L (es.drop (startOf o)) (startOf o) o pos (slotW spine es L o)
    match L with
    | 0 => [r]
    | N + 1 => prevsNFrom index spine es N r.1 r.2 ++ [r]

/-- prevsN (skiplist.go): predecessor trace for a rank. -/
def prevsNGo (s : SL K V) (index : Int) : List (Option Nat × Int) :=
  match s.spine.length with
  | 0 => []
  | N + 1 => prevsNFrom index s.spine s.elems N none 0

/-- Power-of-two test the code uses: cnt AND (cnt-1) == 0 (true at 0 as in
Go, where 0 AND -1 is 0). -/
def pow2Test (n : Nat) : Bool := n &&& (n - 1) == 0

/-- grow (skiplist.go): increment the count, appending one spine level of
width cnt on power-of-two counts. -/
def grow (s : SL K V) : SL K V :=
  let c := s.cnt + 1
  { cnt := c
    spine := if pow2Test c then s.spine ++ [(c : Int)] else s.spine
    elems := s.elems }

/-- shrink (skiplist.go): pop one spine level on power-of-two counts, then
decrement the count.  Element width lists are truncated to the new spine
length: the popped per-element links become unreachable in the code (see the
header comment). -/
def shrink (s : SL K V) : SL K V :=
  if pow2Test s.cnt then
    let sp := s.spine.dropLast
    { cnt := s.cnt - 1
      spine := sp
      elems := s.elems.map fun e => { e with widths := e.widths.take sp.length } }
  else { s with cnt := s.cnt - 1 }

/-- Apply an update to the width stored in the level-L slot at position o.
Out-of-range updates are no-ops (stale writes through popped links). -/
def updateSlot (s : SL K V) (L : Nat) (o : Option Nat) (f : Int → Int) : SL K V :=
  match o with
  | none => { s with spine := modifyAt f L s.spine }
  | some i =>
    { s with elems := modifyAt (fun e => { e with widths := modifyAt f L e.widths }) i s.elems }

/-- Width-decrement phase of the remove helper (skiplist.go, remove, second
loop): levels ℓ, ℓ+1, ... (r of them) get their predecessor width reduced by
one. -/
def decSlots (prevArr : List (Option Nat × Int)) : Nat → Nat → SL K V → SL K V
  | _, 0, s => s
  | L, r + 1, s =>
    decSlots prevArr (L + 1) r (updateSlot s L (originAt prevArr L) (fun w => w - 1))

/-- Unlink phase of the remove helper (skiplist.go, remove, first loop):
starting at level 1, while the predecessor link still targets the element,
absorb its width minus one; at the first level where it does not, switch to
the width-decrement phase for the remaining levels. -/
def removeUnlink (prevArr : List (Option Nat × Int)) (elemIdx : Nat) (elem : Elem K V) :
    Nat → Nat → SL K V → SL K V
  | _, 0, s => s
  | L, r + 1, s =>
    if nextIdx s.elems L (originAt prevArr L) == some elemIdx then
      removeUnlink prevArr elemIdx elem (L + 1) r
        (updateSlot s L (originAt prevArr L) (fun w => w + elem.widths.getD L 0 - 1))
    else decSlots prevArr L (r + 1) s

/-- remove (skiplist.go, remove): unlink the element at elemIdx given its
predecessor trace, then shrink.  The width conditions are evaluated before
the element is deleted from the order, matching the code, where the level-L
pointer tests read state not yet modified at level L; the level-0 unlink is
the deletion itself. -/
def removeGo [Inhabited K] [Inhabited V] (s : SL K V)
    (prevArr : List (Option Nat × Int)) (elemIdx : Nat) : SL K V :=
  let elem := getE s.elems elemIdx
  let s1 := removeUnlink prevArr elemIdx elem 1 (s.spine.length - 1) s
  shrink { s1 with elems := eraseAt elemIdx s1.elems }

/-- Widths of a freshly inserted element (skiplist.go, insert): width 1 at
level 0; at higher spliced levels, end - pos where end is the rank one past
the predecessor link's old target. -/
def nuWidths (prevArr : List (Option Nat × Int)) (s2 : SL K V)
    (nuLevels : Nat) (pos : Int) : List Int :=
  (List.range nuLevels).map fun L =>
    if L = 0 then 1
    else posAt prevArr L + slotW s2.spine s2.elems L (originAt prevArr L) + 1 - pos

/-- Predecessor-width updates of insert (skiplist.go, insert, main loop):
nothing at level 0 (the new link is simply threaded in), an overwrite to
pos - prev.pos at spliced levels, an increment above the new element's
height. -/
def applySlots (prevArr : List (Option Nat × Int)) (nuLevels : Nat) (pos : Int) :
    List Nat → SL K V → SL K V
  | [], s => s
  | L :: rest, s =>
    applySlots prevArr nuLevels pos rest
      (if L = 0 then s
       else if L < nuLevels then
         updateSlot s L (originAt prevArr L) (fun _ => pos - posAt prevArr L)
       else updateSlot s L (originAt prevArr L) (fun w => w + 1))

/-- insert (skiplist.go, insert): grow, trace, optionally (Set) remove the
youngest equal element, cap the drawn height at the spine length
(randLevels), splice.  draw is the level count produced by the random draw
(at least 1 in the code). -/
def insertGo [Inhabited K] [Inhabited V] (less : K → K → Bool) (score : K → Int)
    (s : SL K V) (key : K) (value : V) (draw : Nat) (replace : Bool) : SL K V :=
  let s1 := grow s
  let sc := score key
  let pr := prevsGo less sc s1 key
  let prevArr := pr.1
  let pos := pr.2
  let s2 :=
    if replace then
      match nextIdx s1.elems 0 (originAt prevArr 0) with
      | some j =>
        match s1.elems[j]? with
        | some e =>
          if decide (sc = e.score) && !less key e.key && !less e.key key then
            removeGo s1 prevArr j
          else s1
        | none => s1
      | none => s1
    else s1
  let nuLevels := if draw > s2.spine.length then s2.spine.length else draw
  let nu : Elem K V := ⟨key, value, sc, nuWidths prevArr s2 nuLevels pos⟩
  let insertIdx :=
    match nextIdx s2.elems 0 (originAt prevArr 0) with
    | some j => j
    | none => s2.elems.length
  let s3 := applySlots prevArr nuLevels pos (List.range prevArr.length) s2
  { s3 with elems := insertAt nu insertIdx s3.elems }

/-- Insert (skiplist.go): insert without replacement. -/
def Insert [Inhabited K] [Inhabited V] (less : K → K → Bool) (score : K → Int)
    (s : SL K V) (key : K) (value : V) (draw : Nat) : SL K V :=
  insertGo less score s key value draw false

/-- Set (skiplist.go): insert, replacing the youngest entry for the key if
one exists. -/
def Set [Inhabited K] [Inhabited V] (less : K → K → Bool) (score : K → Int)
    (s : SL K V) (key : K) (value : V) (draw : Nat) : SL K V :=
  insertGo less score s key value draw true

/-- ElementPos (skiplist.go): youngest element for a key with its rank.
Outer none models the panic: on a zero-level list the code indexes the empty
scratch trace. -/
def ElementPos (less : K → K → Bool) (score : K → Int) (s : SL K V) (key : K) :
    Option (Option (Elem K V × Int)) :=
  match s.spine.length with
  | 0 => none
  | _ + 1 =>
    let sc := score key
    let pr := prevsGo less sc s key
    match nextIdx s.elems 0 (originAt pr.1 0) with
    | none => some none
    | some j =>
      match s.elems[j]? with
      | none => none
      | some e =>
        if decide (sc < e.score) || (decide (sc = e.score) && less key e.key) then some none
        else some (some (e, pr.2))

/-- Element (skiplist.go): youngest element for a key. -/
def Element (less : K → K → Bool) (score : K → Int) (s : SL K V) (key : K) :
    Option (Option (Elem K V)) :=
  (ElementPos less score s key).map (fun r => r.map Prod.fst)

/-- Pos (skiplist.go): rank of the youngest element for a key, -1 when
absent. -/
def Pos (less : K → K → Bool) (score : K → Int) (s : SL K V) (key : K) : Option Int :=
  (ElementPos less score s key).map fun r =>
    match r with
    | none => -1
    | some rp => rp.2

/-- Get (skiplist.go): value of the youngest element for a key, nil (inner
none) when absent. -/
def Get (less : K → K → Bool) (score : K → Int) (s : SL K V) (key : K) :
    Option (Option V) :=
  (ElementPos less score s key).map (fun r => r.map (fun rp => rp.1.value))

/-- Remove (skiplist.go): remove the youngest element for a key.  Outer none
models the panic on a zero-level list. -/
def Remove [Inhabited K] [Inhabited V] (less : K → K → Bool) (score : K → Int)
    (s : SL K V) (key : K) : Option (Option (Elem K V) × SL K V) :=
  match s.spine.length with
  | 0 => none
  | _ + 1 =>
    let sc := score key
    let pr := prevsGo less sc s key
    match nextIdx s.elems 0 (originAt pr.1 0) with
    | none => some (none, s)
    | some j =>
      match s.elems[j]? with
      | none => none
      | some e =>
        if !(decide (sc = e.score)) || (decide (sc = e.score) && less key e.key) then
          some (none, s)
        else some (some e, removeGo s pr.1 j)

/-- RemoveN (skiplist.go): remove by rank.  Only index at or above the count
is rejected; the panic on a negative index applied to an empty list, and the
nil dereference the code would perform if the trace produced no target, are
modeled as outer none. -/
def RemoveN [Inhabited K] [Inhabited V] (s : SL K V) (index : Int) :
    Option (Option (Elem K V) × SL K V) :=
  if index ≥ (s.cnt : Int) then some (none, s)
  else
    match s.spine.length with
    | 0 => none
    | _ + 1 =>
      let arr := prevsNGo s index
      match nextIdx s.elems 0 (originAt arr 0) with
      | none => none
      | some j =>
        match s.elems[j]? with
        | none => none
        | some e => some (some e, removeGo s arr j)

/-- ElementN (skiplist.go): element by rank; only index at or above the
count is rejected. -/
def ElementN (s : SL K V) (index : Int) : Option (Option (Elem K V)) :=
  if index ≥ (s.cnt : Int) then some none
  else
    match s.spine.length with
    | 0 => none
    | _ + 1 =>
      let arr := prevsNGo s index
      match nextIdx s.elems 0 (originAt arr 0) with
      | none => some none
      | some j => some s.elems[j]?

/-- Collection loop of GetAll (skiplist.go, GetAll): walk level-0 successors
from the traced position collecting values while score and key stay equal. -/
def getAllLoop (less : K → K → Bool) (key : K) (sc : Int) : List (Elem K V) → List V
  | [] => []
  | e :: rest =>
    if 0 < e.widths.length then
      if decide (e.score = sc) && !less key e.key then
        e.value :: getAllLoop less key sc rest
      else []
    else getAllLoop less key sc rest

/-- GetAll (skiplist.go): all values for a key, youngest first.  Outer none
models the panic on a zero-level list. -/
def GetAll (less : K → K → Bool) (score : K → Int) (s : SL K V) (key : K) :
    Option (List V) :=
  match s.spine.length with
  | 0 => none
  | _ + 1 =>
    let sc := score key
    let pr := prevsGo less sc s key
    some (getAllLoop less key sc (s.elems.drop (startOf (originAt pr.1 0))))

/-- Front (skiplist.go): destination of the level-0 head link, nil when the
spine is empty. -/
def Front (s : SL K V) : Option (Elem K V) :=
  match s.spine.length with
  | 0 => none
  | _ + 1 =>
    match nextIdx s.elems 0 none with
    | none => none
    | some j => s.elems[j]?

/-- Len (skiplist.go). -/
def Len (s : SL K V) : Nat := s.cnt

/-- Search loop of RemoveElement (skiplist.go, RemoveElement): advance along
level-0 successors from the traced position, counting hops, until the target
element (by identity, i.e. index) is reached or the level runs out. -/
def matchWalk (elemIdx : Nat) : List (Elem K V) → Nat → Int → Int
  | [], _, pos => pos
  | e :: rest, i, pos =>
    if 0 < e.widths.length then
      if i == elemIdx then pos else matchWalk elemIdx rest (i + 1) (pos + 1)
    else matchWalk elemIdx rest (i + 1) pos

/-- Divergence test for the predecessor-adjustment loop of RemoveElement
(skiplist.go, RemoveElement): the inner loop copies prevs[level] into l once
and never updates l, so whenever its condition l.pos + l.link.width < pos
holds it holds forever and the loop never exits. -/
def adjustHangs (prevArr : List (Option Nat × Int)) (s : SL K V) (pos : Int) : Bool :=
  (List.range prevArr.length).any fun L =>
    decide (posAt prevArr L + slotW s.spine s.elems L (originAt prevArr L) < pos)

/-- RemoveElement (skiplist.go): remove a specific element given by
reference (modeled by its current index).  none models non-termination of
the adjustment loop, or the panic on a zero-level list. -/
def RemoveElement [Inhabited K] [Inhabited V] (less : K → K → Bool) (score : K → Int)
    (s : SL K V) (elemIdx : Nat) : Option (Elem K V × SL K V) :=
  match s.elems[elemIdx]? with
  | none => none
  | some e =>
    match s.spine.length with
    | 0 => none
    | _ + 1 =>
      let sc := score e.key
      let pr := prevsGo less sc s e.key
      let st := startOf (originAt pr.1 0)
      let pos := matchWalk elemIdx (s.elems.drop st) st pr.2
      if adjustHangs pr.1 s pos then none
      else some (e, removeGo s pr.1 elemIdx)

/-- Rendering loop of String (skiplist.go, String): one key:value and a
space per element along level 0. -/
def renderLoop (fk : K → String) (fv : V → String) : List (Elem K V) → String
  | [] => ""
  | e :: rest =>
    if 0 < e.widths.length then
      fk e.key ++ ":" ++ fv e.value ++ " " ++ renderLoop fk fv rest
    else renderLoop fk fv rest

/-- String (skiplist.go): canonical rendering.  The code starts from the
level-0 head link, so on a zero-level list it indexes the empty spine:
modeled as none.  The final byte of the buffer is overwritten with a closing
brace, as in the code. -/
def StringGo (fk : K → String) (fv : V → String) (s : SL K V) : Option String :=
  match s.spine.length with
  | 0 => none
  | _ + 1 =>
    let body := "\x7b" ++ renderLoop fk fv s.elems
    some (body.dropRight 1 ++ "\x7d")

/-- New (skiplist.go): the empty skiplist (the comparator closures bind on
first use and are modeled as explicit parameters; the private generator is
seeded with the fixed constant 42 and modeled as an explicit stream). -/
def newSL : SL K V := ⟨0, [], []⟩

/-! Score projections for byte sequences (score.go). -/

/-- Accumulator of scoreBytes (score.go, scoreBytes): byte i is placed at
bit position (7-i)*8.  Bytes are below 256, so no 64-bit wraparound can
occur here. -/
def scoreBytesAux : List Nat → Nat → Nat
  | [], _ => 0
  | b :: rest, i => (b <<< ((7 - i) * 8)) ||| scoreBytesAux rest (i + 1)

/-- scoreBytes (score.go): project the leading 8 bytes into an integer. -/
def scoreBytes (data : List Nat) : Nat :=
  scoreBytesAux (data.take 8) 0

/-- Magnitude computed by the byte-sequence branch of negativeScoreFn
(score.go): or in the byte, then shift left by 8, on a 64-bit accumulator
(so with length 8 the first byte is shifted out entirely). -/
def negBytesMag (data : List Nat) : Nat :=
  (data.take 8).foldl (fun r v => ((r ||| v) <<< 8) % (2 ^ 64)) 0

/-- Score of the byte-sequence branch of negativeScoreFn (score.go):
negation of the magnitude.  The conversion of the 64-bit magnitude to
float64 is monotone, and at the magnitudes appearing in the theorems below
it is exact, so the integer model is faithful there. -/
def negScoreBytes (data : List Nat) : Int :=
  -(negBytesMag data : Int)

/-- Lexicographic order on byte sequences: bytes.Compare(a, b) < 0
(skiplist.go, lessFn, case []byte). -/
def bytesLess : List Nat → List Nat → Bool
  | [], [] => false
  | [], _ :: _ => true
  | _ :: _, [] => false
  | a :: as, b :: bs => if a < b then true else if b < a then false else bytesLess as bs

/-- Descending byte-sequence predicate (skiplist.go, greaterFn, case
[]byte): a is strictly less than b in the descending instance when b
compares below a in byte order. -/
def lessDescBytes (a b : List Nat) : Bool := bytesLess b a

/-! Operation sequences and the seeded run, for the reproducibility claim. -/

/-- One mutating public operation. -/
inductive Op (K V : Type) where
  | ins (k : K) (v : V)
  | set (k : K) (v : V)
  | del (k : K)
  | delN (i : Int)
  | delE (j : Nat)
deriving DecidableEq

/-- Trailing-zero count of randLevels (skiplist.go, randLevels): the loop
counts low zero bits of the 63-bit draw.  Fuel 63 covers every value an
Int63 can produce except 0, on which the code would not terminate. -/
def tzF : Nat → Nat → Nat
  | 0, _ => 0
  | f + 1, v => if v &&& 1 == 0 then tzF f (v >>> 1) + 1 else 0

/-- Level count randLevels derives from one raw draw, before the cap. -/
def drawOf (v : Nat) : Nat := 1 + tzF 63 v

/-- One step of an operation sequence: the state is the skiplist plus the
position in the private random stream r; insertions consume one draw.  A
faulting or diverging removal leaves the state unchanged (the choice is
irrelevant to determinism). -/
def stepOp [Inhabited K] [Inhabited V] (less : K → K → Bool) (score : K → Int)
    (r : Nat → Nat) (sp : SL K V × Nat) (op : Op K V) : SL K V × Nat :=
  match op with
  | Op.ins k v => (Insert less score sp.1 k v (drawOf (r sp.2)), sp.2 + 1)
  | Op.set k v => (Set less score sp.1 k v (drawOf (r sp.2)), sp.2 + 1)
  | Op.del k =>
    match Remove less score sp.1 k with
    | some rs => (rs.2, sp.2)
    | none => sp
  | Op.delN i =>
    match RemoveN sp.1 i with
    | some rs => (rs.2, sp.2)
    | none => sp
  | Op.delE j =>
    match RemoveElement less score sp.1 j with
    | some rs => (rs.2, sp.2)
    | none => sp

/-- Run an operation sequence from New with the private random stream r
(the default constructor seeds the same fixed stream for every instance). -/
def runOps [Inhabited K] [Inhabited V] (less : K → K → Bool) (score : K → Int)
    (r : Nat → Nat) (ops : List (Op K V)) : SL K V × Nat :=
  ops.foldl (stepOp less score r) (newSL, 0)

/-- Internal structure the diagnostic rendering draws: the spine widths and
every element's per-level widths (heights and links are determined by
these). -/
def structRender (s : SL K V) : List Int × List (List Int) :=
  (s.spine, s.elems.map fun e => e.widths)

/-! Specification layer: invariants and derived quantities. -/

/-- Sum of the link widths along level L, from the spine head through every
element linked at that level. -/
def levelSum (s : SL K V) (L : Nat) : Int :=
  s.spine.getD L 0 +
    s.elems.foldr (fun e acc => if L < e.widths.length then e.widths.getD L 0 + acc else acc) 0

/-- Exact key match as the code tests it (skiplist.go, insert, replace
test): equal score and neither key strictly less than the other. -/
def keyMatch (less : K → K → Bool) (score : K → Int) (k : K) (e : Elem K V) : Bool :=
  decide (e.score = score k) && !less k e.key && !less e.key k

/-- Number of entries stored for a key. -/
def countEq (less : K → K → Bool) (score : K → Int) (k : K) (s : SL K V) : Nat :=
  (s.elems.filter (keyMatch less score k)).length

/-- Spine length maintained by grow and shrink: the number of counts in
[1, n] at which the power-of-two test fires. -/
def levelsFor : Nat → Nat
  | 0 => 0
  | n + 1 => levelsFor n + (if pow2Test (n + 1) then 1 else 0)

/-- Rank distance from a chain position to the target of its level-L link
(to the end of the list when the link terminates the level). -/
def gapFrom (es : List (Elem K V)) (L : Nat) (o : Option Nat) : Int :=
  (match nextIdx es L o with
   | some j => (j : Int)
   | none => (es.length : Int)) - idxInt o

/-- Assumptions the code needs of the bound comparator and score: less is a
strict weak order (irreflexive, transitive, with transitive negation) and
score is monotone with respect to it.  Every built-in numeric binding
satisfies them. -/
structure LessOK (less : K → K → Bool) (score : K → Int) : Prop where
  irrefl : ∀ a, less a a = false
  trans : ∀ a b c, less a b = true → less b c = true → less a c = true
  negtrans : ∀ a b c, less a b = false → less b c = false → less a c = false
  mono : ∀ a b, less a b = true → score a ≤ score b

/-- Relative order of two elements in level-0 order: strictly smaller
score, or equal scores with the later element not below the earlier (equal
keys sit youngest first). -/
def relE (less : K → K → Bool) (a b : Elem K V) : Prop :=
  a.score < b.score ∨ (a.score = b.score ∧ less b.key a.key = false)

/-- Well-formedness of a skiplist state, with a count offset c: the count
exceeds the element list length by c (c = 1 describes the window between
grow and the completed splice), the spine length follows the power-of-two
discipline, cached scores are the key scores, effective heights are between
1 and the spine length, elements are ordered, and every stored width (spine
and element) equals the rank distance to the link target. -/
structure WFc [Inhabited K] [Inhabited V] (less : K → K → Bool) (score : K → Int)
    (c : Nat) (s : SL K V) : Prop where
  cntLen : s.cnt = s.elems.length + c
  spineLen : s.spine.length = levelsFor s.cnt
  scoresOK : ∀ e ∈ s.elems, e.score = score e.key
  hLow : ∀ e ∈ s.elems, 1 ≤ e.widths.length
  hHigh : ∀ e ∈ s.elems, e.widths.length ≤ s.spine.length
  sorted : s.elems.Pairwise (relE less)
  spineW : ∀ L < s.spine.length, s.spine.getD L 0 = gapFrom s.elems L none
  elemW : ∀ i < s.elems.length, ∀ L < (getE s.elems i).widths.length,
    (getE s.elems i).widths.getD L 0 = gapFrom s.elems L (some i)

/-- Well-formedness of a quiescent skiplist state. -/
def WF [Inhabited K] [Inhabited V] (less : K → K → Bool) (score : K → Int)
    (s : SL K V) : Prop :=
  WFc less score 0 s

variable [Inhabited K] [Inhabited V]

/-- Chain membership of a trace position at a level: the spine head always
qualifies, an element position must be in range and linked at the level. -/
def ChainOK (es : List (Elem K V)) (L : Nat) (o : Option Nat) : Prop :=
  match o with
  | none => True
  | some t => t < es.length ∧ L < (getE es t).widths.length

/-- Existence of the width slot a trace position addresses at a level. -/
def SlotIn (s : SL K V) (L : Nat) (o : Option Nat) : Prop :=
  match o with
  | none => L < s.spine.length
  | some i => i < s.elems.length ∧ L < (getE s.elems i).widths.length

instance (es : List (Elem K V)) (L : Nat) (o : Option Nat) :
    Decidable (ChainOK es L o) :=
  match o with
  | none => isTrue trivial
  | some t => inferInstanceAs (Decidable (_ ∧ _))

instance (s : SL K V) (L : Nat) (o : Option Nat) : Decidable (SlotIn s L o) :=
  match o with
  | none => inferInstanceAs (Decidable (_ < _))
  | some i => inferInstanceAs (Decidable (_ ∧ _))

instance (less : K → K → Bool) (a b : Elem K V) : Decidable (relE less a b) :=
  inferInstanceAs (Decidable (_ ∨ _))

/-- Width stored in a state at the slot a position addresses at a level. -/
def WAt (s : SL K V) (L : Nat) (o : Option Nat) : Int :=
  slotW s.spine s.elems L o

/-- Effective heights of the elements, in order; the chain structure is a
function of this list alone. -/
def heightsOf (es : List (Elem K V)) : List Nat :=
  es.map fun e => e.widths.length

/-- Rank of the first element not strictly before the key: the insertion
boundary, and the rank the traced key lookup lands on. -/
def lowerIdx (less : K → K → Bool) (key : K) (sc : Int) (es : List (Elem K V)) : Nat :=
  (es.takeWhile (sLT less key sc)).length

/-- Observable content of an element: key, value and cached score (the
widths are bookkeeping). -/
def proj (e : Elem K V) : K × V × Int := (e.key, e.value, e.score)

/-- Generic per-level width-update pass: apply, for each level in the list,
an update at that level's recorded predecessor. -/
def levelFold (O : Nat → Option Nat) (F : Nat → Int → Int) :
    List Nat → SL K V → SL K V
  | [], s => s
  | L :: rest, s => levelFold O F rest (updateSlot s L (O L) (F L))

/-- Consecutive levels start, start+1, ..., start+n-1. -/
def rangeLs (start n : Nat) : List Nat := (List.range n).map (fun d => start + d)

/-- Facts the key traversal guarantees per level: the recorded predecessor
is on the chain, its stored rank is its index, it is the spine head or an
element strictly before the key, and the link it records targets nothing
strictly before the key. -/
def KTrace (less : K → K → Bool) (key : K) (sc : Int) (es : List (Elem K V))
    (arr : List (Option Nat × Int)) : Prop :=
  ∀ L < arr.length,
    ChainOK es L (originAt arr L) ∧
    posAt arr L = idxInt (originAt arr L) ∧
    (originAt arr L = none ∨
      ∃ t, originAt arr L = some t ∧ sLT less key sc (getE es t) = true) ∧
    (∀ j, nextIdx es L (originAt arr L) = some j → sLT less key sc (getE es j) = false)

/-- Facts the rank traversal guarantees per level. -/
def NTrace (index : Int) (es : List (Elem K V)) (arr : List (Option Nat × Int)) : Prop :=
  ∀ L < arr.length,
    ChainOK es L (originAt arr L) ∧
    posAt arr L = idxInt (originAt arr L) + 1 ∧
    (originAt arr L = none ∨ ∃ t, originAt arr L = some t ∧ (t : Int) < index) ∧
    (∀ j, nextIdx es L (originAt arr L) = some j → index ≤ (j : Int))

/-- Facts the remove helper needs of its trace, relative to the index j of
the element being unlinked: per level the recorded predecessor is on the
chain, sits strictly before j, and records a link that targets nothing
before j. -/
def RTrace (es : List (Elem K V)) (arr : List (Option Nat × Int)) (j : Nat) : Prop :=
  ∀ L < arr.length,
    ChainOK es L (originAt arr L) ∧
    (originAt arr L = none ∨ ∃ t, originAt arr L = some t ∧ t < j) ∧
    (∀ q, nextIdx es L (originAt arr L) = some q → j ≤ q)

/-- Facts the splice needs of its trace, relative to the insertion boundary
b: per level the recorded predecessor is on the chain, sits strictly before
b with its rank stored, and records a link that targets nothing before b. -/
def ITrace (es : List (Elem K V)) (arr : List (Option Nat × Int)) (b : Nat) : Prop :=
  ∀ L < arr.length,
    ChainOK es L (originAt arr L) ∧
    posAt arr L = idxInt (originAt arr L) ∧
    (originAt arr L = none ∨ ∃ t, originAt arr L = some t ∧ t < b) ∧
    (∀ q, nextIdx es L (originAt arr L) = some q → b ≤ q)

/-- RTrace restricted to the levels the spine actually has: what the remove
helper is given on entry. -/
def RTraceW (s : SL K V) (arr : List (Option Nat × Int)) (j : Nat) : Prop :=
  ∀ L < s.spine.length,
    ChainOK s.elems L (originAt arr L) ∧
    (originAt arr L = none ∨ ∃ t, originAt arr L = some t ∧ t < j) ∧
    (∀ q, nextIdx s.elems L (originAt arr L) = some q → j ≤ q)

/-- ITrace restricted to the levels the spine actually has: what the splice
is given on entry. -/
def ITraceW (s : SL K V) (arr : List (Option Nat × Int)) (b : Nat) : Prop :=
  ∀ L < s.spine.length,
    ChainOK s.elems L (originAt arr L) ∧
    posAt arr L = idxInt (originAt arr L) ∧
    (originAt arr L = none ∨ ∃ t, originAt arr L = some t ∧ t < b) ∧
    (∀ q, nextIdx s.elems L (originAt arr L) = some q → b ≤ q)

/-- The state the splice phase of insert assembles: the new element placed at
the boundary index after the per-level width-update pass (the tail of
insertGo, with the boundary made explicit). -/
def spliced (arr : List (Option Nat × Int)) (b nuLevels : Nat) (pos sc : Int)
    (key : K) (value : V) (N : Nat) (s2 : SL K V) : SL K V :=
  { applySlots arr nuLevels pos (List.range N) s2 with
    elems := insertAt ⟨key, value, sc, nuWidths arr s2 nuLevels pos⟩ b
      (applySlots arr nuLevels pos (List.range N) s2).elems }

/-- States reachable from New by the public mutations, with an arbitrary
admissible height draw at every insertion (randLevels always returns at
least 1); faulting or diverging removals produce no state. -/
inductive Reachable [Inhabited K] [Inhabited V] (less : K → K → Bool) (score : K → Int) :
    SL K V → Prop where
  | new : Reachable less score newSL
  | ins {s : SL K V} (k : K) (v : V) {draw : Nat} :
      Reachable less score s → 1 ≤ draw → Reachable less score (Insert less score s k v draw)
  | set {s : SL K V} (k : K) (v : V) {draw : Nat} :
      Reachable less score s → 1 ≤ draw → Reachable less score (Set less score s k v draw)
  | rem {s s2 : SL K V} {k : K} {r : Option (Elem K V)} :
      Reachable less score s → Remove less score s k = some (r, s2) → Reachable less score s2
  | remN {s s2 : SL K V} {i : Int} {r : Option (Elem K V)} :
      Reachable less score s → RemoveN s i = some (r, s2) → Reachable less score s2
  | remE {s s2 : SL K V} {j : Nat} {e : Elem K V} :
      Reachable less score s → RemoveElement less score s j = some (e, s2) →
      Reachable less score s2

/-! Concrete instantiation with integer keys and values, used by the
witnesses and counterexamples. -/

/-- Integer comparison (skiplist.go, lessFn, case int). -/
def lessInt : Int → Int → Bool := fun a b => decide (a < b)

/-- Integer score (score.go, scoreFn, case int: the numeric value itself;
exact for every key used below). -/
def scoreInt : Int → Int := fun a => a

/-- Empty integer skiplist. -/
def emptyI : SL Int Int := newSL

/-- Skiplist holding the single pair 1 maps-to 10 (height draw 1). -/
def sI1 : SL Int Int := Insert lessInt scoreInt emptyI 1 10 1

/-- Skiplist holding two entries for the duplicate key 1: value 20 inserted
after value 10, so value 20 is the youngest and sits at rank 0. -/
def sDup : SL Int Int := Insert lessInt scoreInt sI1 1 20 1

/-- Result of Set (1, 30) on the two-duplicate state: the youngest prior
entry is replaced, the older one stays. -/
def sSet2 : SL Int Int := Set lessInt scoreInt sDup 1 30 1

/-! Theorems.  First, utility lemmas about the list primitives. -/

theorem getD_drop (l : List α) (n m : Nat) (d : α) :
    (l.drop n).getD m d = l.getD (n + m) d := by
  simp [List.getD_eq_getElem?_getD, List.getElem?_drop]

theorem getD_take (l : List α) (n m : Nat) (d : α) :
    (l.take n).getD m d = if m < n then l.getD m d else d := by
  simp only [List.getD_eq_getElem?_getD, List.getElem?_take]
  split <;> rfl

theorem length_modifyAt (f : α → α) (n : Nat) (l : List α) :
    (modifyAt f n l).length = l.length := by
  induction l generalizing n with
  | nil => cases n <;> rfl
  | cons a as ih =>
    cases n with
    | zero => rfl
    | succ m => simp only [modifyAt, List.length_cons, ih]

theorem modifyAt_of_le (f : α → α) (n : Nat) (l : List α) (h : l.length ≤ n) :
    modifyAt f n l = l := by
  induction l generalizing n with
  | nil => cases n <;> rfl
  | cons a as ih =>
    cases n with
    | zero => simp at h
    | succ m =>
      simp only [modifyAt, List.cons.injEq, true_and]
      exact ih m (by simpa using h)

theorem getD_modifyAt (f : α → α) (n m : Nat) (l : List α) (d : α) :
    (modifyAt f n l).getD m d =
      if n = m ∧ m < l.length then f (l.getD m d) else l.getD m d := by
  induction l generalizing n m with
  | nil => cases n <;> simp [modifyAt]
  | cons a as ih =>
    cases n with
    | zero =>
      cases m with
      | zero => simp [modifyAt]
      | succ m1 => simp [modifyAt]
    | succ n1 =>
      cases m with
      | zero => simp [modifyAt]
      | succ m1 =>
        simp only [modifyAt, List.getD_cons_succ, ih, List.length_cons]
        have hiff : (n1 = m1 ∧ m1 < as.length) ↔ (n1 + 1 = m1 + 1 ∧ m1 + 1 < as.length + 1) := by
          omega
        rw [if_congr hiff rfl rfl]

theorem map_modifyAt_invariant (f : α → α) (g : α → β) (n : Nat) (l : List α)
    (h : ∀ a, g (f a) = g a) : (modifyAt f n l).map g = l.map g := by
  induction l generalizing n with
  | nil => cases n <;> rfl
  | cons a as ih =>
    cases n with
    | zero => simp [modifyAt, h]
    | succ m => simp [modifyAt, ih]

theorem insertAt_eq (x : α) (n : Nat) (l : List α) (h : n ≤ l.length) :
    insertAt x n l = l.take n ++ x :: l.drop n := by
  induction l generalizing n with
  | nil =>
    cases n with
    | zero => rfl
    | succ m => simp at h
  | cons a as ih =>
    cases n with
    | zero => rfl
    | succ m => simp [insertAt, ih m (by simpa using h)]

theorem length_insertAt (x : α) (n : Nat) (l : List α) (h : n ≤ l.length) :
    (insertAt x n l).length = l.length + 1 := by
  rw [insertAt_eq x n l h]
  simp
  omega

theorem mem_insertAt (x a : α) (n : Nat) (l : List α) :
    a ∈ insertAt x n l ↔ a = x ∨ a ∈ l := by
  induction l generalizing n with
  | nil => cases n <;> simp [insertAt]
  | cons b bs ih =>
    cases n with
    | zero =>
      simp only [insertAt, List.mem_cons]
    | succ m =>
      simp only [insertAt, List.mem_cons, ih]
      tauto

theorem map_insertAt (g : α → β) (x : α) (n : Nat) (l : List α) :
    (insertAt x n l).map g = insertAt (g x) n (l.map g) := by
  induction l generalizing n with
  | nil => cases n <;> rfl
  | cons a as ih =>
    cases n with
    | zero => rfl
    | succ m => simp [insertAt, ih]

theorem getD_insertAt_lt (x : α) (n m : Nat) (l : List α) (d : α)
    (hn : n ≤ l.length) (h : m < n) :
    (insertAt x n l).getD m d = l.getD m d := by
  have hlt : m < (l.take n).length := by
    simp only [List.length_take]
    omega
  rw [insertAt_eq x n l hn, List.getD_append _ _ _ _ hlt, getD_take]
  simp [h]

theorem getD_insertAt_self (x : α) (n : Nat) (l : List α) (d : α) (h : n ≤ l.length) :
    (insertAt x n l).getD n d = x := by
  have hge : (l.take n).length ≤ n := by
    simp only [List.length_take]
    omega
  rw [insertAt_eq x n l h, List.getD_append_right _ _ _ _ hge]
  simp [List.length_take, Nat.min_eq_left h]

theorem getD_insertAt_gt (x : α) (n m : Nat) (l : List α) (d : α)
    (hn : n ≤ l.length) (h : n < m) :
    (insertAt x n l).getD m d = l.getD (m - 1) d := by
  have hge : (l.take n).length ≤ m := by
    simp only [List.length_take]
    omega
  rw [insertAt_eq x n l hn, List.getD_append_right _ _ _ _ hge]
  have hlen : (l.take n).length = n := by simp [List.length_take, Nat.min_eq_left hn]
  rw [hlen]
  have hm : m - n = (m - n - 1) + 1 := by omega
  rw [hm, List.getD_cons_succ, getD_drop]
  congr 1
  omega

theorem eraseAt_eq (n : Nat) (l : List α) (h : n < l.length) :
    eraseAt n l = l.take n ++ l.drop (n + 1) := by
  induction l generalizing n with
  | nil => simp at h
  | cons a as ih =>
    cases n with
    | zero => rfl
    | succ m => simp [eraseAt, ih m (by simpa using h)]

theorem length_eraseAt (n : Nat) (l : List α) (h : n < l.length) :
    (eraseAt n l).length = l.length - 1 := by
  rw [eraseAt_eq n l h]
  simp
  omega

theorem eraseAt_sublist (n : Nat) (l : List α) : (eraseAt n l).Sublist l := by
  induction l generalizing n with
  | nil => simp [eraseAt]
  | cons a as ih =>
    cases n with
    | zero => simp [eraseAt]
    | succ m => simpa [eraseAt] using (ih m).cons₂ a

theorem map_eraseAt (g : α → β) (n : Nat) (l : List α) :
    (eraseAt n l).map g = eraseAt n (l.map g) := by
  induction l generalizing n with
  | nil => cases n <;> rfl
  | cons a as ih =>
    cases n with
    | zero => rfl
    | succ m => simp [eraseAt, ih]

theorem getD_eraseAt_lt (n m : Nat) (l : List α) (d : α) (h : m < n) :
    (eraseAt n l).getD m d = l.getD m d := by
  induction l generalizing n m with
  | nil => cases n <;> rfl
  | cons a as ih =>
    cases n with
    | zero => omega
    | succ n1 =>
      cases m with
      | zero => rfl
      | succ m1 =>
        simp only [eraseAt, List.getD_cons_succ]
        exact ih n1 m1 (by omega)

theorem getD_eraseAt_ge (n m : Nat) (l : List α) (d : α) (h : n ≤ m) :
    (eraseAt n l).getD m d = l.getD (m + 1) d := by
  induction l generalizing n m with
  | nil => cases n <;> rfl
  | cons a as ih =>
    cases n with
    | zero =>
      simp only [eraseAt, List.getD_cons_succ]
    | succ n1 =>
      cases m with
      | zero => omega
      | succ m1 =>
        simp only [eraseAt, List.getD_cons_succ]
        exact ih n1 m1 (by omega)

/-! Characterizations of findFrom and nextFrom. -/

theorem findFrom_some (p : α → Bool) (d : α) :
    ∀ (l : List α) (i j : Nat), findFrom p i l = some j →
      i ≤ j ∧ j - i < l.length ∧ p (l.getD (j - i) d) = true ∧
        ∀ k, k < j - i → p (l.getD k d) = false := by
  intro l
  induction l with
  | nil =>
    intro i j h
    simp [findFrom] at h
  | cons a as ih =>
    intro i j h
    by_cases hpa : p a = true
    · rw [findFrom, if_pos hpa] at h
      cases h
      refine ⟨Nat.le_refl _, by simp, ?_, ?_⟩
      · simpa using hpa
      · intro k hk
        omega
    · rw [findFrom, if_neg hpa] at h
      obtain ⟨h1, h2, h3, h4⟩ := ih (i + 1) j h
      refine ⟨by omega, by simp; omega, ?_, ?_⟩
      · have : j - i = (j - (i + 1)) + 1 := by omega
        rw [this, List.getD_cons_succ]
        exact h3
      · intro k hk
        cases k with
        | zero => simpa using hpa
        | succ k1 =>
          rw [List.getD_cons_succ]
          exact h4 k1 (by omega)

theorem findFrom_none (p : α → Bool) (d : α) :
    ∀ (l : List α) (i : Nat), findFrom p i l = none →
      ∀ k, k < l.length → p (l.getD k d) = false := by
  intro l
  induction l with
  | nil =>
    intro i h k hk
    simp at hk
  | cons a as ih =>
    intro i h k hk
    by_cases hpa : p a = true
    · rw [findFrom, if_pos hpa] at h
      cases h
    · rw [findFrom, if_neg hpa] at h
      cases k with
      | zero => simpa using hpa
      | succ k1 =>
        rw [List.getD_cons_succ]
        exact ih (i + 1) h k1 (by simpa using hk)

theorem findFrom_exists (p : α → Bool) (d : α) :
    ∀ (l : List α) (i k : Nat), k < l.length → p (l.getD k d) = true →
      ∃ j, findFrom p i l = some j ∧ j ≤ i + k := by
  intro l
  induction l with
  | nil =>
    intro i k hk
    simp at hk
  | cons a as ih =>
    intro i k hk hp
    by_cases hpa : p a = true
    · exact ⟨i, by rw [findFrom, if_pos hpa], by omega⟩
    · cases k with
      | zero =>
        rw [List.getD_cons_zero] at hp
        exact absurd hp hpa
      | succ k1 =>
        rw [List.getD_cons_succ] at hp
        obtain ⟨j, hj, hle⟩ := ih (i + 1) k1 (by simpa using hk) hp
        exact ⟨j, by rw [findFrom, if_neg hpa]; exact hj, by omega⟩

theorem findFrom_ext (p1 p2 : α → Bool) (d : α) :
    ∀ (l1 l2 : List α) (i : Nat), l1.length = l2.length →
      (∀ k, k < l1.length → p1 (l1.getD k d) = p2 (l2.getD k d)) →
      findFrom p1 i l1 = findFrom p2 i l2 := by
  intro l1
  induction l1 with
  | nil =>
    intro l2 i hlen _
    cases l2 with
    | nil => rfl
    | cons b bs => simp at hlen
  | cons a as ih =>
    intro l2 i hlen hpt
    cases l2 with
    | nil => simp at hlen
    | cons b bs =>
      have h0 : p1 a = p2 b := by simpa using hpt 0 (by simp)
      rw [findFrom, findFrom, h0]
      by_cases hb : p2 b = true
      · rw [if_pos hb, if_pos hb]
      · rw [if_neg hb, if_neg hb]
        refine ih bs (i + 1) (by simpa using hlen) ?_
        intro k hk
        simpa using hpt (k + 1) (by simpa using hk)

variable {lessG : K → K → Bool} {scoreG : K → Int}

theorem nextFrom_some_bounds {es : List (Elem K V)} {L st j : Nat}
    (h : nextFrom es L st = some j) : st ≤ j ∧ j < es.length := by
  obtain ⟨h1, h2, _, _⟩ := findFrom_some _ default _ _ _ h
  refine ⟨h1, ?_⟩
  have := List.length_drop st es
  omega

theorem nextFrom_some_hit {es : List (Elem K V)} {L st j : Nat}
    (h : nextFrom es L st = some j) : L < (getE es j).widths.length := by
  obtain ⟨h1, h2, h3, _⟩ := findFrom_some _ default _ _ _ h
  rw [getD_drop] at h3
  have hj : st + (j - st) = j := by omega
  rw [hj] at h3
  simpa [getE] using h3

theorem nextFrom_some_min {es : List (Elem K V)} {L st j : Nat}
    (h : nextFrom es L st = some j) :
    ∀ t, st ≤ t → t < j → (getE es t).widths.length ≤ L := by
  obtain ⟨h1, h2, _, h4⟩ := findFrom_some _ default _ _ _ h
  intro t ht1 ht2
  have := h4 (t - st) (by omega)
  rw [getD_drop] at this
  have hj : st + (t - st) = t := by omega
  rw [hj] at this
  simpa [getE] using this

theorem nextFrom_none {es : List (Elem K V)} {L st : Nat}
    (h : nextFrom es L st = none) :
    ∀ t, st ≤ t → t < es.length → (getE es t).widths.length ≤ L := by
  intro t ht1 ht2
  have := findFrom_none _ default _ _ h (t - st)
    (by rw [List.length_drop]; omega)
  rw [getD_drop] at this
  have hj : st + (t - st) = t := by omega
  rw [hj] at this
  simpa [getE] using this

theorem nextFrom_exists {es : List (Elem K V)} {L st t : Nat}
    (ht1 : st ≤ t) (ht2 : t < es.length) (hc : L < (getE es t).widths.length) :
    ∃ j, nextFrom es L st = some j ∧ st ≤ j ∧ j ≤ t := by
  have hlen2 : t - st < (es.drop st).length := by
    rw [List.length_drop]
    omega
  have hp : (fun e : Elem K V => decide (L < e.widths.length))
      ((es.drop st).getD (t - st) default) = true := by
    rw [getD_drop]
    have hj : st + (t - st) = t := by omega
    rw [hj]
    simpa [getE] using hc
  obtain ⟨j, hj, hle⟩ := findFrom_exists (fun e : Elem K V => decide (L < e.widths.length))
    default (es.drop st) st (t - st) hlen2 hp
  have hj2 : nextFrom es L st = some j := hj
  have hb := nextFrom_some_bounds hj2
  exact ⟨j, hj2, hb.1, by omega⟩

theorem nextFrom_determine {es : List (Elem K V)} {L st q : Nat}
    (h1 : st ≤ q) (h2 : q < es.length) (h3 : L < (getE es q).widths.length)
    (h4 : ∀ t, st ≤ t → t < q → (getE es t).widths.length ≤ L) :
    nextFrom es L st = some q := by
  obtain ⟨j, hj, hj1, hj2⟩ := nextFrom_exists h1 h2 h3
  have hhit := nextFrom_some_hit hj
  rcases Nat.lt_or_ge j q with hlt | hge
  · have := h4 j hj1 hlt
    omega
  · have : j = q := by omega
    rw [← this]
    exact hj

theorem nextFrom_eq_none {es : List (Elem K V)} {L st : Nat}
    (h : ∀ t, st ≤ t → t < es.length → (getE es t).widths.length ≤ L) :
    nextFrom es L st = none := by
  cases hn : nextFrom es L st with
  | none => rfl
  | some j =>
    obtain ⟨h1, h2⟩ := nextFrom_some_bounds hn
    have := nextFrom_some_hit hn
    have := h j h1 h2
    omega

theorem nextFrom_ext {es es2 : List (Elem K V)} {L st : Nat}
    (hlen : es.length = es2.length)
    (hh : ∀ t, t < es.length → (getE es t).widths.length = (getE es2 t).widths.length) :
    nextFrom es L st = nextFrom es2 L st := by
  refine findFrom_ext _ _ default _ _ st (by simp [hlen]) ?_
  intro k hk
  rw [List.length_drop] at hk
  rw [getD_drop, getD_drop]
  have := hh (st + k) (by omega)
  simp only [getE] at this
  rw [this]

/-! Access bridges and basic state-operation lemmas. -/

theorem getE_eq_getElem {es : List (Elem K V)} {i : Nat} (h : i < es.length) :
    getE es i = es[i] := by
  rw [getE, List.getD_eq_getElem?_getD, List.getElem?_eq_getElem h]
  rfl

theorem getE_mem {es : List (Elem K V)} {i : Nat} (h : i < es.length) :
    getE es i ∈ es := by
  rw [getE_eq_getElem h]
  exact List.getElem_mem h

theorem pairwise_getE {R : Elem K V → Elem K V → Prop} {es : List (Elem K V)}
    (hp : es.Pairwise R) {i j : Nat} (hij : i < j) (hj : j < es.length) :
    R (getE es i) (getE es j) := by
  rw [getE_eq_getElem (by omega), getE_eq_getElem hj]
  exact List.pairwise_iff_getElem.mp hp i j (by omega) hj hij

theorem slotW_some_eq (spine : List Int) (es : List (Elem K V)) (L i : Nat) :
    slotW spine es L (some i) =
      if i < es.length then (getE es i).widths.getD L 0 else 0 := by
  rcases Nat.lt_or_ge i es.length with h | h
  · rw [slotW, List.getElem?_eq_getElem h, if_pos h, getE_eq_getElem h]
  · rw [slotW, List.getElem?_eq_none (by omega), if_neg (by omega)]

theorem heightsOf_getE {es es2 : List (Elem K V)} (h : heightsOf es = heightsOf es2)
    (t : Nat) (ht : t < es.length) :
    (getE es t).widths.length = (getE es2 t).widths.length := by
  have hlen : es.length = es2.length := by
    have := congrArg List.length h
    simpa [heightsOf] using this
  have h1 : (heightsOf es).getD t 0 = (getE es t).widths.length := by
    rw [heightsOf, List.getD_eq_getElem?_getD, List.getElem?_map,
      List.getElem?_eq_getElem ht]
    simp [getE_eq_getElem ht]
  have h2 : (heightsOf es2).getD t 0 = (getE es2 t).widths.length := by
    rw [heightsOf, List.getD_eq_getElem?_getD, List.getElem?_map,
      List.getElem?_eq_getElem (by omega : t < es2.length)]
    simp [getE_eq_getElem (by omega : t < es2.length)]
  rw [← h1, ← h2, h]

theorem nextFrom_congr {es es2 : List (Elem K V)} (h : heightsOf es = heightsOf es2)
    (L st : Nat) : nextFrom es L st = nextFrom es2 L st := by
  have hlen : es.length = es2.length := by
    have := congrArg List.length h
    simpa [heightsOf] using this
  exact nextFrom_ext hlen (heightsOf_getE h)

/-! updateSlot lemmas. -/

theorem updateSlot_cnt (s : SL K V) (L : Nat) (o : Option Nat) (f : Int → Int) :
    (updateSlot s L o f).cnt = s.cnt := by
  cases o <;> rfl

theorem updateSlot_spine_length (s : SL K V) (L : Nat) (o : Option Nat) (f : Int → Int) :
    (updateSlot s L o f).spine.length = s.spine.length := by
  cases o with
  | none => simp [updateSlot, length_modifyAt]
  | some i => rfl

theorem updateSlot_elems_length (s : SL K V) (L : Nat) (o : Option Nat) (f : Int → Int) :
    (updateSlot s L o f).elems.length = s.elems.length := by
  cases o with
  | none => rfl
  | some i => simp [updateSlot, length_modifyAt]

theorem updateSlot_heights (s : SL K V) (L : Nat) (o : Option Nat) (f : Int → Int) :
    heightsOf (updateSlot s L o f).elems = heightsOf s.elems := by
  cases o with
  | none => rfl
  | some i =>
    simp only [updateSlot, heightsOf]
    refine map_modifyAt_invariant _ _ i s.elems ?_
    intro e
    simp [length_modifyAt]

theorem updateSlot_proj (s : SL K V) (L : Nat) (o : Option Nat) (f : Int → Int) :
    (updateSlot s L o f).elems.map proj = s.elems.map proj := by
  cases o with
  | none => rfl
  | some i =>
    simp only [updateSlot]
    refine map_modifyAt_invariant _ _ i s.elems ?_
    intro e
    simp [proj]

theorem SlotIn_congr {s s2 : SL K V} (hsp : s2.spine.length = s.spine.length)
    (hh : heightsOf s2.elems = heightsOf s.elems) (L : Nat) (o : Option Nat) :
    SlotIn s2 L o ↔ SlotIn s L o := by
  have hlen : s2.elems.length = s.elems.length := by
    have := congrArg List.length hh
    simpa [heightsOf] using this
  cases o with
  | none => simp [SlotIn, hsp]
  | some i =>
    simp only [SlotIn, hlen]
    constructor
    · rintro ⟨h1, h2⟩
      exact ⟨h1, by rw [← heightsOf_getE hh i (by omega)]; exact h2⟩
    · rintro ⟨h1, h2⟩
      exact ⟨h1, by rw [heightsOf_getE hh i (by omega)]; exact h2⟩

theorem SlotIn_none_iff (s : SL K V) (L : Nat) :
    SlotIn s L none ↔ L < s.spine.length := Iff.rfl

theorem SlotIn_some_iff (s : SL K V) (L i : Nat) :
    SlotIn s L (some i) ↔ i < s.elems.length ∧ L < (getE s.elems i).widths.length := Iff.rfl

theorem WAt_updateSlot (s : SL K V) (L : Nat) (o : Option Nat) (f : Int → Int)
    (L2 : Nat) (o2 : Option Nat) :
    WAt (updateSlot s L o f) L2 o2 =
      if L2 = L ∧ o2 = o ∧ SlotIn s L o then f (WAt s L2 o2) else WAt s L2 o2 := by
  cases o with
  | none =>
    cases o2 with
    | none =>
      simp only [WAt, updateSlot, slotW]
      rw [getD_modifyAt]
      by_cases hL : L2 = L
      · subst hL
        by_cases hin : L2 < s.spine.length <;>
          simp [SlotIn_none_iff, hin]
      · simp [hL]
        exact fun h _ => absurd h.symm hL
    | some i =>
      simp only [WAt, updateSlot, slotW]
      simp
  | some i =>
    cases o2 with
    | none =>
      simp only [WAt, updateSlot, slotW]
      simp
    | some i2 =>
      simp only [WAt, updateSlot]
      rw [slotW_some_eq, slotW_some_eq, length_modifyAt]
      have hgetE : getE (modifyAt (fun e => { e with widths := modifyAt f L e.widths }) i s.elems) i2 =
          if i = i2 ∧ i2 < s.elems.length then
            { getE s.elems i2 with widths := modifyAt f L (getE s.elems i2).widths }
          else getE s.elems i2 := by
        rw [getE, getE, getD_modifyAt]
      by_cases hi2 : i2 < s.elems.length
      · rw [if_pos hi2, if_pos hi2, hgetE]
        by_cases hii : i = i2
        · subst hii
          rw [if_pos ⟨rfl, hi2⟩]
          show (modifyAt f L (getE s.elems i).widths).getD L2 0 = _
          rw [getD_modifyAt]
          by_cases hL : L2 = L
          · subst hL
            by_cases hin : L2 < (getE s.elems i).widths.length <;>
              simp [SlotIn_some_iff, hi2, hin]
          · simp [hL]
            exact fun h _ => absurd h.symm hL
        · rw [if_neg (fun hc => hii hc.1),
            if_neg (fun hc => hii (Option.some.inj hc.2.1).symm)]
      · rw [if_neg hi2, if_neg hi2]
        by_cases hii : i2 = i
        · subst hii
          simp [SlotIn_some_iff, hi2]
        · simp [hii]

/-! grow, shrink and levelsFor lemmas. -/

theorem levelsFor_succ (n : Nat) :
    levelsFor (n + 1) = levelsFor n + (if pow2Test (n + 1) then 1 else 0) := rfl

theorem levelsFor_pos (n : Nat) : 1 ≤ levelsFor (n + 1) := by
  induction n with
  | zero => decide
  | succ m ih =>
    rw [levelsFor_succ]
    omega

theorem levelsFor_eq_zero {n : Nat} (h : levelsFor n = 0) : n = 0 := by
  cases n with
  | zero => rfl
  | succ m =>
    have := levelsFor_pos m
    omega

theorem grow_cnt (s : SL K V) : (grow s).cnt = s.cnt + 1 := rfl

theorem grow_elems (s : SL K V) : (grow s).elems = s.elems := rfl

theorem grow_spine_length (s : SL K V) (h : s.spine.length = levelsFor s.cnt) :
    (grow s).spine.length = levelsFor (s.cnt + 1) := by
  simp only [grow, levelsFor_succ]
  by_cases hp : pow2Test (s.cnt + 1)
  · rw [if_pos hp, if_pos hp, List.length_append, h]
    rfl
  · rw [if_neg hp, if_neg hp, h]
    omega

theorem grow_spine_getD_lt (s : SL K V) {L : Nat} (h : L < s.spine.length) :
    (grow s).spine.getD L 0 = s.spine.getD L 0 := by
  simp only [grow]
  by_cases hp : pow2Test (s.cnt + 1)
  · rw [if_pos hp, List.getD_append _ _ _ _ h]
  · rw [if_neg hp]

theorem grow_spine_getD_top (s : SL K V) (hp : pow2Test (s.cnt + 1)) :
    (grow s).spine.getD s.spine.length 0 = ((s.cnt : Int) + 1) := by
  simp only [grow]
  rw [if_pos hp, List.getD_append_right _ _ _ _ (Nat.le_refl _)]
  simp

theorem shrink_cnt (s : SL K V) : (shrink s).cnt = s.cnt - 1 := by
  rw [shrink]
  by_cases hp : pow2Test s.cnt
  · rw [if_pos hp]
  · rw [if_neg hp]

/-! levelFold lemmas. -/

theorem levelFold_cnt (O : Nat → Option Nat) (F : Nat → Int → Int) (Ls : List Nat)
    (s : SL K V) : (levelFold O F Ls s).cnt = s.cnt := by
  induction Ls generalizing s with
  | nil => rfl
  | cons L rest ih => rw [levelFold, ih, updateSlot_cnt]

theorem levelFold_spine_length (O : Nat → Option Nat) (F : Nat → Int → Int) (Ls : List Nat)
    (s : SL K V) : (levelFold O F Ls s).spine.length = s.spine.length := by
  induction Ls generalizing s with
  | nil => rfl
  | cons L rest ih => rw [levelFold, ih, updateSlot_spine_length]

theorem levelFold_elems_length (O : Nat → Option Nat) (F : Nat → Int → Int) (Ls : List Nat)
    (s : SL K V) : (levelFold O F Ls s).elems.length = s.elems.length := by
  induction Ls generalizing s with
  | nil => rfl
  | cons L rest ih => rw [levelFold, ih, updateSlot_elems_length]

theorem levelFold_heights (O : Nat → Option Nat) (F : Nat → Int → Int) (Ls : List Nat)
    (s : SL K V) : heightsOf (levelFold O F Ls s).elems = heightsOf s.elems := by
  induction Ls generalizing s with
  | nil => rfl
  | cons L rest ih => rw [levelFold, ih, updateSlot_heights]

theorem levelFold_proj (O : Nat → Option Nat) (F : Nat → Int → Int) (Ls : List Nat)
    (s : SL K V) : (levelFold O F Ls s).elems.map proj = s.elems.map proj := by
  induction Ls generalizing s with
  | nil => rfl
  | cons L rest ih => rw [levelFold, ih, updateSlot_proj]

theorem WAt_levelFold (O : Nat → Option Nat) (F : Nat → Int → Int) (Ls : List Nat)
    (s : SL K V) (hnd : Ls.Nodup) (L2 : Nat) (o2 : Option Nat) :
    WAt (levelFold O F Ls s) L2 o2 =
      if L2 ∈ Ls ∧ o2 = O L2 ∧ SlotIn s L2 (O L2) then F L2 (WAt s L2 o2)
      else WAt s L2 o2 := by
  induction Ls generalizing s with
  | nil =>
    rw [levelFold, if_neg (fun hc => by simp at hc)]
  | cons L rest ih =>
    have hnd2 : rest.Nodup := (List.nodup_cons.mp hnd).2
    have hnotmem : L ∉ rest := (List.nodup_cons.mp hnd).1
    rw [levelFold, ih _ hnd2]
    have hslot : ∀ L3 o3, SlotIn (updateSlot s L (O L) (F L)) L3 o3 ↔ SlotIn s L3 o3 :=
      fun L3 o3 =>
        SlotIn_congr (updateSlot_spine_length _ _ _ _) (updateSlot_heights _ _ _ _) L3 o3
    by_cases hmain : L2 ∈ rest ∧ o2 = O L2 ∧ SlotIn s L2 (O L2)
    · have hne : L2 ≠ L := fun hEq => hnotmem (hEq ▸ hmain.1)
      rw [if_pos ⟨hmain.1, hmain.2.1, (hslot _ _).mpr hmain.2.2⟩,
        if_pos ⟨List.mem_cons_of_mem _ hmain.1, hmain.2.1, hmain.2.2⟩,
        WAt_updateSlot, if_neg (fun hc => hne hc.1)]
    · rw [if_neg (fun hc => hmain ⟨hc.1, hc.2.1, (hslot _ _).mp hc.2.2⟩), WAt_updateSlot]
      by_cases hsub : L2 = L ∧ o2 = O L ∧ SlotIn s L (O L)
      · obtain ⟨hL, ho, hin⟩ := hsub
        rw [if_pos ⟨hL, ho, hin⟩,
          if_pos ⟨by rw [hL]; exact List.mem_cons_self _ _, by rw [hL]; exact ho,
            by rw [hL]; exact (congrArg (O) hL) ▸ hin⟩,
          hL]
      · rw [if_neg hsub,
          if_neg (fun hc => by
            rcases List.mem_cons.mp hc.1 with hEq | hmem2
            · exact hsub ⟨hEq, hEq ▸ hc.2.1, hEq ▸ hc.2.2⟩
            · exact hmain ⟨hmem2, hc.2.1, hc.2.2⟩)]

/-! Suffix-decomposition helpers. -/

theorem drop_cons_length {l : List α} {i : Nat} {e : α} {rest : List α}
    (h : l.drop i = e :: rest) : i < l.length := by
  have h2 := congrArg List.length h
  simp [List.length_drop] at h2
  omega

theorem drop_cons_getD {l : List α} {i : Nat} {e : α} {rest : List α} (d : α)
    (h : l.drop i = e :: rest) : l.getD i d = e := by
  have h0 : (l.drop i).getD 0 d = e := by rw [h]; rfl
  rwa [getD_drop, Nat.add_zero] at h0

theorem drop_cons_tail {l : List α} {i : Nat} {e : α} {rest : List α}
    (h : l.drop i = e :: rest) : l.drop (i + 1) = rest := by
  rw [← List.drop_drop, h]
  rfl

/-! Trace correctness of the per-level walks. -/

theorem WFc_WAt {c : Nat} {s : SL K V} (hwf : WFc lessG scoreG c s)
    {L : Nat} (hL : L < s.spine.length) {o : Option Nat} (ho : ChainOK s.elems L o) :
    WAt s L o = gapFrom s.elems L o := by
  cases o with
  | none => exact hwf.spineW L hL
  | some t =>
    obtain ⟨ht, hh⟩ := ho
    rw [WAt, slotW_some_eq, if_pos ht]
    exact hwf.elemW t ht L hh

theorem walkK_spec (s : SL K V)
    (HW : ∀ (L : Nat) (o : Option Nat), L < s.spine.length → ChainOK s.elems L o →
      WAt s L o = gapFrom s.elems L o)
    (less : K → K → Bool) (key : K) (sc : Int) {L : Nat} (hL : L < s.spine.length) :
    ∀ (rest : List (Elem K V)) (i : Nat) (o : Option Nat) (pos curW : Int),
      s.elems.drop i = rest →
      startOf o ≤ i →
      ChainOK s.elems L o →
      (∀ t, startOf o ≤ t → t < i → (getE s.elems t).widths.length ≤ L) →
      pos = idxInt o →
      curW = WAt s L o →
      ChainOK s.elems L (walkK less key sc L rest i o pos curW).1 ∧
      (walkK less key sc L rest i o pos curW).2 =
        idxInt (walkK less key sc L rest i o pos curW).1 ∧
      ((walkK less key sc L rest i o pos curW).1 = o ∨
        ∃ t, (walkK less key sc L rest i o pos curW).1 = some t ∧
          sLT less key sc (getE s.elems t) = true) ∧
      (∀ j, nextIdx s.elems L (walkK less key sc L rest i o pos curW).1 = some j →
        sLT less key sc (getE s.elems j) = false) ∧
      startOf o ≤ startOf (walkK less key sc L rest i o pos curW).1 := by
  intro rest
  induction rest with
  | nil =>
    intro i o pos curW hdrop hio hcho hfree hpos hcur
    have hlen : s.elems.length ≤ i := by
      have h2 := congrArg List.length hdrop
      simp [List.length_drop] at h2
      omega
    refine ⟨hcho, by simpa [walkK] using hpos, Or.inl rfl, ?_, Nat.le_refl _⟩
    intro j hj
    rw [walkK] at hj
    have hnone : nextFrom s.elems L (startOf o) = none :=
      nextFrom_eq_none (fun t ht1 ht2 => hfree t ht1 (by omega))
    rw [nextIdx] at hj
    rw [hnone] at hj
    cases hj
  | cons e rest2 ih =>
    intro i o pos curW hdrop hio hcho hfree hpos hcur
    have hi : i < s.elems.length := drop_cons_length hdrop
    have hge : getE s.elems i = e := drop_cons_getD default hdrop
    have htail : s.elems.drop (i + 1) = rest2 := drop_cons_tail hdrop
    rw [walkK]
    by_cases hinc : L < e.widths.length
    · rw [if_pos hinc]
      have hnext : nextIdx s.elems L o = some i := by
        rw [nextIdx]
        exact nextFrom_determine hio hi (by rw [hge]; exact hinc) hfree
      by_cases hslt : sLT less key sc e = true
      · rw [if_pos hslt]
        have hgap : WAt s L o = (i : Int) - idxInt o := by
          rw [HW L o hL hcho, gapFrom, hnext]
        have harg : pos + curW = idxInt (some i) := by
          rw [hpos, hcur, hgap, idxInt]
          ring
        have hcurw : e.widths.getD L 0 = WAt s L (some i) := by
          rw [WAt, slotW_some_eq, if_pos hi, hge]
        obtain ⟨c1, c2, c3, c4, c5⟩ := ih (i + 1) (some i) (pos + curW) (e.widths.getD L 0)
          htail (by rw [startOf]) ⟨hi, by rw [hge]; exact hinc⟩
          (fun t ht1 ht2 => by simp only [startOf] at ht1; omega) harg hcurw
        refine ⟨c1, c2, ?_, c4, ?_⟩
        · rcases c3 with hEq | hEx
          · exact Or.inr ⟨i, hEq, by rw [hge]; exact hslt⟩
          · exact Or.inr hEx
        · have : startOf o ≤ startOf (some i) := by rw [startOf]; omega
          omega
      · rw [if_neg hslt]
        refine ⟨hcho, hpos, Or.inl rfl, ?_, Nat.le_refl _⟩
        intro j hj
        rw [hnext] at hj
        cases hj
        rw [hge]
        exact eq_false_of_ne_true hslt
    · rw [if_neg hinc]
      exact ih (i + 1) o pos curW htail (by omega) hcho
        (fun t ht1 ht2 => by
          rcases Nat.lt_or_ge t i with ht | ht
          · exact hfree t ht1 ht
          · have : t = i := by omega
            rw [this, hge]
            omega)
        hpos hcur

theorem walkN_spec (s : SL K V)
    (HW : ∀ (L : Nat) (o : Option Nat), L < s.spine.length → ChainOK s.elems L o →
      WAt s L o = gapFrom s.elems L o)
    (index : Int) {L : Nat} (hL : L < s.spine.length) :
    ∀ (rest : List (Elem K V)) (i : Nat) (o : Option Nat) (pos curW : Int),
      s.elems.drop i = rest →
      startOf o ≤ i →
      ChainOK s.elems L o →
      (∀ t, startOf o ≤ t → t < i → (getE s.elems t).widths.length ≤ L) →
      pos = idxInt o + 1 →
      curW = WAt s L o →
      ChainOK s.elems L (walkN index L rest i o pos curW).1 ∧
      (walkN index L rest i o pos curW).2 = idxInt (walkN index L rest i o pos curW).1 + 1 ∧
      ((walkN index L rest i o pos curW).1 = o ∨
        ∃ t, (walkN index L rest i o pos curW).1 = some t ∧ (t : Int) < index) ∧
      (∀ j, nextIdx s.elems L (walkN index L rest i o pos curW).1 = some j →
        index ≤ (j : Int)) ∧
      startOf o ≤ startOf (walkN index L rest i o pos curW).1 := by
  intro rest
  induction rest with
  | nil =>
    intro i o pos curW hdrop hio hcho hfree hpos hcur
    refine ⟨hcho, by simpa [walkN] using hpos, Or.inl rfl, ?_, Nat.le_refl _⟩
    intro j hj
    have hlen : s.elems.length ≤ i := by
      have h2 := congrArg List.length hdrop
      simp [List.length_drop] at h2
      omega
    rw [walkN] at hj
    have hnone : nextFrom s.elems L (startOf o) = none :=
      nextFrom_eq_none (fun t ht1 ht2 => hfree t ht1 (by omega))
    rw [nextIdx, hnone] at hj
    cases hj
  | cons e rest2 ih =>
    intro i o pos curW hdrop hio hcho hfree hpos hcur
    have hi : i < s.elems.length := drop_cons_length hdrop
    have hge : getE s.elems i = e := drop_cons_getD default hdrop
    have htail : s.elems.drop (i + 1) = rest2 := drop_cons_tail hdrop
    rw [walkN]
    by_cases hinc : L < e.widths.length
    · rw [if_pos hinc]
      have hnext : nextIdx s.elems L o = some i := by
        rw [nextIdx]
        exact nextFrom_determine hio hi (by rw [hge]; exact hinc) hfree
      have hgap : WAt s L o = (i : Int) - idxInt o := by
        rw [HW L o hL hcho, gapFrom, hnext]
      have hsum : pos + curW = (i : Int) + 1 := by
        rw [hpos, hcur, hgap]
        ring
      by_cases hcond : pos + curW ≤ index
      · rw [if_pos hcond]
        have harg : pos + curW = idxInt (some i) + 1 := by
          rw [hsum, idxInt]
        have hcurw : e.widths.getD L 0 = WAt s L (some i) := by
          rw [WAt, slotW_some_eq, if_pos hi, hge]
        obtain ⟨c1, c2, c3, c4, c5⟩ := ih (i + 1) (some i) (pos + curW) (e.widths.getD L 0)
          htail (by rw [startOf]) ⟨hi, by rw [hge]; exact hinc⟩
          (fun t ht1 ht2 => by simp only [startOf] at ht1; omega) harg hcurw
        refine ⟨c1, c2, ?_, c4, ?_⟩
        · rcases c3 with hEq | hEx
          · refine Or.inr ⟨i, hEq, ?_⟩
            rw [hsum] at hcond
            omega
          · exact Or.inr hEx
        · have : startOf o ≤ startOf (some i) := by rw [startOf]; omega
          omega
      · rw [if_neg hcond]
        refine ⟨hcho, hpos, Or.inl rfl, ?_, Nat.le_refl _⟩
        intro j hj
        rw [hnext] at hj
        cases hj
        rw [hsum] at hcond
        omega
    · rw [if_neg hinc]
      exact ih (i + 1) o pos curW htail (by omega) hcho
        (fun t ht1 ht2 => by
          rcases Nat.lt_or_ge t i with ht | ht
          · exact hfree t ht1 ht
          · have : t = i := by omega
            rw [this, hge]
            omega)
        hpos hcur

/-! lowerIdx and order helpers. -/

theorem takeWhile_length_le (p : α → Bool) (l : List α) :
    (l.takeWhile p).length ≤ l.length := by
  induction l with
  | nil => simp
  | cons a as ih =>
    rw [List.takeWhile_cons]
    by_cases hp : p a = true
    · rw [if_pos hp]
      simpa using ih
    · rw [if_neg hp]
      simp

theorem takeWhile_sat (p : α → Bool) (d : α) (l : List α) :
    ∀ t, t < (l.takeWhile p).length → p (l.getD t d) = true := by
  induction l with
  | nil => simp
  | cons a as ih =>
    intro t ht
    rw [List.takeWhile_cons] at ht
    by_cases hp : p a = true
    · rw [if_pos hp] at ht
      cases t with
      | zero => simpa using hp
      | succ t1 =>
        rw [List.getD_cons_succ]
        exact ih t1 (by simpa using ht)
    · rw [if_neg hp] at ht
      simp at ht

theorem takeWhile_stop (p : α → Bool) (d : α) (l : List α)
    (h : (l.takeWhile p).length < l.length) :
    p (l.getD (l.takeWhile p).length d) = false := by
  induction l with
  | nil => simp at h
  | cons a as ih =>
    rw [List.takeWhile_cons]
    by_cases hp : p a = true
    · rw [List.takeWhile_cons, if_pos hp] at h
      rw [if_pos hp]
      simp only [List.length_cons, List.getD_cons_succ]
      exact ih (by simpa using h)
    · rw [if_neg hp]
      simpa using hp

theorem sLT_down {less : K → K → Bool} {score : K → Int} (HL : LessOK less score)
    {key : K} {sc : Int} {a b : Elem K V} (hab : relE less a b)
    (hb : sLT less key sc b = true) : sLT less key sc a = true := by
  rw [sLT] at hb ⊢
  rcases Bool.or_eq_true_iff.mp hb with hb1 | hb2
  · have hbs : b.score < sc := of_decide_eq_true hb1
    rcases hab with h1 | ⟨h2, _⟩
    · exact Bool.or_eq_true_iff.mpr (Or.inl (decide_eq_true (by omega)))
    · exact Bool.or_eq_true_iff.mpr (Or.inl (decide_eq_true (by omega)))
  · obtain ⟨hbeq, hbl⟩ := Bool.and_eq_true_iff.mp hb2
    have hbs : b.score = sc := of_decide_eq_true hbeq
    rcases hab with h1 | ⟨h2, h3⟩
    · exact Bool.or_eq_true_iff.mpr (Or.inl (decide_eq_true (by omega)))
    · refine Bool.or_eq_true_iff.mpr (Or.inr (Bool.and_eq_true_iff.mpr
        ⟨decide_eq_true (by omega), ?_⟩))
      by_cases hak : less a.key key = true
      · exact hak
      · have h4 := HL.negtrans b.key a.key key h3 (Bool.eq_false_iff.mpr hak)
        rw [hbl] at h4
        cases h4

theorem lowerIdx_le (less : K → K → Bool) (key : K) (sc : Int) (es : List (Elem K V)) :
    lowerIdx less key sc es ≤ es.length :=
  takeWhile_length_le _ es

theorem lowerIdx_sat {less : K → K → Bool} {key : K} {sc : Int} {es : List (Elem K V)}
    {t : Nat} (ht : t < lowerIdx less key sc es) :
    sLT less key sc (getE es t) = true :=
  takeWhile_sat _ default es t ht

theorem lowerIdx_stop {less : K → K → Bool} {key : K} {sc : Int} {es : List (Elem K V)}
    (h : lowerIdx less key sc es < es.length) :
    sLT less key sc (getE es (lowerIdx less key sc es)) = false :=
  takeWhile_stop _ default es h

theorem lowerIdx_tail {less : K → K → Bool} {score : K → Int} (HL : LessOK less score)
    {key : K} {sc : Int} {es : List (Elem K V)} (hsort : es.Pairwise (relE less))
    {t : Nat} (h1 : lowerIdx less key sc es ≤ t) (h2 : t < es.length) :
    sLT less key sc (getE es t) = false := by
  rcases Nat.eq_or_lt_of_le h1 with hEq | hlt
  · rw [← hEq]
    exact lowerIdx_stop (by omega)
  · by_cases hs : sLT less key sc (getE es t) = true
    · have hrel : relE less (getE es (lowerIdx less key sc es)) (getE es t) :=
        pairwise_getE hsort hlt h2
      have := sLT_down HL hrel hs
      rw [lowerIdx_stop (by omega)] at this
      cases this
    · exact Bool.eq_false_iff.mpr hs

theorem lowerIdx_of_sat {less : K → K → Bool} {score : K → Int} (HL : LessOK less score)
    {key : K} {sc : Int} {es : List (Elem K V)} (hsort : es.Pairwise (relE less))
    {t : Nat} (h2 : t < es.length) (hs : sLT less key sc (getE es t) = true) :
    t < lowerIdx less key sc es := by
  by_cases h : t < lowerIdx less key sc es
  · exact h
  · rw [lowerIdx_tail HL hsort (by omega) h2] at hs
    cases hs

/-! Trace correctness of the full traversals. -/

theorem originAt_append_lt {arr1 arr2 : List (Option Nat × Int)} {L : Nat}
    (h : L < arr1.length) : originAt (arr1 ++ arr2) L = originAt arr1 L := by
  rw [originAt, originAt, List.getD_append _ _ _ _ h]

theorem posAt_append_lt {arr1 arr2 : List (Option Nat × Int)} {L : Nat}
    (h : L < arr1.length) : posAt (arr1 ++ arr2) L = posAt arr1 L := by
  rw [posAt, posAt, List.getD_append _ _ _ _ h]

theorem originAt_append_self {arr1 : List (Option Nat × Int)} {r : Option Nat × Int} :
    originAt (arr1 ++ [r]) arr1.length = r.1 := by
  rw [originAt, List.getD_append_right _ _ _ _ (Nat.le_refl _), Nat.sub_self]
  rfl

theorem posAt_append_self {arr1 : List (Option Nat × Int)} {r : Option Nat × Int} :
    posAt (arr1 ++ [r]) arr1.length = r.2 := by
  rw [posAt, List.getD_append_right _ _ _ _ (Nat.le_refl _), Nat.sub_self]
  rfl

theorem prevsFrom_spec (s : SL K V)
    (HW : ∀ (L : Nat) (o : Option Nat), L < s.spine.length → ChainOK s.elems L o →
      WAt s L o = gapFrom s.elems L o)
    (less : K → K → Bool) (key : K) (sc : Int) :
    ∀ (L : Nat), L < s.spine.length →
    ∀ (o : Option Nat) (pos : Int),
      ChainOK s.elems L o →
      (o = none ∨ ∃ t, o = some t ∧ sLT less key sc (getE s.elems t) = true) →
      pos = idxInt o →
      (prevsFrom less key sc s.spine s.elems L o pos).length = L + 1 ∧
      KTrace less key sc s.elems (prevsFrom less key sc s.spine s.elems L o pos) := by
  intro L
  induction L with
  | zero =>
    intro hL o pos hcho horig hpos
    obtain ⟨c1, c2, c3, c4, c5⟩ := walkK_spec s HW less key sc hL
      (s.elems.drop (startOf o)) (startOf o) o pos (slotW s.spine s.elems 0 o)
      rfl (Nat.le_refl _) hcho (fun t ht1 ht2 => by omega) hpos rfl
    set r := walkK less key sc 0 (s.elems.drop (startOf o)) (startOf o) o pos
      (slotW s.spine s.elems 0 o) with hr
    have harr : prevsFrom less key sc s.spine s.elems 0 o pos = [r] := rfl
    rw [harr]
    refine ⟨rfl, ?_⟩
    intro ℓ hℓ
    simp only [List.length_singleton] at hℓ
    have hℓ0 : ℓ = 0 := by omega
    subst hℓ0
    have ho0 : originAt [r] 0 = r.1 := rfl
    have hp0 : posAt [r] 0 = r.2 := rfl
    rw [ho0, hp0]
    refine ⟨c1, c2, ?_, c4⟩
    rcases c3 with hEq | hEx
    · rw [hEq]
      exact horig
    · exact Or.inr hEx
  | succ N ih =>
    intro hL o pos hcho horig hpos
    obtain ⟨c1, c2, c3, c4, c5⟩ := walkK_spec s HW less key sc hL
      (s.elems.drop (startOf o)) (startOf o) o pos (slotW s.spine s.elems (N + 1) o)
      rfl (Nat.le_refl _) hcho (fun t ht1 ht2 => by omega) hpos rfl
    set r := walkK less key sc (N + 1) (s.elems.drop (startOf o)) (startOf o) o pos
      (slotW s.spine s.elems (N + 1) o) with hr
    have hchoN : ChainOK s.elems N r.1 := by
      cases hro : r.1 with
      | none => exact trivial
      | some t =>
        rw [hro] at c1
        obtain ⟨hc1, hc2⟩ := c1
        exact ⟨hc1, by omega⟩
    have horigN : r.1 = none ∨ ∃ t, r.1 = some t ∧ sLT less key sc (getE s.elems t) = true := by
      rcases c3 with hEq | hEx
      · rw [hEq]
        exact horig
      · exact Or.inr hEx
    obtain ⟨ihlen, ihtr⟩ := ih (by omega) r.1 r.2 hchoN horigN c2
    constructor
    · show (prevsFrom less key sc s.spine s.elems N r.1 r.2 ++ [r]).length = N + 1 + 1
      rw [List.length_append, ihlen]
      rfl
    · show KTrace less key sc s.elems (prevsFrom less key sc s.spine s.elems N r.1 r.2 ++ [r])
      intro ℓ hℓ
      rw [List.length_append, ihlen] at hℓ
      simp only [List.length_singleton] at hℓ
      rcases Nat.lt_or_ge ℓ (N + 1) with hcase | hcase
      · have hcase2 : ℓ < (prevsFrom less key sc s.spine s.elems N r.1 r.2).length := by
          rw [ihlen]
          exact hcase
        rw [originAt_append_lt hcase2, posAt_append_lt hcase2]
        exact ihtr ℓ hcase2
      · have hℓEq : ℓ = N + 1 := by omega
        subst hℓEq
        have ho : originAt (prevsFrom less key sc s.spine s.elems N r.1 r.2 ++ [r]) (N + 1) = r.1 := by
          have h9 : originAt (prevsFrom less key sc s.spine s.elems N r.1 r.2 ++ [r])
              (prevsFrom less key sc s.spine s.elems N r.1 r.2).length = r.1 :=
            originAt_append_self
          rwa [ihlen] at h9
        have hp : posAt (prevsFrom less key sc s.spine s.elems N r.1 r.2 ++ [r]) (N + 1) = r.2 := by
          have h9 : posAt (prevsFrom less key sc s.spine s.elems N r.1 r.2 ++ [r])
              (prevsFrom less key sc s.spine s.elems N r.1 r.2).length = r.2 :=
            posAt_append_self
          rwa [ihlen] at h9
        rw [ho, hp]
        exact ⟨c1, c2, horigN.imp id id, c4⟩

theorem prevsNFrom_spec (s : SL K V)
    (HW : ∀ (L : Nat) (o : Option Nat), L < s.spine.length → ChainOK s.elems L o →
      WAt s L o = gapFrom s.elems L o)
    (index : Int) :
    ∀ (L : Nat), L < s.spine.length →
    ∀ (o : Option Nat) (pos : Int),
      ChainOK s.elems L o →
      (o = none ∨ ∃ t, o = some t ∧ (t : Int) < index) →
      pos = idxInt o + 1 →
      (prevsNFrom index s.spine s.elems L o pos).length = L + 1 ∧
      NTrace index s.elems (prevsNFrom index s.spine s.elems L o pos) := by
  intro L
  induction L with
  | zero =>
    intro hL o pos hcho horig hpos
    obtain ⟨c1, c2, c3, c4, c5⟩ := walkN_spec s HW index hL
      (s.elems.drop (startOf o)) (startOf o) o pos (slotW s.spine s.elems 0 o)
      rfl (Nat.le_refl _) hcho (fun t ht1 ht2 => by omega) hpos rfl
    set r := walkN index 0 (s.elems.drop (startOf o)) (startOf o) o pos
      (slotW s.spine s.elems 0 o) with hr
    have harr : prevsNFrom index s.spine s.elems 0 o pos = [r] := rfl
    rw [harr]
    refine ⟨rfl, ?_⟩
    intro ℓ hℓ
    simp only [List.length_singleton] at hℓ
    have hℓ0 : ℓ = 0 := by omega
    subst hℓ0
    have ho0 : originAt [r] 0 = r.1 := rfl
    have hp0 : posAt [r] 0 = r.2 := rfl
    rw [ho0, hp0]
    refine ⟨c1, c2, ?_, c4⟩
    rcases c3 with hEq | hEx
    · rw [hEq]
      exact horig
    · exact Or.inr hEx
  | succ N ih =>
    intro hL o pos hcho horig hpos
    obtain ⟨c1, c2, c3, c4, c5⟩ := walkN_spec s HW index hL
      (s.elems.drop (startOf o)) (startOf o) o pos (slotW s.spine s.elems (N + 1) o)
      rfl (Nat.le_refl _) hcho (fun t ht1 ht2 => by omega) hpos rfl
    set r := walkN index (N + 1) (s.elems.drop (startOf o)) (startOf o) o pos
      (slotW s.spine s.elems (N + 1) o) with hr
    have hchoN : ChainOK s.elems N r.1 := by
      cases hro : r.1 with
      | none => exact trivial
      | some t =>
        rw [hro] at c1
        obtain ⟨hc1, hc2⟩ := c1
        exact ⟨hc1, by omega⟩
    have horigN : r.1 = none ∨ ∃ t, r.1 = some t ∧ (t : Int) < index := by
      rcases c3 with hEq | hEx
      · rw [hEq]
        exact horig
      · exact Or.inr hEx
    obtain ⟨ihlen, ihtr⟩ := ih (by omega) r.1 r.2 hchoN horigN c2
    constructor
    · show (prevsNFrom index s.spine s.elems N r.1 r.2 ++ [r]).length = N + 1 + 1
      rw [List.length_append, ihlen]
      rfl
    · show NTrace index s.elems (prevsNFrom index s.spine s.elems N r.1 r.2 ++ [r])
      intro ℓ hℓ
      rw [List.length_append, ihlen] at hℓ
      simp only [List.length_singleton] at hℓ
      rcases Nat.lt_or_ge ℓ (N + 1) with hcase | hcase
      · have hcase2 : ℓ < (prevsNFrom index s.spine s.elems N r.1 r.2).length := by
          rw [ihlen]
          exact hcase
        rw [originAt_append_lt hcase2, posAt_append_lt hcase2]
        exact ihtr ℓ hcase2
      · have hℓEq : ℓ = N + 1 := by omega
        subst hℓEq
        have ho : originAt (prevsNFrom index s.spine s.elems N r.1 r.2 ++ [r]) (N + 1) = r.1 := by
          have h9 : originAt (prevsNFrom index s.spine s.elems N r.1 r.2 ++ [r])
              (prevsNFrom index s.spine s.elems N r.1 r.2).length = r.1 :=
            originAt_append_self
          rwa [ihlen] at h9
        have hp : posAt (prevsNFrom index s.spine s.elems N r.1 r.2 ++ [r]) (N + 1) = r.2 := by
          have h9 : posAt (prevsNFrom index s.spine s.elems N r.1 r.2 ++ [r])
              (prevsNFrom index s.spine s.elems N r.1 r.2).length = r.2 :=
            posAt_append_self
          rwa [ihlen] at h9
        rw [ho, hp]
        exact ⟨c1, c2, horigN.imp id id, c4⟩

theorem getD_irrel {α : Type} (l : List α) (n : Nat) (d d' : α) (h : n < l.length) :
    l.getD n d = l.getD n d' := by
  rw [List.getD_eq_getElem?_getD, List.getD_eq_getElem?_getD, List.getElem?_eq_getElem h]
  rfl

theorem prevsGo_eq {s : SL K V} {N : Nat} (hN : s.spine.length = N + 1)
    (less : K → K → Bool) (sc : Int) (key : K) :
    prevsGo less sc s key =
      (prevsFrom less key sc s.spine s.elems N none (-1),
        ((prevsFrom less key sc s.spine s.elems N none (-1)).getD 0 (none, -1)).2 + 1) := by
  unfold prevsGo
  rw [hN]

theorem prevsNGo_eq {s : SL K V} {N : Nat} (hN : s.spine.length = N + 1) (index : Int) :
    prevsNGo s index = prevsNFrom index s.spine s.elems N none 0 := by
  unfold prevsNGo
  rw [hN]

theorem prevsGo_spec {c : Nat} {s : SL K V} (hwf : WFc lessG scoreG c s)
    (less : K → K → Bool) (key : K) (sc : Int) {N : Nat} (hN : s.spine.length = N + 1) :
    (prevsGo less sc s key).1.length = s.spine.length ∧
    KTrace less key sc s.elems (prevsGo less sc s key).1 ∧
    (prevsGo less sc s key).2 = posAt (prevsGo less sc s key).1 0 + 1 := by
  have HW : ∀ (L : Nat) (o : Option Nat), L < s.spine.length → ChainOK s.elems L o →
      WAt s L o = gapFrom s.elems L o := fun L o hL hch => WFc_WAt hwf hL hch
  obtain ⟨hlen, htr⟩ := prevsFrom_spec s HW less key sc N (by omega) none (-1)
    trivial (Or.inl rfl) rfl
  rw [prevsGo_eq hN less sc key]
  refine ⟨by rw [hlen, hN], htr, ?_⟩
  show ((prevsFrom less key sc s.spine s.elems N none (-1)).getD 0 (none, -1)).2 + 1 =
    posAt (prevsFrom less key sc s.spine s.elems N none (-1)) 0 + 1
  rw [posAt, getD_irrel (prevsFrom less key sc s.spine s.elems N none (-1)) 0
    (none, -1) (none, 0) (by rw [hlen]; omega)]

theorem prevsNGo_spec {c : Nat} {s : SL K V} (hwf : WFc lessG scoreG c s)
    (index : Int) {N : Nat} (hN : s.spine.length = N + 1) :
    (prevsNGo s index).length = s.spine.length ∧
    NTrace index s.elems (prevsNGo s index) := by
  have HW : ∀ (L : Nat) (o : Option Nat), L < s.spine.length → ChainOK s.elems L o →
      WAt s L o = gapFrom s.elems L o := fun L o hL hch => WFc_WAt hwf hL hch
  obtain ⟨hlen, htr⟩ := prevsNFrom_spec s HW index N (by omega) none 0
    trivial (Or.inl rfl) rfl
  rw [prevsNGo_eq hN index]
  exact ⟨by rw [hlen, hN], htr⟩

/-! Boundary characterization of the traces. -/

theorem ktrace_bounds {c : Nat} {s : SL K V} (hwf : WFc lessG scoreG c s)
    (HL : LessOK lessG scoreG) {key : K} {sc : Int} {arr : List (Option Nat × Int)}
    (htr : KTrace lessG key sc s.elems arr) :
    ∀ ℓ, ℓ < arr.length →
      (originAt arr ℓ = none ∨
        ∃ t, originAt arr ℓ = some t ∧ t < lowerIdx lessG key sc s.elems) ∧
      (∀ q, nextIdx s.elems ℓ (originAt arr ℓ) = some q →
        lowerIdx lessG key sc s.elems ≤ q) := by
  intro ℓ hℓ
  obtain ⟨hcho, hpos, horig, hstop⟩ := htr ℓ hℓ
  constructor
  · rcases horig with hn | ⟨t, ht, hslt⟩
    · exact Or.inl hn
    · refine Or.inr ⟨t, ht, ?_⟩
      rw [ht] at hcho
      exact lowerIdx_of_sat HL hwf.sorted hcho.1 hslt
  · intro q hq
    have hb := nextFrom_some_bounds hq
    have hf := hstop q hq
    by_cases hle : lowerIdx lessG key sc s.elems ≤ q
    · exact hle
    · have hql : q < lowerIdx lessG key sc s.elems := by omega
      rw [lowerIdx_sat hql] at hf
      cases hf

theorem ktrace_level0 {c : Nat} {s : SL K V} (hwf : WFc lessG scoreG c s)
    (HL : LessOK lessG scoreG) {key : K} {sc : Int} {arr : List (Option Nat × Int)}
    (htr : KTrace lessG key sc s.elems arr) (hlen : 0 < arr.length) :
    idxInt (originAt arr 0) = (lowerIdx lessG key sc s.elems : Int) - 1 ∧
    nextIdx s.elems 0 (originAt arr 0) =
      (if lowerIdx lessG key sc s.elems < s.elems.length then
        some (lowerIdx lessG key sc s.elems) else none) := by
  obtain ⟨hcho, hpos, horig, hstop⟩ := htr 0 hlen
  have hlowle := lowerIdx_le lessG key sc s.elems
  rcases horig with hn | ⟨t, ht, hslt⟩
  · rw [hn] at hstop ⊢
    rcases Nat.eq_zero_or_pos s.elems.length with hz | hp
    · have hnone : nextIdx s.elems 0 none = none := by
        rw [nextIdx]
        exact nextFrom_eq_none (fun t ht1 ht2 => by omega)
      have hlow0 : lowerIdx lessG key sc s.elems = 0 := by omega
      rw [hnone, hlow0, idxInt, if_neg (by omega)]
      exact ⟨rfl, rfl⟩
    · have h0c : 0 < (getE s.elems 0).widths.length := hwf.hLow _ (getE_mem hp)
      have hnext : nextIdx s.elems 0 none = some 0 := by
        rw [nextIdx]
        exact nextFrom_determine (by rw [startOf]) hp h0c (fun t ht1 ht2 => by omega)
      have hs0 : sLT lessG key sc (getE s.elems 0) = false := hstop 0 hnext
      have hlow0 : lowerIdx lessG key sc s.elems = 0 := by
        by_cases h : 0 < lowerIdx lessG key sc s.elems
        · rw [lowerIdx_sat h] at hs0
          cases hs0
        · omega
      rw [hnext, hlow0, idxInt, if_pos (by omega)]
      exact ⟨rfl, rfl⟩
  · rw [ht] at hcho hstop ⊢
    have htlen : t < s.elems.length := hcho.1
    have htlow : t < lowerIdx lessG key sc s.elems :=
      lowerIdx_of_sat HL hwf.sorted htlen hslt
    rcases Nat.lt_or_ge (t + 1) s.elems.length with hin | hout
    · have hc : 0 < (getE s.elems (t + 1)).widths.length := hwf.hLow _ (getE_mem hin)
      have hnext : nextIdx s.elems 0 (some t) = some (t + 1) := by
        rw [nextIdx]
        exact nextFrom_determine (by rw [startOf]) hin hc
          (fun u hu1 hu2 => by rw [startOf] at hu1; omega)
      have hs1 : sLT lessG key sc (getE s.elems (t + 1)) = false := hstop _ hnext
      have hlowEq : lowerIdx lessG key sc s.elems = t + 1 := by
        by_cases h : t + 1 < lowerIdx lessG key sc s.elems
        · rw [lowerIdx_sat h] at hs1
          cases hs1
        · omega
      rw [hnext, hlowEq, idxInt, if_pos hin]
      constructor
      · omega
      · rfl
    · have hnext : nextIdx s.elems 0 (some t) = none := by
        rw [nextIdx]
        exact nextFrom_eq_none (fun u hu1 hu2 => by rw [startOf] at hu1; omega)
      have hlowEq : lowerIdx lessG key sc s.elems = t + 1 := by omega
      rw [hnext, hlowEq, idxInt, if_neg (by omega)]
      constructor
      · omega
      · rfl

theorem ntrace_level0 {c : Nat} {s : SL K V} (hwf : WFc lessG scoreG c s)
    {index : Int} {arr : List (Option Nat × Int)}
    (htr : NTrace index s.elems arr) (hlen : 0 < arr.length)
    (h0 : 0 ≤ index) (hub : index < (s.elems.length : Int)) :
    nextIdx s.elems 0 (originAt arr 0) = some index.toNat ∧
    idxInt (originAt arr 0) = index - 1 := by
  obtain ⟨hcho, hpos, horig, hstop⟩ := htr 0 hlen
  rcases horig with hn | ⟨t, ht, htlt⟩
  · rw [hn] at hstop ⊢
    have hp : 0 < s.elems.length := by omega
    have h0c : 0 < (getE s.elems 0).widths.length := hwf.hLow _ (getE_mem hp)
    have hnext : nextIdx s.elems 0 none = some 0 := by
      rw [nextIdx]
      exact nextFrom_determine (by rw [startOf]) hp h0c (fun t ht1 ht2 => by omega)
    have := hstop 0 hnext
    have hidx0 : index = 0 := by omega
    rw [hnext, hidx0]
    exact ⟨rfl, rfl⟩
  · rw [ht] at hcho hstop ⊢
    have htlen : t < s.elems.length := hcho.1
    have hin : t + 1 < s.elems.length ∨ index ≤ (t + 1 : Nat) := by
      rcases Nat.lt_or_ge (t + 1) s.elems.length with h | h
      · exact Or.inl h
      · exact Or.inr (by omega)
    have hinlen : t + 1 < s.elems.length := by
      rcases Nat.lt_or_ge (t + 1) s.elems.length with h | h
      · exact h
      · omega
    have hc : 0 < (getE s.elems (t + 1)).widths.length := hwf.hLow _ (getE_mem hinlen)
    have hnext : nextIdx s.elems 0 (some t) = some (t + 1) := by
      rw [nextIdx]
      exact nextFrom_determine (by rw [startOf]) hinlen hc
        (fun u hu1 hu2 => by rw [startOf] at hu1; omega)
    have hub2 := hstop _ hnext
    have hEq : index = ((t + 1 : Nat) : Int) := by omega
    rw [hnext]
    constructor
    · congr 1
      omega
    · rw [idxInt]
      omega

theorem ntrace_level0_neg {c : Nat} {s : SL K V} (hwf : WFc lessG scoreG c s)
    {index : Int} {arr : List (Option Nat × Int)}
    (htr : NTrace index s.elems arr) (hlen : 0 < arr.length)
    (hneg : index < 0) (hp : 0 < s.elems.length) :
    originAt arr 0 = none ∧ nextIdx s.elems 0 (originAt arr 0) = some 0 := by
  obtain ⟨hcho, hpos, horig, hstop⟩ := htr 0 hlen
  have hn : originAt arr 0 = none := by
    rcases horig with hn | ⟨t, ht, htlt⟩
    · exact hn
    · omega
  rw [hn]
  refine ⟨rfl, ?_⟩
  have h0c : 0 < (getE s.elems 0).widths.length := hwf.hLow _ (getE_mem hp)
  rw [nextIdx]
  exact nextFrom_determine (by rw [startOf]) hp h0c (fun t ht1 ht2 => by omega)

/-! Structure-transport lemmas: element access and chain successors through
insertion and deletion of one element, and the level-fold normal forms of
the width-update passes. -/

theorem getE_map (f : Elem K V → Elem K V) (es : List (Elem K V)) {t : Nat}
    (ht : t < es.length) : getE (es.map f) t = f (getE es t) := by
  rw [getE_eq_getElem (by simpa using ht), List.getElem_map, ← getE_eq_getElem ht]

theorem getE_insertAt_lt {es : List (Elem K V)} {x : Elem K V} {b t : Nat}
    (hb : b ≤ es.length) (ht : t < b) : getE (insertAt x b es) t = getE es t :=
  getD_insertAt_lt x b t es default hb ht

theorem getE_insertAt_self {es : List (Elem K V)} {x : Elem K V} {b : Nat}
    (hb : b ≤ es.length) : getE (insertAt x b es) b = x :=
  getD_insertAt_self x b es default hb

theorem getE_insertAt_gt {es : List (Elem K V)} {x : Elem K V} {b t : Nat}
    (hb : b ≤ es.length) (ht : b < t) : getE (insertAt x b es) t = getE es (t - 1) :=
  getD_insertAt_gt x b t es default hb ht

theorem getE_eraseAt_lt {es : List (Elem K V)} {j t : Nat} (ht : t < j) :
    getE (eraseAt j es) t = getE es t :=
  getD_eraseAt_lt j t es default ht

theorem getE_eraseAt_ge {es : List (Elem K V)} {j t : Nat} (ht : j ≤ t) :
    getE (eraseAt j es) t = getE es (t + 1) :=
  getD_eraseAt_ge j t es default ht

theorem nextFrom_step {es : List (Elem K V)} {L st : Nat}
    (h : (getE es st).widths.length ≤ L) :
    nextFrom es L st = nextFrom es L (st + 1) := by
  cases hn : nextFrom es L (st + 1) with
  | some q =>
    obtain ⟨hb1, hb2⟩ := nextFrom_some_bounds hn
    exact nextFrom_determine (by omega) hb2 (nextFrom_some_hit hn)
      (fun t ht1 ht2 => by
        rcases Nat.eq_or_lt_of_le ht1 with hEq | hlt
        · rw [← hEq]; exact h
        · exact nextFrom_some_min hn t (by omega) ht2)
  | none =>
    refine nextFrom_eq_none (fun t ht1 ht2 => ?_)
    rcases Nat.eq_or_lt_of_le ht1 with hEq | hlt
    · rw [← hEq]; exact h
    · exact nextFrom_none hn t (by omega) ht2

theorem nextIdx_zero {es : List (Elem K V)} (hh : ∀ e ∈ es, 1 ≤ e.widths.length)
    (o : Option Nat) :
    nextIdx es 0 o = if startOf o < es.length then some (startOf o) else none := by
  rcases Nat.lt_or_ge (startOf o) es.length with hlt | hge
  · rw [if_pos hlt, nextIdx]
    exact nextFrom_determine (Nat.le_refl _) hlt (hh _ (getE_mem hlt))
      (fun t ht1 ht2 => by omega)
  · rw [if_neg (by omega), nextIdx]
    exact nextFrom_eq_none (fun t ht1 ht2 => by omega)

theorem gapFrom_zero {es : List (Elem K V)} (hh : ∀ e ∈ es, 1 ≤ e.widths.length)
    {o : Option Nat} (ho : ChainOK es 0 o) : gapFrom es 0 o = 1 := by
  rw [gapFrom, nextIdx_zero hh o]
  cases o with
  | none =>
    simp only [startOf, idxInt]
    rcases Nat.eq_zero_or_pos es.length with h0 | h0
    · rw [if_neg (by omega)]
      show (es.length : Int) - (-1) = 1
      omega
    · rw [if_pos h0]
      show ((0 : Nat) : Int) - (-1) = 1
      omega
  | some t =>
    obtain ⟨ht, _⟩ := ho
    simp only [startOf, idxInt]
    rcases Nat.lt_or_ge (t + 1) es.length with h1 | h1
    · rw [if_pos h1]
      show ((t + 1 : Nat) : Int) - (t : Int) = 1
      omega
    · rw [if_neg (by omega)]
      show (es.length : Int) - (t : Int) = 1
      omega

theorem nextFrom_insertAt_linked {es : List (Elem K V)} {x : Elem K V} {b st L : Nat}
    (hb : b ≤ es.length) (hst : st ≤ b) (hx : L < x.widths.length) :
    nextFrom (insertAt x b es) L st =
      match nextFrom es L st with
      | some q => if q < b then some q else some b
      | none => some b := by
  have hlenF : (insertAt x b es).length = es.length + 1 := length_insertAt x b es hb
  cases hn : nextFrom es L st with
  | some q =>
    obtain ⟨hq1, hq2⟩ := nextFrom_some_bounds hn
    have hhit := nextFrom_some_hit hn
    have hmin := nextFrom_some_min hn
    show nextFrom (insertAt x b es) L st = if q < b then some q else some b
    by_cases hqb : q < b
    · rw [if_pos hqb]
      refine nextFrom_determine hq1 (by omega) ?_ ?_
      · rw [getE_insertAt_lt hb hqb]
        exact hhit
      · intro t ht1 ht2
        rw [getE_insertAt_lt hb (by omega)]
        exact hmin t ht1 ht2
    · rw [if_neg hqb]
      refine nextFrom_determine (by omega) (by omega) ?_ ?_
      · rw [getE_insertAt_self hb]
        exact hx
      · intro t ht1 ht2
        rw [getE_insertAt_lt hb ht2]
        exact hmin t ht1 (by omega)
  | none =>
    show nextFrom (insertAt x b es) L st = some b
    refine nextFrom_determine hst (by omega) ?_ ?_
    · rw [getE_insertAt_self hb]
      exact hx
    · intro t ht1 ht2
      rw [getE_insertAt_lt hb ht2]
      exact nextFrom_none hn t ht1 (by omega)

theorem nextFrom_insertAt_unlinked {es : List (Elem K V)} {x : Elem K V} {b st L : Nat}
    (hb : b ≤ es.length) (hst : st ≤ b) (hx : x.widths.length ≤ L) :
    nextFrom (insertAt x b es) L st =
      match nextFrom es L st with
      | some q => if q < b then some q else some (q + 1)
      | none => none := by
  have hlenF : (insertAt x b es).length = es.length + 1 := length_insertAt x b es hb
  cases hn : nextFrom es L st with
  | some q =>
    obtain ⟨hq1, hq2⟩ := nextFrom_some_bounds hn
    have hhit := nextFrom_some_hit hn
    have hmin := nextFrom_some_min hn
    show nextFrom (insertAt x b es) L st = if q < b then some q else some (q + 1)
    by_cases hqb : q < b
    · rw [if_pos hqb]
      refine nextFrom_determine hq1 (by omega) ?_ ?_
      · rw [getE_insertAt_lt hb hqb]
        exact hhit
      · intro t ht1 ht2
        rw [getE_insertAt_lt hb (by omega)]
        exact hmin t ht1 ht2
    · rw [if_neg hqb]
      refine nextFrom_determine (by omega) (by omega) ?_ ?_
      · rw [getE_insertAt_gt hb (by omega)]
        have h9 : q + 1 - 1 = q := by omega
        rw [h9]
        exact hhit
      · intro t ht1 ht2
        rcases Nat.lt_trichotomy t b with htb | htb | htb
        · rw [getE_insertAt_lt hb htb]
          exact hmin t ht1 (by omega)
        · rw [htb, getE_insertAt_self hb]
          exact hx
        · rw [getE_insertAt_gt hb htb]
          exact hmin (t - 1) (by omega) (by omega)
  | none =>
    show nextFrom (insertAt x b es) L st = none
    refine nextFrom_eq_none ?_
    intro t ht1 ht2
    rcases Nat.lt_trichotomy t b with htb | htb | htb
    · rw [getE_insertAt_lt hb htb]
      exact nextFrom_none hn t ht1 (by omega)
    · rw [htb, getE_insertAt_self hb]
      exact hx
    · rw [getE_insertAt_gt hb htb]
      exact nextFrom_none hn (t - 1) (by omega) (by omega)

theorem nextFrom_insertAt_after {es : List (Elem K V)} {x : Elem K V} {b st L : Nat}
    (hb : b ≤ es.length) (hst : b < st) :
    nextFrom (insertAt x b es) L st = (nextFrom es L (st - 1)).map (fun q => q + 1) := by
  have hlenF : (insertAt x b es).length = es.length + 1 := length_insertAt x b es hb
  cases hn : nextFrom es L (st - 1) with
  | some q =>
    obtain ⟨hq1, hq2⟩ := nextFrom_some_bounds hn
    have hhit := nextFrom_some_hit hn
    have hmin := nextFrom_some_min hn
    show nextFrom (insertAt x b es) L st = some (q + 1)
    refine nextFrom_determine (by omega) (by omega) ?_ ?_
    · rw [getE_insertAt_gt hb (by omega)]
      have h9 : q + 1 - 1 = q := by omega
      rw [h9]
      exact hhit
    · intro t ht1 ht2
      rw [getE_insertAt_gt hb (by omega)]
      exact hmin (t - 1) (by omega) (by omega)
  | none =>
    show nextFrom (insertAt x b es) L st = none
    refine nextFrom_eq_none ?_
    intro t ht1 ht2
    rw [getE_insertAt_gt hb (by omega)]
    exact nextFrom_none hn (t - 1) (by omega) (by omega)

theorem nextFrom_eraseAt_lt {es : List (Elem K V)} {j st L q : Nat}
    (hj : j < es.length) (hn : nextFrom es L st = some q) (hq : q < j) :
    nextFrom (eraseAt j es) L st = some q := by
  have hlenE : (eraseAt j es).length = es.length - 1 := length_eraseAt j es hj
  obtain ⟨hq1, hq2⟩ := nextFrom_some_bounds hn
  have hhit := nextFrom_some_hit hn
  have hmin := nextFrom_some_min hn
  refine nextFrom_determine hq1 (by omega) ?_ ?_
  · rw [getE_eraseAt_lt hq]
    exact hhit
  · intro t ht1 ht2
    rw [getE_eraseAt_lt (by omega)]
    exact hmin t ht1 ht2

theorem nextFrom_eraseAt_hit {es : List (Elem K V)} {j st L : Nat}
    (hj : j < es.length) (hn : nextFrom es L st = some j) :
    nextFrom (eraseAt j es) L st = (nextFrom es L (j + 1)).map (fun q => q - 1) := by
  have hlenE : (eraseAt j es).length = es.length - 1 := length_eraseAt j es hj
  obtain ⟨hj1, hj2⟩ := nextFrom_some_bounds hn
  have hmin := nextFrom_some_min hn
  cases h2 : nextFrom es L (j + 1) with
  | some q2 =>
    obtain ⟨hq1, hq2⟩ := nextFrom_some_bounds h2
    have hhit2 := nextFrom_some_hit h2
    have hmin2 := nextFrom_some_min h2
    show nextFrom (eraseAt j es) L st = some (q2 - 1)
    refine nextFrom_determine (by omega) (by omega) ?_ ?_
    · rw [getE_eraseAt_ge (by omega)]
      have h9 : q2 - 1 + 1 = q2 := by omega
      rw [h9]
      exact hhit2
    · intro t ht1 ht2
      rcases Nat.lt_or_ge t j with htj | htj
      · rw [getE_eraseAt_lt htj]
        exact hmin t ht1 htj
      · rw [getE_eraseAt_ge htj]
        exact hmin2 (t + 1) (by omega) (by omega)
  | none =>
    show nextFrom (eraseAt j es) L st = none
    refine nextFrom_eq_none ?_
    intro t ht1 ht2
    rcases Nat.lt_or_ge t j with htj | htj
    · rw [getE_eraseAt_lt htj]
      exact hmin t ht1 htj
    · rw [getE_eraseAt_ge htj]
      exact nextFrom_none h2 (t + 1) (by omega) (by omega)

theorem nextFrom_eraseAt_over {es : List (Elem K V)} {j st L q : Nat}
    (hj : j < es.length) (hn : nextFrom es L st = some q) (hst : st ≤ j) (hq : j < q) :
    nextFrom (eraseAt j es) L st = some (q - 1) := by
  have hlenE : (eraseAt j es).length = es.length - 1 := length_eraseAt j es hj
  obtain ⟨hq1, hq2⟩ := nextFrom_some_bounds hn
  have hhit := nextFrom_some_hit hn
  have hmin := nextFrom_some_min hn
  refine nextFrom_determine (by omega) (by omega) ?_ ?_
  · rw [getE_eraseAt_ge (by omega)]
    have h9 : q - 1 + 1 = q := by omega
    rw [h9]
    exact hhit
  · intro t ht1 ht2
    rcases Nat.lt_or_ge t j with htj | htj
    · rw [getE_eraseAt_lt htj]
      exact hmin t ht1 (by omega)
    · rw [getE_eraseAt_ge htj]
      exact hmin (t + 1) (by omega) (by omega)

theorem nextFrom_eraseAt_none {es : List (Elem K V)} {j st L : Nat}
    (hj : j < es.length) (hn : nextFrom es L st = none) :
    nextFrom (eraseAt j es) L st = none := by
  have hlenE : (eraseAt j es).length = es.length - 1 := length_eraseAt j es hj
  refine nextFrom_eq_none ?_
  intro t ht1 ht2
  rcases Nat.lt_or_ge t j with htj | htj
  · rw [getE_eraseAt_lt htj]
    exact nextFrom_none hn t ht1 (by omega)
  · rw [getE_eraseAt_ge htj]
    exact nextFrom_none hn (t + 1) (by omega) (by omega)

theorem nextFrom_eraseAt_after {es : List (Elem K V)} {j st L : Nat}
    (hj : j < es.length) (hst : j < st) :
    nextFrom (eraseAt j es) L st = (nextFrom es L (st + 1)).map (fun q => q - 1) := by
  have hlenE : (eraseAt j es).length = es.length - 1 := length_eraseAt j es hj
  cases hn : nextFrom es L (st + 1) with
  | some q =>
    obtain ⟨hq1, hq2⟩ := nextFrom_some_bounds hn
    have hhit := nextFrom_some_hit hn
    have hmin := nextFrom_some_min hn
    show nextFrom (eraseAt j es) L st = some (q - 1)
    refine nextFrom_determine (by omega) (by omega) ?_ ?_
    · rw [getE_eraseAt_ge (by omega)]
      have h9 : q - 1 + 1 = q := by omega
      rw [h9]
      exact hhit
    · intro t ht1 ht2
      rw [getE_eraseAt_ge (by omega)]
      exact hmin (t + 1) (by omega) (by omega)
  | none =>
    show nextFrom (eraseAt j es) L st = none
    refine nextFrom_eq_none ?_
    intro t ht1 ht2
    rw [getE_eraseAt_ge (by omega)]
    exact nextFrom_none hn (t + 1) (by omega) (by omega)

theorem rangeLs_zero (st : Nat) : rangeLs st 0 = [] := rfl

theorem rangeLs_succ (st n : Nat) : rangeLs st (n + 1) = st :: rangeLs (st + 1) n := by
  simp only [rangeLs, List.range_succ_eq_map, List.map_cons, List.map_map]
  refine List.cons_eq_cons.mpr ⟨by omega, ?_⟩
  refine List.map_congr_left ?_
  intro d hd
  simp only [Function.comp]
  omega

theorem mem_rangeLs {st n L : Nat} : L ∈ rangeLs st n ↔ st ≤ L ∧ L < st + n := by
  simp only [rangeLs, List.mem_map, List.mem_range]
  constructor
  · rintro ⟨d, hd, rfl⟩
    omega
  · intro h
    exact ⟨L - st, by omega, by omega⟩

theorem nodup_rangeLs (st n : Nat) : (rangeLs st n).Nodup := by
  refine List.Nodup.map ?_ (List.nodup_range n)
  intro a b h
  have h2 : st + a = st + b := h
  omega

theorem mem_filterRange {n L : Nat} :
    L ∈ (List.range n).filter (fun L2 => !decide (L2 = 0)) ↔ L < n ∧ ¬ L = 0 := by
  simp [List.mem_filter]

theorem nodup_filterRange (n : Nat) :
    ((List.range n).filter (fun L2 => !decide (L2 = 0))).Nodup :=
  List.Nodup.filter _ (List.nodup_range n)

theorem levelFold_congr (O : Nat → Option Nat) (F1 F2 : Nat → Int → Int) (Ls : List Nat)
    (h : ∀ L ∈ Ls, ∀ w, F1 L w = F2 L w) (s : SL K V) :
    levelFold O F1 Ls s = levelFold O F2 Ls s := by
  induction Ls generalizing s with
  | nil => rfl
  | cons L rest ih =>
    rw [levelFold, levelFold]
    have hFL : F1 L = F2 L := funext (h L (List.mem_cons_self _ _))
    rw [hFL]
    exact ih (fun L2 hL2 w => h L2 (List.mem_cons_of_mem _ hL2) w) _

theorem decSlots_eq_fold (arr : List (Option Nat × Int)) :
    ∀ (r L : Nat) (s : SL K V),
      decSlots arr L r s = levelFold (originAt arr) (fun _ w => w - 1) (rangeLs L r) s := by
  intro r
  induction r with
  | zero =>
    intro L s
    rw [rangeLs_zero]
    rfl
  | succ n ih =>
    intro L s
    rw [rangeLs_succ]
    show decSlots arr (L + 1) n (updateSlot s L (originAt arr L) (fun w => w - 1)) =
      levelFold (originAt arr) (fun _ w => w - 1) (rangeLs (L + 1) n)
        (updateSlot s L (originAt arr L) (fun w => w - 1))
    exact ih (L + 1) _

theorem removeUnlink_eq_fold (arr : List (Option Nat × Int)) (j : Nat) (elem : Elem K V)
    (T : Nat → Bool) (hcl : ∀ L2 L3 : Nat, L2 ≤ L3 → T L3 = true → T L2 = true) :
    ∀ (r L : Nat) (s : SL K V),
      (∀ L2 : Nat, (nextIdx s.elems L2 (originAt arr L2) == some j) = T L2) →
      removeUnlink arr j elem L r s =
        levelFold (originAt arr)
          (fun L2 w => if T L2 = true then w + elem.widths.getD L2 0 - 1 else w - 1)
          (rangeLs L r) s := by
  intro r
  induction r with
  | zero =>
    intro L s hT
    rw [rangeLs_zero]
    rfl
  | succ n ih =>
    intro L s hT
    rw [rangeLs_succ, removeUnlink]
    by_cases hTL : T L = true
    · rw [if_pos (by rw [hT L]; exact hTL)]
      have hup : updateSlot s L (originAt arr L)
            ((fun L2 w => if T L2 = true then w + elem.widths.getD L2 0 - 1 else w - 1) L) =
          updateSlot s L (originAt arr L) (fun w => w + elem.widths.getD L 0 - 1) := by
        congr 1
        funext w
        show (if T L = true then w + elem.widths.getD L 0 - 1 else w - 1) = _
        rw [if_pos hTL]
      rw [levelFold, hup]
      refine ih (L + 1) _ ?_
      intro L2
      have hnx : nextIdx (updateSlot s L (originAt arr L)
            (fun w => w + elem.widths.getD L 0 - 1)).elems L2 (originAt arr L2) =
          nextIdx s.elems L2 (originAt arr L2) := by
        rw [nextIdx, nextIdx]
        exact nextFrom_congr (updateSlot_heights _ _ _ _) _ _
      rw [hnx]
      exact hT L2
    · rw [if_neg (by rw [hT L]; exact hTL)]
      rw [decSlots_eq_fold arr]
      rw [← rangeLs_succ]
      refine levelFold_congr _ _ _ _ ?_ s
      intro L2 hL2 w
      have hL2r := mem_rangeLs.mp hL2
      have hT2 : ¬ T L2 = true := fun hc => hTL (hcl L L2 (by omega) hc)
      rw [if_neg hT2]

theorem applySlots_eq_fold (arr : List (Option Nat × Int)) (nuLevels : Nat) (pos : Int) :
    ∀ (Ls : List Nat) (s : SL K V),
      applySlots arr nuLevels pos Ls s =
        levelFold (originAt arr)
          (fun L w => if L < nuLevels then pos - posAt arr L else w + 1)
          (Ls.filter (fun L2 => !decide (L2 = 0))) s := by
  intro Ls
  induction Ls with
  | nil =>
    intro s
    rfl
  | cons L rest ih =>
    intro s
    rw [applySlots]
    by_cases hL0 : L = 0
    · subst hL0
      rw [if_pos rfl]
      have hf : (0 :: rest).filter (fun L2 => !decide (L2 = 0)) =
          rest.filter (fun L2 => !decide (L2 = 0)) := by
        rw [List.filter_cons]
        simp
      rw [hf]
      exact ih s
    · rw [if_neg hL0]
      have hf : (L :: rest).filter (fun L2 => !decide (L2 = 0)) =
          L :: rest.filter (fun L2 => !decide (L2 = 0)) := by
        rw [List.filter_cons]
        simp [hL0]
      rw [hf, levelFold]
      by_cases hLn : L < nuLevels
      · rw [if_pos hLn]
        have hup : updateSlot s L (originAt arr L)
              ((fun L2 w => if L2 < nuLevels then pos - posAt arr L2 else w + 1) L) =
            updateSlot s L (originAt arr L) (fun _ => pos - posAt arr L) := by
          congr 1
          funext w
          show (if L < nuLevels then pos - posAt arr L else w + 1) = _
          rw [if_pos hLn]
        rw [hup]
        exact ih _
      · rw [if_neg hLn]
        have hup : updateSlot s L (originAt arr L)
              ((fun L2 w => if L2 < nuLevels then pos - posAt arr L2 else w + 1) L) =
            updateSlot s L (originAt arr L) (fun w => w + 1) := by
          congr 1
          funext w
          show (if L < nuLevels then pos - posAt arr L else w + 1) = _
          rw [if_neg hLn]
        rw [hup]
        exact ih _

theorem pairwise_insertAt {R : Elem K V → Elem K V → Prop} {es : List (Elem K V)}
    {x : Elem K V} {b : Nat} (hb : b ≤ es.length) (hp : es.Pairwise R)
    (hbefore : ∀ t, t < b → R (getE es t) x)
    (hafter : ∀ t, b ≤ t → t < es.length → R x (getE es t)) :
    (insertAt x b es).Pairwise R := by
  have hlen : (insertAt x b es).length = es.length + 1 := length_insertAt x b es hb
  rw [List.pairwise_iff_getElem]
  intro i j hi hj hij
  rw [← getE_eq_getElem hi, ← getE_eq_getElem hj]
  rw [hlen] at hi hj
  rcases Nat.lt_trichotomy i b with hib | hib | hib
  · rw [getE_insertAt_lt hb hib]
    rcases Nat.lt_trichotomy j b with hjb | hjb | hjb
    · rw [getE_insertAt_lt hb hjb]
      exact pairwise_getE hp hij (by omega)
    · rw [hjb, getE_insertAt_self hb]
      exact hbefore i hib
    · rw [getE_insertAt_gt hb hjb]
      exact pairwise_getE hp (by omega) (by omega)
  · rw [hib, getE_insertAt_self hb]
    rw [getE_insertAt_gt hb (by omega)]
    exact hafter (j - 1) (by omega) (by omega)
  · rw [getE_insertAt_gt hb (by omega), getE_insertAt_gt hb (by omega)]
    exact pairwise_getE hp (by omega) (by omega)

/-! Preservation of the invariant by shrink. -/

theorem levelsFor_ge_one {n : Nat} (h : 1 ≤ n) : 1 ≤ levelsFor n := by
  cases n with
  | zero => omega
  | succ m => exact levelsFor_pos m

theorem levelsFor_pred (n : Nat) (h : 1 ≤ n) :
    levelsFor n = levelsFor (n - 1) + (if pow2Test n then 1 else 0) := by
  have h9 : n - 1 + 1 = n := by omega
  calc levelsFor n = levelsFor (n - 1 + 1) := by rw [h9]
    _ = levelsFor (n - 1) + (if pow2Test (n - 1 + 1) then 1 else 0) := levelsFor_succ _
    _ = levelsFor (n - 1) + (if pow2Test n then 1 else 0) := by rw [h9]

theorem nextFrom_ext_iff {es es2 : List (Elem K V)} (hlen : es.length = es2.length) {L : Nat}
    (hh : ∀ t, t < es.length →
      ((L < (getE es t).widths.length) ↔ (L < (getE es2 t).widths.length)))
    (st : Nat) : nextFrom es L st = nextFrom es2 L st := by
  refine findFrom_ext _ _ default _ _ st (by simp [hlen]) ?_
  intro k hk
  rw [List.length_drop] at hk
  rw [getD_drop, getD_drop]
  have h1 := hh (st + k) (by omega)
  simp only [getE] at h1
  exact decide_eq_decide.mpr h1

theorem gapFrom_ext_iff {es es2 : List (Elem K V)} (hlen : es.length = es2.length) {L : Nat}
    (hh : ∀ t, t < es.length →
      ((L < (getE es t).widths.length) ↔ (L < (getE es2 t).widths.length)))
    (o : Option Nat) : gapFrom es L o = gapFrom es2 L o := by
  rw [gapFrom, gapFrom, nextIdx, nextIdx, nextFrom_ext_iff hlen hh, hlen]

theorem getD_dropLast (l : List α) (n : Nat) (d : α) (h : n < l.length - 1) :
    l.dropLast.getD n d = l.getD n d := by
  rw [List.dropLast_eq_take, getD_take, if_pos h]

theorem shrink_wf {c : Nat} {s : SL K V} (hwf : WFc lessG scoreG (c + 1) s) :
    WFc lessG scoreG c (shrink s) ∧
    (shrink s).elems.map proj = s.elems.map proj ∧
    (shrink s).spine.length = levelsFor (s.cnt - 1) ∧
    (shrink s).cnt = s.cnt - 1 ∧
    heightsOf (shrink s).elems =
      (heightsOf s.elems).map (fun h0 => min h0 (shrink s).spine.length) := by
  obtain ⟨hcnt, hsp, hsc, hlow, hhigh, hsort, hspw, helw⟩ := hwf
  have hc1 : 1 ≤ s.cnt := by omega
  have hlf := levelsFor_pred s.cnt hc1
  by_cases hp : pow2Test s.cnt
  · set m := s.spine.dropLast.length with hm
    have hshr : shrink s =
        { cnt := s.cnt - 1
          spine := s.spine.dropLast
          elems := s.elems.map
            (fun e => { e with widths := e.widths.take s.spine.dropLast.length }) } := by
      rw [shrink, if_pos hp]
    have hmval : m = s.spine.length - 1 := by rw [hm, List.length_dropLast]
    have hsplen : m = levelsFor (s.cnt - 1) := by
      rw [hmval, hsp, hlf, if_pos hp]
      omega
    have hlenE : (shrink s).elems.length = s.elems.length := by
      rw [hshr]
      simp
    have hgetM : ∀ t, t < s.elems.length →
        getE (shrink s).elems t =
          { getE s.elems t with widths := (getE s.elems t).widths.take m } := by
      intro t ht
      rw [hshr]
      exact getE_map _ _ ht
    have hhtM : ∀ t, t < s.elems.length →
        (getE (shrink s).elems t).widths.length = min m (getE s.elems t).widths.length := by
      intro t ht
      rw [hgetM t ht]
      show ((getE s.elems t).widths.take m).length = _
      rw [List.length_take]
    have hiff : ∀ L, L < m → ∀ t, t < (shrink s).elems.length →
        ((L < (getE (shrink s).elems t).widths.length) ↔
          (L < (getE s.elems t).widths.length)) := by
      intro L hL t ht
      rw [hlenE] at ht
      rw [hhtM t ht]
      omega
    have hgap : ∀ L, L < m → ∀ o, gapFrom (shrink s).elems L o = gapFrom s.elems L o := by
      intro L hL o
      exact gapFrom_ext_iff hlenE (hiff L hL) o
    have hspF : (shrink s).spine.length = m := by rw [hshr]
    have hcntF : (shrink s).cnt = s.cnt - 1 := by rw [hshr]
    refine ⟨⟨?_, ?_, ?_, ?_, ?_, ?_, ?_, ?_⟩, ?_, ?_, hcntF, ?_⟩
    · rw [hcntF, hlenE]
      omega
    · rw [hspF, hcntF, hsplen]
    · intro e he
      rw [hshr] at he
      obtain ⟨e0, he0, hEq⟩ := List.mem_map.mp he
      rw [← hEq]
      exact hsc e0 he0
    · intro e he
      have hne : s.elems ≠ [] := by
        intro hnil
        rw [hshr, hnil] at he
        simp at he
      have hlen1 : 1 ≤ s.elems.length := by
        cases hq : s.elems with
        | nil => exact absurd hq hne
        | cons a as => simp [hq]
      have hm1 : 1 ≤ m := by
        rw [hsplen]
        exact levelsFor_ge_one (by omega)
      rw [hshr] at he
      obtain ⟨e0, he0, hEq⟩ := List.mem_map.mp he
      rw [← hEq]
      show 1 ≤ (e0.widths.take s.spine.dropLast.length).length
      rw [List.length_take, ← hm]
      have := hlow e0 he0
      omega
    · intro e he
      rw [hshr] at he
      obtain ⟨e0, he0, hEq⟩ := List.mem_map.mp he
      rw [← hEq, hspF]
      show (e0.widths.take s.spine.dropLast.length).length ≤ m
      rw [List.length_take, ← hm]
      omega
    · rw [hshr]
      show (s.elems.map _).Pairwise (relE lessG)
      rw [List.pairwise_map]
      refine hsort.imp ?_
      intro a b hab
      exact hab
    · intro L hL
      rw [hspF] at hL
      have hspine : (shrink s).spine = s.spine.dropLast := by rw [hshr]
      rw [hspine, getD_dropLast _ _ _ (by omega), hgap L hL none]
      exact hspw L (by omega)
    · intro i hi L hL
      have hi2 : i < s.elems.length := by rw [← hlenE]; exact hi
      rw [hgetM i hi2] at hL ⊢
      have hL2 : L < min m (getE s.elems i).widths.length := by
        have := hhtM i hi2
        rw [hgetM i hi2] at this
        rw [← this]
        exact hL
      show ((getE s.elems i).widths.take m).getD L 0 = _
      rw [getD_take, if_pos (by omega), hgap L (by omega) (some i)]
      exact helw i hi2 L (by omega)
    · rw [hshr]
      show (s.elems.map _).map proj = s.elems.map proj
      rw [List.map_map]
      refine List.map_congr_left ?_
      intro e he
      rfl
    · rw [hspF, hsplen]
    · rw [hspF, hshr]
      show heightsOf (s.elems.map _) = _
      simp only [heightsOf, List.map_map]
      refine List.map_congr_left ?_
      intro e he
      show ((e.widths.take s.spine.dropLast.length).length) = _
      rw [List.length_take, ← hm]
      exact Nat.min_comm _ _
  · have hshr : shrink s = { s with cnt := s.cnt - 1 } := by
      rw [shrink, if_neg hp]
    have hspF : (shrink s).spine = s.spine := by rw [hshr]
    have helF : (shrink s).elems = s.elems := by rw [hshr]
    have hcntF : (shrink s).cnt = s.cnt - 1 := by rw [hshr]
    have hsplen : s.spine.length = levelsFor (s.cnt - 1) := by
      rw [hsp, hlf, if_neg hp]
      omega
    refine ⟨⟨?_, ?_, ?_, ?_, ?_, ?_, ?_, ?_⟩, ?_, ?_, hcntF, ?_⟩
    · rw [hcntF, helF]
      omega
    · rw [hspF, hcntF, hsplen]
    · rw [helF]; exact hsc
    · rw [helF]; exact hlow
    · rw [helF, hspF]; exact hhigh
    · rw [helF]; exact hsort
    · rw [hspF, helF]; exact hspw
    · rw [helF]; exact helw
    · rw [helF]
    · rw [hspF, hsplen]
    · rw [helF, hspF]
      have h1 : ∀ h0 ∈ heightsOf s.elems, min h0 s.spine.length = h0 := by
        intro h0 hh0
        obtain ⟨e, he, hEq⟩ := List.mem_map.mp hh0
        rw [← hEq]
        exact Nat.min_eq_left (hhigh e he)
      calc heightsOf s.elems = (heightsOf s.elems).map id := (List.map_id _).symm
        _ = (heightsOf s.elems).map (fun h0 => min h0 s.spine.length) :=
          (List.map_congr_left h1).symm

/-! Projection- and height-transport helpers, and gap evaluation. -/

theorem proj_fields {a b : Elem K V} (h : proj a = proj b) :
    a.key = b.key ∧ a.value = b.value ∧ a.score = b.score := by
  simpa [proj, Prod.mk.injEq] using h

theorem scores_of_proj {es1 es0 : List (Elem K V)} (h : es1.map proj = es0.map proj)
    (hs : ∀ e ∈ es0, e.score = scoreG e.key) : ∀ e ∈ es1, e.score = scoreG e.key := by
  intro e he
  have h1 : proj e ∈ es0.map proj := by
    rw [← h]
    exact List.mem_map_of_mem _ he
  obtain ⟨e0, he0, hEq⟩ := List.mem_map.mp h1
  obtain ⟨hk, hv, hs2⟩ := proj_fields hEq
  rw [← hs2, ← hk]
  exact hs e0 he0

theorem pairwise_relE_of_proj {es1 es0 : List (Elem K V)} (less : K → K → Bool)
    (h : es1.map proj = es0.map proj) (hp : es0.Pairwise (relE less)) :
    es1.Pairwise (relE less) := by
  have hlen : es1.length = es0.length := by
    have h2 := congrArg List.length h
    simpa using h2
  rw [List.pairwise_iff_getElem] at hp ⊢
  intro i j2 hi hj2 hij
  have hpi : proj es1[i] = proj es0[i] := by
    have h1 : (es1.map proj)[i]? = (es0.map proj)[i]? := by rw [h]
    rw [List.getElem?_map, List.getElem?_map, List.getElem?_eq_getElem hi,
      List.getElem?_eq_getElem (show i < es0.length by omega)] at h1
    simpa using h1
  have hpj : proj es1[j2] = proj es0[j2] := by
    have h1 : (es1.map proj)[j2]? = (es0.map proj)[j2]? := by rw [h]
    rw [List.getElem?_map, List.getElem?_map, List.getElem?_eq_getElem hj2,
      List.getElem?_eq_getElem (show j2 < es0.length by omega)] at h1
    simpa using h1
  have hr := hp i j2 (by omega) (by omega) hij
  obtain ⟨hk1, _, hs1⟩ := proj_fields hpi
  obtain ⟨hk2, _, hs2⟩ := proj_fields hpj
  simp only [relE] at hr ⊢
  rw [hk1, hk2, hs1, hs2]
  exact hr

theorem mem_heights {es1 es0 : List (Elem K V)} (h : heightsOf es1 = heightsOf es0)
    {e : Elem K V} (he : e ∈ es1) : ∃ e0 ∈ es0, e.widths.length = e0.widths.length := by
  have h1 : e.widths.length ∈ heightsOf es0 := by
    rw [← h]
    exact List.mem_map_of_mem _ he
  obtain ⟨e0, he0, hEq⟩ := List.mem_map.mp h1
  exact ⟨e0, he0, hEq.symm⟩

theorem gapFrom_congr {es es2 : List (Elem K V)} (h : heightsOf es = heightsOf es2)
    (L : Nat) (o : Option Nat) : gapFrom es L o = gapFrom es2 L o := by
  have hlen : es.length = es2.length := by
    have h2 := congrArg List.length h
    simpa [heightsOf] using h2
  rw [gapFrom, gapFrom, nextIdx, nextIdx, nextFrom_congr h, hlen]

theorem gapFrom_eq_some {es : List (Elem K V)} {L : Nat} {o : Option Nat} {q : Nat}
    (h : nextIdx es L o = some q) : gapFrom es L o = (q : Int) - idxInt o := by
  rw [gapFrom, h]

theorem gapFrom_eq_none {es : List (Elem K V)} {L : Nat} {o : Option Nat}
    (h : nextIdx es L o = none) : gapFrom es L o = (es.length : Int) - idxInt o := by
  rw [gapFrom, h]

theorem nextIdx_some (es : List (Elem K V)) (L i : Nat) :
    nextIdx es L (some i) = nextFrom es L (i + 1) := rfl

theorem nextIdx_none_eq (es : List (Elem K V)) (L : Nat) :
    nextIdx es L none = nextFrom es L 0 := rfl

/-! Preservation of the invariant by the remove helper. -/

theorem removeGo_wf {c : Nat} {s : SL K V} (hwf : WFc lessG scoreG c s)
    {arr : List (Option Nat × Int)} {j : Nat}
    (htr : RTraceW s arr j) (hj : j < s.elems.length) :
    WFc lessG scoreG c (removeGo s arr j) ∧
    (removeGo s arr j).cnt = s.cnt - 1 ∧
    (removeGo s arr j).elems.map proj = (eraseAt j s.elems).map proj ∧
    (removeGo s arr j).spine.length = levelsFor (s.cnt - 1) ∧
    heightsOf (removeGo s arr j).elems =
      (heightsOf (eraseAt j s.elems)).map
        (fun h0 => min h0 ((removeGo s arr j).spine.length)) := by
  have hcnt := hwf.cntLen
  have hsp := hwf.spineLen
  have hsc := hwf.scoresOK
  have hlow := hwf.hLow
  have hhigh := hwf.hHigh
  have hsort := hwf.sorted
  have hspw := hwf.spineW
  have helw := hwf.elemW
  have hsp1 : 1 ≤ s.spine.length :=
    le_trans (hlow _ (getE_mem hj)) (hhigh _ (getE_mem hj))
  have hT : ∀ L2 : Nat, (nextIdx s.elems L2 (originAt arr L2) == some j) =
      decide (L2 < (getE s.elems j).widths.length) := by
    intro L2
    rcases Nat.lt_or_ge L2 s.spine.length with hL2 | hL2
    · obtain ⟨hch, horig, htarg⟩ := htr L2 hL2
      by_cases hlk : L2 < (getE s.elems j).widths.length
      · have hnext : nextIdx s.elems L2 (originAt arr L2) = some j := by
          rw [nextIdx]
          refine nextFrom_determine ?_ hj hlk ?_
          · cases ho : originAt arr L2 with
            | none => simp [startOf]
            | some t =>
              rw [ho] at horig
              rcases horig with hno | ⟨t2, ht2, htj⟩
              · exact Option.noConfusion hno
              · have h9 := Option.some.inj ht2
                simp only [startOf]
                omega
          · intro t ht1 ht2
            by_contra hcon
            have hcon2 : L2 < (getE s.elems t).widths.length := by omega
            obtain ⟨q, hq, hq1, hq2⟩ := nextFrom_exists ht1 (by omega) hcon2
            have := htarg q hq
            omega
        rw [hnext]
        simp [hlk]
      · rw [decide_eq_false hlk]
        cases hnx : nextIdx s.elems L2 (originAt arr L2) with
        | none => rfl
        | some q =>
          have hge := htarg q hnx
          have hhit : L2 < (getE s.elems q).widths.length := by
            rw [nextIdx] at hnx
            exact nextFrom_some_hit hnx
          have hqj : ¬ q = j := by
            intro hEq
            rw [hEq] at hhit
            omega
          simp [hqj]
    · have hnone : nextIdx s.elems L2 (originAt arr L2) = none := by
        rw [nextIdx]
        exact nextFrom_eq_none
          (fun t ht1 ht2 => le_trans (hhigh _ (getE_mem ht2)) (by omega))
      rw [hnone, decide_eq_false (by have := hhigh _ (getE_mem hj); omega)]
      rfl
  have hcl : ∀ L2 L3 : Nat, L2 ≤ L3 →
      decide (L3 < (getE s.elems j).widths.length) = true →
      decide (L2 < (getE s.elems j).widths.length) = true := by
    intro L2 L3 h12 h3
    simp only [decide_eq_true_eq] at h3 ⊢
    omega
  have hnextJ : ∀ L2, L2 < (getE s.elems j).widths.length →
      nextIdx s.elems L2 (originAt arr L2) = some j := by
    intro L2 h
    have hb := hT L2
    rw [decide_eq_true h] at hb
    exact eq_of_beq hb
  have hnotJ : ∀ L2, ¬ L2 < (getE s.elems j).widths.length →
      nextIdx s.elems L2 (originAt arr L2) ≠ some j := by
    intro L2 h hEq
    have hb := hT L2
    rw [hEq, decide_eq_false h] at hb
    simp at hb
  have hfold := removeUnlink_eq_fold arr j (getE s.elems j)
    (fun L2 => decide (L2 < (getE s.elems j).widths.length)) hcl
    (s.spine.length - 1) 1 s hT
  have hRlen : (removeUnlink arr j (getE s.elems j) 1
      (s.spine.length - 1) s).elems.length = s.elems.length := by
    rw [hfold]
    exact levelFold_elems_length _ _ _ _
  have hRsp : (removeUnlink arr j (getE s.elems j) 1
      (s.spine.length - 1) s).spine.length = s.spine.length := by
    rw [hfold]
    exact levelFold_spine_length _ _ _ _
  have hRcnt : (removeUnlink arr j (getE s.elems j) 1
      (s.spine.length - 1) s).cnt = s.cnt := by
    rw [hfold]
    exact levelFold_cnt _ _ _ _
  have hRh : heightsOf (removeUnlink arr j (getE s.elems j) 1
      (s.spine.length - 1) s).elems = heightsOf s.elems := by
    rw [hfold]
    exact levelFold_heights _ _ _ _
  have hRproj : (removeUnlink arr j (getE s.elems j) 1
      (s.spine.length - 1) s).elems.map proj = s.elems.map proj := by
    rw [hfold]
    exact levelFold_proj _ _ _ _
  have hW1 : ∀ (L2 : Nat) (o2 : Option Nat),
      WAt (removeUnlink arr j (getE s.elems j) 1 (s.spine.length - 1) s) L2 o2 =
        if (1 ≤ L2 ∧ L2 < s.spine.length) ∧ o2 = originAt arr L2 ∧
            SlotIn s L2 (originAt arr L2) then
          (if L2 < (getE s.elems j).widths.length
           then WAt s L2 o2 + (getE s.elems j).widths.getD L2 0 - 1
           else WAt s L2 o2 - 1)
        else WAt s L2 o2 := by
    intro L2 o2
    rw [hfold, WAt_levelFold _ _ _ _ (nodup_rangeLs 1 (s.spine.length - 1))]
    show (if L2 ∈ rangeLs 1 (s.spine.length - 1) ∧ o2 = originAt arr L2 ∧
        SlotIn s L2 (originAt arr L2) then
        (if decide (L2 < (getE s.elems j).widths.length) = true
         then WAt s L2 o2 + (getE s.elems j).widths.getD L2 0 - 1
         else WAt s L2 o2 - 1)
      else WAt s L2 o2) = _
    have hiff : (L2 ∈ rangeLs 1 (s.spine.length - 1)) ↔ (1 ≤ L2 ∧ L2 < s.spine.length) := by
      rw [mem_rangeLs]
      omega
    by_cases hcc : (1 ≤ L2 ∧ L2 < s.spine.length) ∧ o2 = originAt arr L2 ∧
        SlotIn s L2 (originAt arr L2)
    · rw [if_pos ⟨hiff.mpr hcc.1, hcc.2⟩, if_pos hcc]
      by_cases hlk : L2 < (getE s.elems j).widths.length
      · rw [if_pos (decide_eq_true hlk), if_pos hlk]
      · rw [if_neg (by simp only [decide_eq_true_eq]; exact hlk), if_neg hlk]
    · rw [if_neg (fun hc => hcc ⟨hiff.mp hc.1, hc.2⟩), if_neg hcc]
  have hjR : j < (removeUnlink arr j (getE s.elems j) 1 (s.spine.length - 1) s).elems.length := by
    rw [hRlen]
    exact hj
  have hEh : heightsOf (eraseAt j (removeUnlink arr j (getE s.elems j) 1
      (s.spine.length - 1) s).elems) = heightsOf (eraseAt j s.elems) := by
    have h1 : heightsOf (eraseAt j (removeUnlink arr j (getE s.elems j) 1
        (s.spine.length - 1) s).elems) =
        eraseAt j (heightsOf (removeUnlink arr j (getE s.elems j) 1
          (s.spine.length - 1) s).elems) := map_eraseAt _ j _
    have h2 : heightsOf (eraseAt j s.elems) = eraseAt j (heightsOf s.elems) :=
      map_eraseAt _ j _
    rw [h1, h2, hRh]
  have hgapE : ∀ (L : Nat) (o : Option Nat),
      gapFrom (eraseAt j (removeUnlink arr j (getE s.elems j) 1
        (s.spine.length - 1) s).elems) L o = gapFrom (eraseAt j s.elems) L o :=
    fun L o => gapFrom_congr hEh L o
  have herase_low : ∀ e ∈ eraseAt j s.elems, 1 ≤ e.widths.length :=
    fun e he => hlow e ((eraseAt_sublist j s.elems).subset he)
  have hmid : WFc lessG scoreG (c + 1)
      { removeUnlink arr j (getE s.elems j) 1 (s.spine.length - 1) s with
        elems := eraseAt j (removeUnlink arr j (getE s.elems j) 1
          (s.spine.length - 1) s).elems } := by
    refine ⟨?_, ?_, ?_, ?_, ?_, ?_, ?_, ?_⟩
    · show (removeUnlink arr j (getE s.elems j) 1 (s.spine.length - 1) s).cnt =
        (eraseAt j (removeUnlink arr j (getE s.elems j) 1
          (s.spine.length - 1) s).elems).length + (c + 1)
      rw [hRcnt, length_eraseAt j _ hjR, hRlen]
      omega
    · show (removeUnlink arr j (getE s.elems j) 1 (s.spine.length - 1) s).spine.length =
        levelsFor (removeUnlink arr j (getE s.elems j) 1 (s.spine.length - 1) s).cnt
      rw [hRsp, hRcnt]
      exact hsp
    · intro e he
      have he2 : e ∈ (removeUnlink arr j (getE s.elems j) 1
          (s.spine.length - 1) s).elems := (eraseAt_sublist j _).subset he
      exact scores_of_proj hRproj hsc e he2
    · intro e he
      have he2 : e ∈ (removeUnlink arr j (getE s.elems j) 1
          (s.spine.length - 1) s).elems := (eraseAt_sublist j _).subset he
      obtain ⟨e0, he0, hEq⟩ := mem_heights hRh he2
      rw [hEq]
      exact hlow e0 he0
    · intro e he
      show e.widths.length ≤
        (removeUnlink arr j (getE s.elems j) 1 (s.spine.length - 1) s).spine.length
      rw [hRsp]
      have he2 : e ∈ (removeUnlink arr j (getE s.elems j) 1
          (s.spine.length - 1) s).elems := (eraseAt_sublist j _).subset he
      obtain ⟨e0, he0, hEq⟩ := mem_heights hRh he2
      rw [hEq]
      exact hhigh e0 he0
    · show (eraseAt j (removeUnlink arr j (getE s.elems j) 1
        (s.spine.length - 1) s).elems).Pairwise (relE lessG)
      exact (pairwise_relE_of_proj lessG hRproj hsort).sublist (eraseAt_sublist j _)
    · intro L hL
      have hLsp : L < s.spine.length := by rw [← hRsp]; exact hL
      obtain ⟨hch, horig, htarg⟩ := htr L hLsp
      show (removeUnlink arr j (getE s.elems j) 1 (s.spine.length - 1) s).spine.getD L 0 =
        gapFrom (eraseAt j (removeUnlink arr j (getE s.elems j) 1
          (s.spine.length - 1) s).elems) L none
      rw [hgapE L none]
      have hRW : (removeUnlink arr j (getE s.elems j) 1
          (s.spine.length - 1) s).spine.getD L 0 =
          WAt (removeUnlink arr j (getE s.elems j) 1 (s.spine.length - 1) s) L none := rfl
      rw [hRW, hW1 L none]
      rcases Nat.eq_zero_or_pos L with hL0 | hLpos
      · subst hL0
        rw [if_neg (fun hc => absurd hc.1.1 (by omega))]
        have hWs : WAt s 0 none = gapFrom s.elems 0 none := hspw 0 hLsp
        rw [hWs, gapFrom_zero hlow (o := none) trivial,
          gapFrom_zero herase_low (o := none) trivial]
      · cases horigEq : originAt arr L with
        | some t =>
          rw [if_neg (fun hc => Option.noConfusion hc.2.1)]
          have hWs : WAt s L none = gapFrom s.elems L none := hspw L hLsp
          rw [hWs]
          rw [horigEq] at hch horig htarg
          obtain ⟨htlen, hth⟩ := hch
          have htj : t < j := by
            rcases horig with hno | ⟨t2, ht2, h2⟩
            · exact Option.noConfusion hno
            · have h9 := Option.some.inj ht2
              omega
          obtain ⟨q0, hq0, hq0a, hq0b⟩ := nextFrom_exists (Nat.zero_le t) htlen hth
          have hq0j : q0 < j := by omega
          have hgs : gapFrom s.elems L none = (q0 : Int) - idxInt none :=
            gapFrom_eq_some hq0
          have hge2 : gapFrom (eraseAt j s.elems) L none = (q0 : Int) - idxInt none :=
            gapFrom_eq_some (nextFrom_eraseAt_lt hj hq0 hq0j)
          rw [hgs, hge2]
        | none =>
          rw [horigEq] at htarg
          rw [if_pos ⟨⟨hLpos, hLsp⟩, rfl, hLsp⟩]
          have hWs : WAt s L none = gapFrom s.elems L none := hspw L hLsp
          by_cases hlk : L < (getE s.elems j).widths.length
          · rw [if_pos hlk, hWs, helw j hj L hlk]
            have hnext := hnextJ L hlk
            rw [horigEq] at hnext
            have hnext0 : nextFrom s.elems L 0 = some j := hnext
            have hg1 : gapFrom s.elems L none = (j : Int) - idxInt none :=
              gapFrom_eq_some hnext
            cases hq2 : nextFrom s.elems L (j + 1) with
            | some q2 =>
              obtain ⟨hq2a, hq2b⟩ := nextFrom_some_bounds hq2
              have hg2 : gapFrom s.elems L (some j) = (q2 : Int) - idxInt (some j) :=
                gapFrom_eq_some hq2
              have hera : nextFrom (eraseAt j s.elems) L 0 = some (q2 - 1) := by
                rw [nextFrom_eraseAt_hit hj hnext0, hq2]
                rfl
              have hg3 : gapFrom (eraseAt j s.elems) L none =
                  ((q2 - 1 : Nat) : Int) - idxInt none := gapFrom_eq_some hera
              rw [hg1, hg2, hg3]
              simp only [idxInt]
              omega
            | none =>
              have hg2 : gapFrom s.elems L (some j) =
                  (s.elems.length : Int) - idxInt (some j) := gapFrom_eq_none hq2
              have hera : nextFrom (eraseAt j s.elems) L 0 = none := by
                rw [nextFrom_eraseAt_hit hj hnext0, hq2]
                rfl
              have hg3 : gapFrom (eraseAt j s.elems) L none =
                  ((eraseAt j s.elems).length : Int) - idxInt none := gapFrom_eq_none hera
              rw [hg1, hg2, hg3, length_eraseAt j s.elems hj]
              simp only [idxInt]
              omega
          · rw [if_neg hlk, hWs]
            have hne := hnotJ L hlk
            rw [horigEq] at hne
            cases hq : nextFrom s.elems L 0 with
            | some q =>
              have hjq : j ≤ q := htarg q hq
              have hqj2 : j < q := by
                rcases Nat.eq_or_lt_of_le hjq with hEq | h
                · exact absurd (show nextIdx s.elems L none = some j by
                    rw [hEq]; exact hq) hne
                · exact h
              have hg1 : gapFrom s.elems L none = (q : Int) - idxInt none :=
                gapFrom_eq_some hq
              have hg3 : gapFrom (eraseAt j s.elems) L none =
                  ((q - 1 : Nat) : Int) - idxInt none :=
                gapFrom_eq_some (nextFrom_eraseAt_over hj hq (Nat.zero_le j) hqj2)
              rw [hg1, hg3]
              simp only [idxInt]
              omega
            | none =>
              have hg1 : gapFrom s.elems L none = (s.elems.length : Int) - idxInt none :=
                gapFrom_eq_none hq
              have hg3 : gapFrom (eraseAt j s.elems) L none =
                  ((eraseAt j s.elems).length : Int) - idxInt none :=
                gapFrom_eq_none (nextFrom_eraseAt_none hj hq)
              rw [hg1, hg3, length_eraseAt j s.elems hj]
              simp only [idxInt]
              omega
    · intro i hi L hL
      have hiE : i < s.elems.length - 1 := by
        have h9 : i < (eraseAt j (removeUnlink arr j (getE s.elems j) 1
            (s.spine.length - 1) s).elems).length := hi
        rw [length_eraseAt j _ hjR, hRlen] at h9
        exact h9
      rcases Nat.lt_or_ge i j with hij | hij
      · have hacc : getE (eraseAt j (removeUnlink arr j (getE s.elems j) 1
            (s.spine.length - 1) s).elems) i =
            getE (removeUnlink arr j (getE s.elems j) 1 (s.spine.length - 1) s).elems i :=
          getE_eraseAt_lt hij
        have hhR : (getE (removeUnlink arr j (getE s.elems j) 1
            (s.spine.length - 1) s).elems i).widths.length =
            (getE s.elems i).widths.length := heightsOf_getE hRh i (by rw [hRlen]; omega)
        have hLh : L < (getE s.elems i).widths.length := by
          have h9 : L < (getE (eraseAt j (removeUnlink arr j (getE s.elems j) 1
              (s.spine.length - 1) s).elems) i).widths.length := hL
          rw [hacc, hhR] at h9
          exact h9
        have hLsp : L < s.spine.length := lt_of_lt_of_le hLh (hhigh _ (getE_mem (by omega)))
        obtain ⟨hch, horig, htarg⟩ := htr L hLsp
        have hst : (getE (eraseAt j (removeUnlink arr j (getE s.elems j) 1
            (s.spine.length - 1) s).elems) i).widths.getD L 0 =
            WAt (removeUnlink arr j (getE s.elems j) 1 (s.spine.length - 1) s) L (some i) := by
          rw [hacc, WAt, slotW_some_eq, if_pos (by rw [hRlen]; omega)]
        show (getE (eraseAt j (removeUnlink arr j (getE s.elems j) 1
            (s.spine.length - 1) s).elems) i).widths.getD L 0 =
          gapFrom (eraseAt j (removeUnlink arr j (getE s.elems j) 1
            (s.spine.length - 1) s).elems) L (some i)
        rw [hst, hW1 L (some i), hgapE L (some i)]
        rcases Nat.eq_zero_or_pos L with hL0 | hLpos
        · subst hL0
          rw [if_neg (fun hc => absurd hc.1.1 (by omega))]
          have hW0 : WAt s 0 (some i) = gapFrom s.elems 0 (some i) := by
            rw [WAt, slotW_some_eq, if_pos (by omega)]
            exact helw i (by omega) 0 hLh
          rw [hW0, gapFrom_zero hlow (o := some i) ⟨by omega, hLh⟩,
            gapFrom_zero herase_low (o := some i)
              ⟨by rw [length_eraseAt j s.elems hj]; omega,
               by rw [getE_eraseAt_lt hij]; exact hLh⟩]
        · by_cases horigi : originAt arr L = some i
          · rw [horigi]
            rw [if_pos ⟨⟨hLpos, hLsp⟩, rfl, ⟨by omega, hLh⟩⟩]
            have hWsi : WAt s L (some i) = gapFrom s.elems L (some i) := by
              rw [WAt, slotW_some_eq, if_pos (by omega)]
              exact helw i (by omega) L hLh
            by_cases hlk : L < (getE s.elems j).widths.length
            · rw [if_pos hlk, hWsi, helw j hj L hlk]
              have hnext := hnextJ L hlk
              rw [horigi] at hnext
              have hnexti : nextFrom s.elems L (i + 1) = some j := hnext
              have hg1 : gapFrom s.elems L (some i) = (j : Int) - idxInt (some i) :=
                gapFrom_eq_some hnext
              cases hq2 : nextFrom s.elems L (j + 1) with
              | some q2 =>
                obtain ⟨hq2a, hq2b⟩ := nextFrom_some_bounds hq2
                have hg2 : gapFrom s.elems L (some j) = (q2 : Int) - idxInt (some j) :=
                  gapFrom_eq_some hq2
                have hera : nextFrom (eraseAt j s.elems) L (i + 1) = some (q2 - 1) := by
                  rw [nextFrom_eraseAt_hit hj hnexti, hq2]
                  rfl
                have hg3 : gapFrom (eraseAt j s.elems) L (some i) =
                    ((q2 - 1 : Nat) : Int) - idxInt (some i) := gapFrom_eq_some hera
                rw [hg1, hg2, hg3]
                simp only [idxInt]
                omega
              | none =>
                have hg2 : gapFrom s.elems L (some j) =
                    (s.elems.length : Int) - idxInt (some j) := gapFrom_eq_none hq2
                have hera : nextFrom (eraseAt j s.elems) L (i + 1) = none := by
                  rw [nextFrom_eraseAt_hit hj hnexti, hq2]
                  rfl
                have hg3 : gapFrom (eraseAt j s.elems) L (some i) =
                    ((eraseAt j s.elems).length : Int) - idxInt (some i) :=
                  gapFrom_eq_none hera
                rw [hg1, hg2, hg3, length_eraseAt j s.elems hj]
                simp only [idxInt]
                omega
            · rw [if_neg hlk, hWsi]
              have hne := hnotJ L hlk
              rw [horigi] at hne htarg
              cases hq : nextFrom s.elems L (i + 1) with
              | some q =>
                have hjq : j ≤ q := htarg q hq
                have hqj2 : j < q := by
                  rcases Nat.eq_or_lt_of_le hjq with hEq | h
                  · exact absurd (show nextIdx s.elems L (some i) = some j by
                      rw [hEq]; exact hq) hne
                  · exact h
                have hg1 : gapFrom s.elems L (some i) = (q : Int) - idxInt (some i) :=
                  gapFrom_eq_some hq
                have hg3 : gapFrom (eraseAt j s.elems) L (some i) =
                    ((q - 1 : Nat) : Int) - idxInt (some i) :=
                  gapFrom_eq_some (nextFrom_eraseAt_over hj hq (show i + 1 ≤ j by omega) hqj2)
                rw [hg1, hg3]
                simp only [idxInt]
                omega
              | none =>
                have hg1 : gapFrom s.elems L (some i) =
                    (s.elems.length : Int) - idxInt (some i) := gapFrom_eq_none hq
                have hg3 : gapFrom (eraseAt j s.elems) L (some i) =
                    ((eraseAt j s.elems).length : Int) - idxInt (some i) :=
                  gapFrom_eq_none (nextFrom_eraseAt_none hj hq)
                rw [hg1, hg3, length_eraseAt j s.elems hj]
                simp only [idxInt]
                omega
          · rw [if_neg (fun hc => horigi hc.2.1.symm)]
            have hWsi : WAt s L (some i) = gapFrom s.elems L (some i) := by
              rw [WAt, slotW_some_eq, if_pos (by omega)]
              exact helw i (by omega) L hLh
            rw [hWsi]
            cases horigEq2 : originAt arr L with
            | none =>
              exfalso
              rw [horigEq2] at htarg
              obtain ⟨q0, hq0, hq0a, hq0b⟩ := nextFrom_exists (Nat.zero_le i) (by omega) hLh
              have := htarg q0 hq0
              omega
            | some t =>
              rw [horigEq2] at hch horig htarg
              obtain ⟨htlen, hth⟩ := hch
              have htj : t < j := by
                rcases horig with hno | ⟨t2, ht2, h2⟩
                · exact Option.noConfusion hno
                · have h9 := Option.some.inj ht2
                  omega
              have hit2 : i ≤ t := by
                by_contra hcon
                obtain ⟨q, hq, hq1, hq2⟩ := nextFrom_exists
                  (show t + 1 ≤ i by omega) (by omega) hLh
                have := htarg q hq
                omega
              have hit3 : i < t := by
                rcases Nat.eq_or_lt_of_le hit2 with hEq | h
                · exfalso
                  exact horigi (by rw [horigEq2, hEq])
                · exact h
              obtain ⟨q, hq, hq1, hq2⟩ := nextFrom_exists (show i + 1 ≤ t by omega) htlen hth
              have hqj : q < j := by omega
              have hg1 : gapFrom s.elems L (some i) = (q : Int) - idxInt (some i) :=
                gapFrom_eq_some hq
              have hg3 : gapFrom (eraseAt j s.elems) L (some i) =
                  (q : Int) - idxInt (some i) :=
                gapFrom_eq_some (nextFrom_eraseAt_lt hj hq hqj)
              rw [hg1, hg3]
      · have hacc : getE (eraseAt j (removeUnlink arr j (getE s.elems j) 1
            (s.spine.length - 1) s).elems) i =
            getE (removeUnlink arr j (getE s.elems j) 1
              (s.spine.length - 1) s).elems (i + 1) := getE_eraseAt_ge hij
        have hhR : (getE (removeUnlink arr j (getE s.elems j) 1
            (s.spine.length - 1) s).elems (i + 1)).widths.length =
            (getE s.elems (i + 1)).widths.length :=
          heightsOf_getE hRh (i + 1) (by rw [hRlen]; omega)
        have hLh : L < (getE s.elems (i + 1)).widths.length := by
          have h9 : L < (getE (eraseAt j (removeUnlink arr j (getE s.elems j) 1
              (s.spine.length - 1) s).elems) i).widths.length := hL
          rw [hacc, hhR] at h9
          exact h9
        have hLsp : L < s.spine.length := lt_of_lt_of_le hLh (hhigh _ (getE_mem (by omega)))
        obtain ⟨hch, horig, htarg⟩ := htr L hLsp
        have hst : (getE (eraseAt j (removeUnlink arr j (getE s.elems j) 1
            (s.spine.length - 1) s).elems) i).widths.getD L 0 =
            WAt (removeUnlink arr j (getE s.elems j) 1
              (s.spine.length - 1) s) L (some (i + 1)) := by
          rw [hacc, WAt, slotW_some_eq, if_pos (by rw [hRlen]; omega)]
        show (getE (eraseAt j (removeUnlink arr j (getE s.elems j) 1
            (s.spine.length - 1) s).elems) i).widths.getD L 0 =
          gapFrom (eraseAt j (removeUnlink arr j (getE s.elems j) 1
            (s.spine.length - 1) s).elems) L (some i)
        rw [hst, hW1 L (some (i + 1)), hgapE L (some i)]
        have hno : ¬((1 ≤ L ∧ L < s.spine.length) ∧ some (i + 1) = originAt arr L ∧
            SlotIn s L (originAt arr L)) := by
          rintro ⟨h1, h2, h3⟩
          rcases horig with hno2 | ⟨t2, ht2, htj2⟩
          · rw [hno2] at h2
            exact Option.noConfusion h2
          · rw [ht2] at h2
            have h9 := Option.some.inj h2
            omega
        rw [if_neg hno]
        have hWsi : WAt s L (some (i + 1)) = gapFrom s.elems L (some (i + 1)) := by
          rw [WAt, slotW_some_eq, if_pos (by omega)]
          exact helw (i + 1) (by omega) L hLh
        rw [hWsi]
        have hera : nextFrom (eraseAt j s.elems) L (i + 1) =
            (nextFrom s.elems L (i + 1 + 1)).map (fun q => q - 1) :=
          nextFrom_eraseAt_after hj (show j < i + 1 by omega)
        cases hq : nextFrom s.elems L (i + 1 + 1) with
        | some q =>
          obtain ⟨hqa, hqb⟩ := nextFrom_some_bounds hq
          have hg1 : gapFrom s.elems L (some (i + 1)) = (q : Int) - idxInt (some (i + 1)) :=
            gapFrom_eq_some hq
          have hera2 : nextFrom (eraseAt j s.elems) L (i + 1) = some (q - 1) := by
            rw [hera, hq]
            rfl
          have hg3 : gapFrom (eraseAt j s.elems) L (some i) =
              ((q - 1 : Nat) : Int) - idxInt (some i) := gapFrom_eq_some hera2
          rw [hg1, hg3]
          simp only [idxInt]
          omega
        | none =>
          have hg1 : gapFrom s.elems L (some (i + 1)) =
              (s.elems.length : Int) - idxInt (some (i + 1)) := gapFrom_eq_none hq
          have hera2 : nextFrom (eraseAt j s.elems) L (i + 1) = none := by
            rw [hera, hq]
            rfl
          have hg3 : gapFrom (eraseAt j s.elems) L (some i) =
              ((eraseAt j s.elems).length : Int) - idxInt (some i) := gapFrom_eq_none hera2
          rw [hg1, hg3, length_eraseAt j s.elems hj]
          simp only [idxInt]
          omega
  obtain ⟨hwfF, hprojF, hspF, hcntF, hhF⟩ := shrink_wf hmid
  refine ⟨hwfF, ?_, ?_, ?_, ?_⟩
  · show (shrink { removeUnlink arr j (getE s.elems j) 1 (s.spine.length - 1) s with
      elems := eraseAt j (removeUnlink arr j (getE s.elems j) 1
        (s.spine.length - 1) s).elems }).cnt = s.cnt - 1
    rw [hcntF]
    show (removeUnlink arr j (getE s.elems j) 1 (s.spine.length - 1) s).cnt - 1 = s.cnt - 1
    rw [hRcnt]
  · show (shrink { removeUnlink arr j (getE s.elems j) 1 (s.spine.length - 1) s with
      elems := eraseAt j (removeUnlink arr j (getE s.elems j) 1
        (s.spine.length - 1) s).elems }).elems.map proj = (eraseAt j s.elems).map proj
    rw [hprojF]
    show (eraseAt j (removeUnlink arr j (getE s.elems j) 1
      (s.spine.length - 1) s).elems).map proj = (eraseAt j s.elems).map proj
    rw [map_eraseAt, map_eraseAt, hRproj]
  · show (shrink { removeUnlink arr j (getE s.elems j) 1 (s.spine.length - 1) s with
      elems := eraseAt j (removeUnlink arr j (getE s.elems j) 1
        (s.spine.length - 1) s).elems }).spine.length = levelsFor (s.cnt - 1)
    rw [hspF]
    show levelsFor ((removeUnlink arr j (getE s.elems j) 1
      (s.spine.length - 1) s).cnt - 1) = levelsFor (s.cnt - 1)
    rw [hRcnt]
  · show heightsOf (shrink { removeUnlink arr j (getE s.elems j) 1
      (s.spine.length - 1) s with
      elems := eraseAt j (removeUnlink arr j (getE s.elems j) 1
        (s.spine.length - 1) s).elems }).elems = _
    rw [hhF]
    show (heightsOf (eraseAt j (removeUnlink arr j (getE s.elems j) 1
      (s.spine.length - 1) s).elems)).map _ = _
    rw [hEh]
    rfl

/-! Preservation of the invariant by grow, and congruence of the
observable tests under projection equality. -/

theorem proj_getE_of_map {es1 es0 : List (Elem K V)} (h : es1.map proj = es0.map proj)
    {t : Nat} (ht : t < es1.length) : proj (getE es1 t) = proj (getE es0 t) := by
  have hlen : es1.length = es0.length := by
    have h2 := congrArg List.length h
    simpa using h2
  have h1 : (es1.map proj)[t]? = (es0.map proj)[t]? := by rw [h]
  rw [List.getElem?_map, List.getElem?_map, List.getElem?_eq_getElem ht,
    List.getElem?_eq_getElem (show t < es0.length by omega)] at h1
  have h2 := Option.some.inj h1
  rw [getE_eq_getElem ht, getE_eq_getElem (show t < es0.length by omega)]
  exact h2

theorem relE_congr (less : K → K → Bool) {a a2 b1 b2 : Elem K V}
    (ha : proj a = proj a2) (hb : proj b1 = proj b2) :
    relE less a b1 ↔ relE less a2 b2 := by
  obtain ⟨hk1, _, hs1⟩ := proj_fields ha
  obtain ⟨hk2, _, hs2⟩ := proj_fields hb
  simp only [relE]
  rw [hk1, hk2, hs1, hs2]

theorem sLT_congr (less : K → K → Bool) (key : K) (sc : Int) {a a2 : Elem K V}
    (h : proj a = proj a2) : sLT less key sc a = sLT less key sc a2 := by
  obtain ⟨hk, _, hs⟩ := proj_fields h
  simp only [sLT]
  rw [hk, hs]

theorem keyMatch_congr (less : K → K → Bool) (score : K → Int) (k : K) {a a2 : Elem K V}
    (h : proj a = proj a2) : keyMatch less score k a = keyMatch less score k a2 := by
  obtain ⟨hk, _, hs⟩ := proj_fields h
  simp only [keyMatch]
  rw [hk, hs]

theorem grow_spine_le (s : SL K V) : s.spine.length ≤ (grow s).spine.length := by
  simp only [grow]
  by_cases hp : pow2Test (s.cnt + 1)
  · rw [if_pos hp]
    simp
  · rw [if_neg hp]

theorem grow_wf {s : SL K V} (hwf : WFc lessG scoreG 0 s) :
    WFc lessG scoreG 1 (grow s) := by
  have hcnt := hwf.cntLen
  have hsp := hwf.spineLen
  refine ⟨?_, ?_, ?_, ?_, ?_, ?_, ?_, ?_⟩
  · show s.cnt + 1 = s.elems.length + 1
    omega
  · show (grow s).spine.length = levelsFor (grow s).cnt
    rw [grow_spine_length s hsp, grow_cnt]
  · exact hwf.scoresOK
  · exact hwf.hLow
  · intro e he
    exact le_trans (hwf.hHigh e he) (grow_spine_le s)
  · exact hwf.sorted
  · intro L hL
    by_cases hLs : L < s.spine.length
    · rw [grow_spine_getD_lt s hLs]
      exact hwf.spineW L hLs
    · have hp : pow2Test (s.cnt + 1) := by
        by_contra hp
        have h9 : (grow s).spine.length = s.spine.length := by
          simp only [grow]
          rw [if_neg hp]
        omega
      have hLEq : L = s.spine.length := by
        have h9 : (grow s).spine.length = s.spine.length + 1 := by
          simp only [grow]
          rw [if_pos hp]
          simp
        omega
      subst hLEq
      rw [grow_spine_getD_top s hp]
      have hnone : nextIdx s.elems s.spine.length none = none := by
        rw [nextIdx]
        exact nextFrom_eq_none (fun t ht1 ht2 => hwf.hHigh _ (getE_mem ht2))
      have hg := gapFrom_eq_none hnone
      rw [show gapFrom (grow s).elems s.spine.length none =
        gapFrom s.elems s.spine.length none from rfl, hg]
      simp only [idxInt]
      omega
  · intro i hi L hL
    exact hwf.elemW i hi L hL

/-! Preservation of the invariant by the splice phase of insert. -/

theorem splice_wf (HL : LessOK lessG scoreG) {s2 : SL K V}
    (hwf : WFc lessG scoreG 1 s2)
    {arr : List (Option Nat × Int)} {b : Nat} {nuLevels : Nat}
    (hble : b ≤ s2.elems.length)
    (htr : ITraceW s2 arr b)
    (hnu1 : 1 ≤ nuLevels) (hnu2 : nuLevels ≤ s2.spine.length)
    {pos : Int} (hpos : pos = (b : Int))
    (key : K) (value : V)
    (hsltb : ∀ t, t < b → sLT lessG key (scoreG key) (getE s2.elems t) = true)
    (hsgeb : ∀ t, b ≤ t → t < s2.elems.length →
      sLT lessG key (scoreG key) (getE s2.elems t) = false)
    {N : Nat} (hN : s2.spine.length ≤ N) :
    WF lessG scoreG (spliced arr b nuLevels pos (scoreG key) key value N s2) ∧
    (spliced arr b nuLevels pos (scoreG key) key value N s2).elems.map proj =
      insertAt (key, value, scoreG key) b (s2.elems.map proj) ∧
    (spliced arr b nuLevels pos (scoreG key) key value N s2).cnt = s2.cnt := by
  have hcnt := hwf.cntLen
  have hsp := hwf.spineLen
  have hsc := hwf.scoresOK
  have hlow := hwf.hLow
  have hhigh := hwf.hHigh
  have hsort := hwf.sorted
  have hspw := hwf.spineW
  have helw := hwf.elemW
  have hfold := applySlots_eq_fold arr nuLevels pos (List.range N) s2
  have h3len : (applySlots arr nuLevels pos (List.range N) s2).elems.length =
      s2.elems.length := by
    rw [hfold]
    exact levelFold_elems_length _ _ _ _
  have h3sp : (applySlots arr nuLevels pos (List.range N) s2).spine.length =
      s2.spine.length := by
    rw [hfold]
    exact levelFold_spine_length _ _ _ _
  have h3cnt : (applySlots arr nuLevels pos (List.range N) s2).cnt = s2.cnt := by
    rw [hfold]
    exact levelFold_cnt _ _ _ _
  have h3h : heightsOf (applySlots arr nuLevels pos (List.range N) s2).elems =
      heightsOf s2.elems := by
    rw [hfold]
    exact levelFold_heights _ _ _ _
  have h3proj : (applySlots arr nuLevels pos (List.range N) s2).elems.map proj =
      s2.elems.map proj := by
    rw [hfold]
    exact levelFold_proj _ _ _ _
  have hW3 : ∀ (L2 : Nat) (o2 : Option Nat),
      WAt (applySlots arr nuLevels pos (List.range N) s2) L2 o2 =
        if (L2 < N ∧ ¬ L2 = 0) ∧ o2 = originAt arr L2 ∧
            SlotIn s2 L2 (originAt arr L2) then
          (if L2 < nuLevels then pos - posAt arr L2 else WAt s2 L2 o2 + 1)
        else WAt s2 L2 o2 := by
    intro L2 o2
    rw [hfold, WAt_levelFold _ _ _ _ (nodup_filterRange N)]
    show (if L2 ∈ (List.range N).filter (fun L3 => !decide (L3 = 0)) ∧
        o2 = originAt arr L2 ∧ SlotIn s2 L2 (originAt arr L2) then
        (if L2 < nuLevels then pos - posAt arr L2 else WAt s2 L2 o2 + 1)
      else WAt s2 L2 o2) = _
    by_cases hcc : (L2 < N ∧ ¬ L2 = 0) ∧ o2 = originAt arr L2 ∧
        SlotIn s2 L2 (originAt arr L2)
    · rw [if_pos ⟨mem_filterRange.mpr hcc.1, hcc.2⟩, if_pos hcc]
    · rw [if_neg (fun hc => hcc ⟨mem_filterRange.mp hc.1, hc.2⟩), if_neg hcc]
  have hnuLen : (nuWidths arr s2 nuLevels pos).length = nuLevels := by
    rw [nuWidths]
    simp
  have hnuGet : ∀ L, L < nuLevels → (nuWidths arr s2 nuLevels pos).getD L 0 =
      (if L = 0 then 1
       else posAt arr L + slotW s2.spine s2.elems L (originAt arr L) + 1 - pos) := by
    intro L hL
    rw [nuWidths, List.getD_eq_getElem?_getD, List.getElem?_map, List.getElem?_range hL]
    rfl
  have hble3 : b ≤ (applySlots arr nuLevels pos (List.range N) s2).elems.length := by
    rw [h3len]
    exact hble
  have hlenF : (insertAt (⟨key, value, scoreG key, nuWidths arr s2 nuLevels pos⟩ : Elem K V)
      b (applySlots arr nuLevels pos (List.range N) s2).elems).length =
      s2.elems.length + 1 := by
    rw [length_insertAt _ _ _ hble3, h3len]
  have hcong : ∀ (L st : Nat),
      nextFrom (applySlots arr nuLevels pos (List.range N) s2).elems L st =
        nextFrom s2.elems L st := fun L st => nextFrom_congr h3h L st
  have hgetA : ∀ t, t < s2.elems.length →
      proj (getE (applySlots arr nuLevels pos (List.range N) s2).elems t) =
        proj (getE s2.elems t) :=
    fun t ht => proj_getE_of_map h3proj (by rw [h3len]; exact ht)
  have hhA : ∀ t, t < s2.elems.length →
      (getE (applySlots arr nuLevels pos (List.range N) s2).elems t).widths.length =
        (getE s2.elems t).widths.length :=
    fun t ht => heightsOf_getE h3h t (by rw [h3len]; exact ht)
  have hFlow : ∀ e ∈ insertAt (⟨key, value, scoreG key, nuWidths arr s2 nuLevels pos⟩ :
      Elem K V) b (applySlots arr nuLevels pos (List.range N) s2).elems,
      1 ≤ e.widths.length := by
    intro e he
    rcases (mem_insertAt _ _ _ _).mp he with hEq | hm
    · rw [hEq]
      show 1 ≤ (nuWidths arr s2 nuLevels pos).length
      rw [hnuLen]
      exact hnu1
    · obtain ⟨e0, he0, hEq2⟩ := mem_heights h3h hm
      rw [hEq2]
      exact hlow e0 he0
  have hbeforeR : ∀ t, t < b → relE lessG (getE s2.elems t)
      ⟨key, value, scoreG key, nuWidths arr s2 nuLevels pos⟩ := by
    intro t ht
    have h1 := hsltb t ht
    simp only [sLT, Bool.or_eq_true, Bool.and_eq_true] at h1
    rcases h1 with h2 | ⟨h3, h4⟩
    · exact Or.inl (of_decide_eq_true h2)
    · refine Or.inr ⟨of_decide_eq_true h3, ?_⟩
      show lessG key (getE s2.elems t).key = false
      cases hb2 : lessG key (getE s2.elems t).key with
      | false => rfl
      | true =>
        have h6 := HL.trans key (getE s2.elems t).key key hb2 h4
        rw [HL.irrefl key] at h6
        cases h6
  have hafterR : ∀ t, b ≤ t → t < s2.elems.length →
      relE lessG (⟨key, value, scoreG key, nuWidths arr s2 nuLevels pos⟩ : Elem K V)
        (getE s2.elems t) := by
    intro t ht1 ht2
    have h1 := hsgeb t ht1 ht2
    simp only [sLT] at h1
    obtain ⟨h2, h3⟩ := Bool.or_eq_false_iff.mp h1
    have h4 : ¬ (getE s2.elems t).score < scoreG key := of_decide_eq_false h2
    rcases Int.lt_or_le (scoreG key) (getE s2.elems t).score with h5 | h5
    · exact Or.inl h5
    · have h6 : (getE s2.elems t).score = scoreG key := by omega
      refine Or.inr ⟨h6.symm, ?_⟩
      have h7 : decide ((getE s2.elems t).score = scoreG key) = true := decide_eq_true h6
      rw [h7] at h3
      simpa using h3
  refine ⟨⟨?_, ?_, ?_, ?_, ?_, ?_, ?_, ?_⟩, ?_, ?_⟩
  · show (applySlots arr nuLevels pos (List.range N) s2).cnt =
      (insertAt (⟨key, value, scoreG key, nuWidths arr s2 nuLevels pos⟩ : Elem K V)
        b (applySlots arr nuLevels pos (List.range N) s2).elems).length + 0
    rw [h3cnt, hlenF]
    omega
  · show (applySlots arr nuLevels pos (List.range N) s2).spine.length =
      levelsFor (applySlots arr nuLevels pos (List.range N) s2).cnt
    rw [h3sp, h3cnt]
    exact hsp
  · intro e he
    rcases (mem_insertAt _ _ _ _).mp he with hEq | hm
    · rw [hEq]
    · exact scores_of_proj h3proj hsc e hm
  · exact hFlow
  · intro e he
    show e.widths.length ≤ (applySlots arr nuLevels pos (List.range N) s2).spine.length
    rw [h3sp]
    rcases (mem_insertAt _ _ _ _).mp he with hEq | hm
    · rw [hEq]
      show (nuWidths arr s2 nuLevels pos).length ≤ s2.spine.length
      rw [hnuLen]
      exact hnu2
    · obtain ⟨e0, he0, hEq2⟩ := mem_heights h3h hm
      rw [hEq2]
      exact hhigh e0 he0
  · show (insertAt (⟨key, value, scoreG key, nuWidths arr s2 nuLevels pos⟩ : Elem K V)
      b (applySlots arr nuLevels pos (List.range N) s2).elems).Pairwise (relE lessG)
    refine pairwise_insertAt hble3 (pairwise_relE_of_proj lessG h3proj hsort) ?_ ?_
    · intro t ht
      exact (relE_congr lessG (hgetA t (by omega)) rfl).mpr (hbeforeR t ht)
    · intro t ht1 ht2
      have ht3 : t < s2.elems.length := by rw [← h3len]; exact ht2
      exact (relE_congr lessG rfl (hgetA t ht3)).mpr (hafterR t ht1 ht3)
  · intro L hL
    have hLsp : L < s2.spine.length := by rw [← h3sp]; exact hL
    obtain ⟨hch, hpos2, horig, htarg⟩ := htr L hLsp
    show (applySlots arr nuLevels pos (List.range N) s2).spine.getD L 0 =
      gapFrom (insertAt (⟨key, value, scoreG key, nuWidths arr s2 nuLevels pos⟩ : Elem K V)
        b (applySlots arr nuLevels pos (List.range N) s2).elems) L none
    have hAW : (applySlots arr nuLevels pos (List.range N) s2).spine.getD L 0 =
        WAt (applySlots arr nuLevels pos (List.range N) s2) L none := rfl
    rw [hAW, hW3 L none]
    rcases Nat.eq_zero_or_pos L with hL0 | hLpos
    · subst hL0
      rw [if_neg (fun hc => hc.1.2 rfl)]
      have hWs : WAt s2 0 none = gapFrom s2.elems 0 none := hspw 0 hLsp
      rw [hWs, gapFrom_zero hlow (o := none) trivial, gapFrom_zero hFlow (o := none) trivial]
    · cases horigEq : originAt arr L with
      | some t =>
        rw [if_neg (fun hc => Option.noConfusion hc.2.1)]
        have hWs : WAt s2 L none = gapFrom s2.elems L none := hspw L hLsp
        rw [hWs]
        rw [horigEq] at hch horig htarg
        obtain ⟨htlen, hth⟩ := hch
        have htb : t < b := by
          rcases horig with hno | ⟨t2, ht2, h2⟩
          · exact Option.noConfusion hno
          · have h9 := Option.some.inj ht2
            omega
        obtain ⟨q0, hq0, hq0a, hq0b⟩ := nextFrom_exists (Nat.zero_le t) htlen hth
        have hq0b2 : q0 < b := by omega
        have hg1 : gapFrom s2.elems L none = (q0 : Int) - idxInt none := gapFrom_eq_some hq0
        have hgF : nextFrom (insertAt (⟨key, value, scoreG key,
            nuWidths arr s2 nuLevels pos⟩ : Elem K V) b
            (applySlots arr nuLevels pos (List.range N) s2).elems) L 0 = some q0 := by
          by_cases hlk : L < nuLevels
          · rw [nextFrom_insertAt_linked hble3 (Nat.zero_le b)
              (show L < (nuWidths arr s2 nuLevels pos).length by rw [hnuLen]; exact hlk),
              hcong L 0, hq0]
            show (if q0 < b then some q0 else some b) = some q0
            rw [if_pos hq0b2]
          · rw [nextFrom_insertAt_unlinked hble3 (Nat.zero_le b)
              (show (nuWidths arr s2 nuLevels pos).length ≤ L by rw [hnuLen]; omega),
              hcong L 0, hq0]
            show (if q0 < b then some q0 else some (q0 + 1)) = some q0
            rw [if_pos hq0b2]
        have hg3 : gapFrom (insertAt (⟨key, value, scoreG key,
            nuWidths arr s2 nuLevels pos⟩ : Elem K V) b
            (applySlots arr nuLevels pos (List.range N) s2).elems) L none =
            (q0 : Int) - idxInt none := gapFrom_eq_some hgF
        rw [hg1, hg3]
      | none =>
        rw [horigEq] at htarg hpos2
        rw [if_pos ⟨⟨by omega, by omega⟩, rfl, hLsp⟩]
        by_cases hlk : L < nuLevels
        · rw [if_pos hlk, hpos2]
          have hgF : nextFrom (insertAt (⟨key, value, scoreG key,
              nuWidths arr s2 nuLevels pos⟩ : Elem K V) b
              (applySlots arr nuLevels pos (List.range N) s2).elems) L 0 = some b := by
            rw [nextFrom_insertAt_linked hble3 (Nat.zero_le b)
              (show L < (nuWidths arr s2 nuLevels pos).length by rw [hnuLen]; exact hlk),
              hcong L 0]
            cases hq : nextFrom s2.elems L 0 with
            | some q =>
              have h9 := htarg q hq
              show (if q < b then some q else some b) = some b
              rw [if_neg (by omega)]
            | none => rfl
          have hg3 : gapFrom (insertAt (⟨key, value, scoreG key,
              nuWidths arr s2 nuLevels pos⟩ : Elem K V) b
              (applySlots arr nuLevels pos (List.range N) s2).elems) L none =
              (b : Int) - idxInt none := gapFrom_eq_some hgF
          rw [hg3, hpos]
        · rw [if_neg hlk]
          have hWs : WAt s2 L none = gapFrom s2.elems L none := hspw L hLsp
          rw [hWs]
          cases hq : nextFrom s2.elems L 0 with
          | some q =>
            have hqb := htarg q hq
            obtain ⟨hqa, hqb2⟩ := nextFrom_some_bounds hq
            have hgF : nextFrom (insertAt (⟨key, value, scoreG key,
                nuWidths arr s2 nuLevels pos⟩ : Elem K V) b
                (applySlots arr nuLevels pos (List.range N) s2).elems) L 0 =
                some (q + 1) := by
              rw [nextFrom_insertAt_unlinked hble3 (Nat.zero_le b)
                (show (nuWidths arr s2 nuLevels pos).length ≤ L by rw [hnuLen]; omega),
                hcong L 0, hq]
              show (if q < b then some q else some (q + 1)) = some (q + 1)
              rw [if_neg (by omega)]
            have hg1 : gapFrom s2.elems L none = (q : Int) - idxInt none :=
              gapFrom_eq_some hq
            have hg3 : gapFrom (insertAt (⟨key, value, scoreG key,
                nuWidths arr s2 nuLevels pos⟩ : Elem K V) b
                (applySlots arr nuLevels pos (List.range N) s2).elems) L none =
                ((q + 1 : Nat) : Int) - idxInt none := gapFrom_eq_some hgF
            rw [hg1, hg3]
            simp only [idxInt]
            omega
          | none =>
            have hgF : nextFrom (insertAt (⟨key, value, scoreG key,
                nuWidths arr s2 nuLevels pos⟩ : Elem K V) b
                (applySlots arr nuLevels pos (List.range N) s2).elems) L 0 = none := by
              rw [nextFrom_insertAt_unlinked hble3 (Nat.zero_le b)
                (show (nuWidths arr s2 nuLevels pos).length ≤ L by rw [hnuLen]; omega),
                hcong L 0, hq]
            have hg1 : gapFrom s2.elems L none = (s2.elems.length : Int) - idxInt none :=
              gapFrom_eq_none hq
            have hg3 : gapFrom (insertAt (⟨key, value, scoreG key,
                nuWidths arr s2 nuLevels pos⟩ : Elem K V) b
                (applySlots arr nuLevels pos (List.range N) s2).elems) L none =
                ((insertAt (⟨key, value, scoreG key,
                  nuWidths arr s2 nuLevels pos⟩ : Elem K V) b
                  (applySlots arr nuLevels pos (List.range N) s2).elems).length : Int) -
                  idxInt none := gapFrom_eq_none hgF
            rw [hg1, hg3, hlenF]
            simp only [idxInt]
            omega
  · intro i hi L hL
    have hi2 : i < s2.elems.length + 1 := by rw [← hlenF]; exact hi
    rcases Nat.lt_trichotomy i b with hib | hib | hib
    · have hacc : getE (insertAt (⟨key, value, scoreG key,
          nuWidths arr s2 nuLevels pos⟩ : Elem K V) b
          (applySlots arr nuLevels pos (List.range N) s2).elems) i =
          getE (applySlots arr nuLevels pos (List.range N) s2).elems i :=
        getE_insertAt_lt hble3 hib
      have hLh : L < (getE s2.elems i).widths.length := by
        have h9 : L < (getE (insertAt (⟨key, value, scoreG key,
            nuWidths arr s2 nuLevels pos⟩ : Elem K V) b
            (applySlots arr nuLevels pos (List.range N) s2).elems) i).widths.length := hL
        rw [hacc, hhA i (by omega)] at h9
        exact h9
      have hLsp : L < s2.spine.length := lt_of_lt_of_le hLh (hhigh _ (getE_mem (by omega)))
      obtain ⟨hch, hpos2, horig, htarg⟩ := htr L hLsp
      have hst : (getE (insertAt (⟨key, value, scoreG key,
          nuWidths arr s2 nuLevels pos⟩ : Elem K V) b
          (applySlots arr nuLevels pos (List.range N) s2).elems) i).widths.getD L 0 =
          WAt (applySlots arr nuLevels pos (List.range N) s2) L (some i) := by
        rw [hacc, WAt, slotW_some_eq, if_pos (by rw [h3len]; omega)]
      show (getE (insertAt (⟨key, value, scoreG key,
          nuWidths arr s2 nuLevels pos⟩ : Elem K V) b
          (applySlots arr nuLevels pos (List.range N) s2).elems) i).widths.getD L 0 =
        gapFrom (insertAt (⟨key, value, scoreG key,
          nuWidths arr s2 nuLevels pos⟩ : Elem K V) b
          (applySlots arr nuLevels pos (List.range N) s2).elems) L (some i)
      rw [hst, hW3 L (some i)]
      rcases Nat.eq_zero_or_pos L with hL0 | hLpos
      · subst hL0
        rw [if_neg (fun hc => hc.1.2 rfl)]
        have hW0 : WAt s2 0 (some i) = gapFrom s2.elems 0 (some i) := by
          rw [WAt, slotW_some_eq, if_pos (by omega)]
          exact helw i (by omega) 0 hLh
        rw [hW0, gapFrom_zero hlow (o := some i) ⟨by omega, hLh⟩,
          gapFrom_zero hFlow (o := some i)
            ⟨by rw [hlenF]; omega, by rw [hacc, hhA i (by omega)]; exact hLh⟩]
      · by_cases horigi : originAt arr L = some i
        · rw [horigi]
          rw [if_pos ⟨⟨by omega, by omega⟩, rfl, ⟨by omega, hLh⟩⟩]
          rw [horigi] at hpos2 htarg
          by_cases hlk : L < nuLevels
          · rw [if_pos hlk, hpos2]
            have hgF : nextFrom (insertAt (⟨key, value, scoreG key,
                nuWidths arr s2 nuLevels pos⟩ : Elem K V) b
                (applySlots arr nuLevels pos (List.range N) s2).elems) L (i + 1) =
                some b := by
              rw [nextFrom_insertAt_linked hble3 (by omega)
                (show L < (nuWidths arr s2 nuLevels pos).length by rw [hnuLen]; exact hlk),
                hcong L (i + 1)]
              cases hq : nextFrom s2.elems L (i + 1) with
              | some q =>
                have h9 := htarg q hq
                show (if q < b then some q else some b) = some b
                rw [if_neg (by omega)]
              | none => rfl
            have hg3 : gapFrom (insertAt (⟨key, value, scoreG key,
                nuWidths arr s2 nuLevels pos⟩ : Elem K V) b
                (applySlots arr nuLevels pos (List.range N) s2).elems) L (some i) =
                (b : Int) - idxInt (some i) := gapFrom_eq_some hgF
            rw [hg3, hpos]
          · rw [if_neg hlk]
            have hWsi : WAt s2 L (some i) = gapFrom s2.elems L (some i) := by
              rw [WAt, slotW_some_eq, if_pos (by omega)]
              exact helw i (by omega) L hLh
            rw [hWsi]
            cases hq : nextFrom s2.elems L (i + 1) with
            | some q =>
              have hqb := htarg q hq
              obtain ⟨hqa, hqb2⟩ := nextFrom_some_bounds hq
              have hgF : nextFrom (insertAt (⟨key, value, scoreG key,
                  nuWidths arr s2 nuLevels pos⟩ : Elem K V) b
                  (applySlots arr nuLevels pos (List.range N) s2).elems) L (i + 1) =
                  some (q + 1) := by
                rw [nextFrom_insertAt_unlinked hble3 (by omega)
                  (show (nuWidths arr s2 nuLevels pos).length ≤ L by rw [hnuLen]; omega),
                  hcong L (i + 1), hq]
                show (if q < b then some q else some (q + 1)) = some (q + 1)
                rw [if_neg (by omega)]
              have hg1 : gapFrom s2.elems L (some i) = (q : Int) - idxInt (some i) :=
                gapFrom_eq_some hq
              have hg3 : gapFrom (insertAt (⟨key, value, scoreG key,
                  nuWidths arr s2 nuLevels pos⟩ : Elem K V) b
                  (applySlots arr nuLevels pos (List.range N) s2).elems) L (some i) =
                  ((q + 1 : Nat) : Int) - idxInt (some i) := gapFrom_eq_some hgF
              rw [hg1, hg3]
              simp only [idxInt]
              omega
            | none =>
              have hgF : nextFrom (insertAt (⟨key, value, scoreG key,
                  nuWidths arr s2 nuLevels pos⟩ : Elem K V) b
                  (applySlots arr nuLevels pos (List.range N) s2).elems) L (i + 1) =
                  none := by
                rw [nextFrom_insertAt_unlinked hble3 (by omega)
                  (show (nuWidths arr s2 nuLevels pos).length ≤ L by rw [hnuLen]; omega),
                  hcong L (i + 1), hq]
              have hg1 : gapFrom s2.elems L (some i) =
                  (s2.elems.length : Int) - idxInt (some i) := gapFrom_eq_none hq
              have hg3 : gapFrom (insertAt (⟨key, value, scoreG key,
                  nuWidths arr s2 nuLevels pos⟩ : Elem K V) b
                  (applySlots arr nuLevels pos (List.range N) s2).elems) L (some i) =
                  ((insertAt (⟨key, value, scoreG key,
                    nuWidths arr s2 nuLevels pos⟩ : Elem K V) b
                    (applySlots arr nuLevels pos (List.range N) s2).elems).length : Int) -
                    idxInt (some i) := gapFrom_eq_none hgF
              rw [hg1, hg3, hlenF]
              simp only [idxInt]
              omega
        · rw [if_neg (fun hc => horigi hc.2.1.symm)]
          have hWsi : WAt s2 L (some i) = gapFrom s2.elems L (some i) := by
            rw [WAt, slotW_some_eq, if_pos (by omega)]
            exact helw i (by omega) L hLh
          rw [hWsi]
          cases horigEq2 : originAt arr L with
          | none =>
            exfalso
            rw [horigEq2] at htarg
            obtain ⟨q0, hq0, hq0a, hq0b⟩ := nextFrom_exists (Nat.zero_le i) (by omega) hLh
            have := htarg q0 hq0
            omega
          | some t =>
            rw [horigEq2] at hch horig htarg
            obtain ⟨htlen, hth⟩ := hch
            have htb : t < b := by
              rcases horig with hno | ⟨t2, ht2, h2⟩
              · exact Option.noConfusion hno
              · have h9 := Option.some.inj ht2
                omega
            have hit2 : i ≤ t := by
              by_contra hcon
              obtain ⟨q, hq, hq1, hq2⟩ := nextFrom_exists
                (show t + 1 ≤ i by omega) (by omega) hLh
              have := htarg q hq
              omega
            have hit3 : i < t := by
              rcases Nat.eq_or_lt_of_le hit2 with hEq | h
              · exfalso
                exact horigi (by rw [horigEq2, hEq])
              · exact h
            obtain ⟨q, hq, hq1, hq2⟩ := nextFrom_exists (show i + 1 ≤ t by omega) htlen hth
            have hqb2 : q < b := by omega
            have hg1 : gapFrom s2.elems L (some i) = (q : Int) - idxInt (some i) :=
              gapFrom_eq_some hq
            have hgF : nextFrom (insertAt (⟨key, value, scoreG key,
                nuWidths arr s2 nuLevels pos⟩ : Elem K V) b
                (applySlots arr nuLevels pos (List.range N) s2).elems) L (i + 1) =
                some q := by
              by_cases hlk : L < nuLevels
              · rw [nextFrom_insertAt_linked hble3 (by omega)
                  (show L < (nuWidths arr s2 nuLevels pos).length by rw [hnuLen]; exact hlk),
                  hcong L (i + 1), hq]
                show (if q < b then some q else some b) = some q
                rw [if_pos hqb2]
              · rw [nextFrom_insertAt_unlinked hble3 (by omega)
                  (show (nuWidths arr s2 nuLevels pos).length ≤ L by rw [hnuLen]; omega),
                  hcong L (i + 1), hq]
                show (if q < b then some q else some (q + 1)) = some q
                rw [if_pos hqb2]
            have hg3 : gapFrom (insertAt (⟨key, value, scoreG key,
                nuWidths arr s2 nuLevels pos⟩ : Elem K V) b
                (applySlots arr nuLevels pos (List.range N) s2).elems) L (some i) =
                (q : Int) - idxInt (some i) := gapFrom_eq_some hgF
            rw [hg1, hg3]
    · subst hib
      have hacc : getE (insertAt (⟨key, value, scoreG key,
          nuWidths arr s2 nuLevels pos⟩ : Elem K V) i
          (applySlots arr nuLevels pos (List.range N) s2).elems) i =
          ⟨key, value, scoreG key, nuWidths arr s2 nuLevels pos⟩ :=
        getE_insertAt_self hble3
      have hLnu : L < nuLevels := by
        have h9 : L < (getE (insertAt (⟨key, value, scoreG key,
            nuWidths arr s2 nuLevels pos⟩ : Elem K V) i
            (applySlots arr nuLevels pos (List.range N) s2).elems) i).widths.length := hL
        rw [hacc] at h9
        have h10 : L < (nuWidths arr s2 nuLevels pos).length := h9
        rw [hnuLen] at h10
        exact h10
      have hLsp : L < s2.spine.length := by omega
      obtain ⟨hch, hpos2, horig, htarg⟩ := htr L hLsp
      have hstartle : startOf (originAt arr L) ≤ i := by
        rcases horig with hno | ⟨t2, ht2, h2⟩
        · rw [hno]
          simp [startOf]
        · rw [ht2]
          simp only [startOf]
          omega
      have hst : (getE (insertAt (⟨key, value, scoreG key,
          nuWidths arr s2 nuLevels pos⟩ : Elem K V) i
          (applySlots arr nuLevels pos (List.range N) s2).elems) i).widths.getD L 0 =
          (nuWidths arr s2 nuLevels pos).getD L 0 := by
        rw [hacc]
      show (getE (insertAt (⟨key, value, scoreG key,
          nuWidths arr s2 nuLevels pos⟩ : Elem K V) i
          (applySlots arr nuLevels pos (List.range N) s2).elems) i).widths.getD L 0 =
        gapFrom (insertAt (⟨key, value, scoreG key,
          nuWidths arr s2 nuLevels pos⟩ : Elem K V) i
          (applySlots arr nuLevels pos (List.range N) s2).elems) L (some i)
      rw [hst, hnuGet L hLnu]
      rcases Nat.eq_zero_or_pos L with hL0 | hLpos
      · subst hL0
        rw [if_pos rfl, gapFrom_zero hFlow (o := some i)
          ⟨by rw [hlenF]; omega,
           by rw [hacc]; show 0 < (nuWidths arr s2 nuLevels pos).length;
              rw [hnuLen]; omega⟩]
      · rw [if_neg (by omega)]
        have hWor : slotW s2.spine s2.elems L (originAt arr L) =
            gapFrom s2.elems L (originAt arr L) := WFc_WAt hwf hLsp hch
        rw [hpos2, hWor]
        have hFafter : nextFrom (insertAt (⟨key, value, scoreG key,
            nuWidths arr s2 nuLevels pos⟩ : Elem K V) i
            (applySlots arr nuLevels pos (List.range N) s2).elems) L (i + 1) =
            (nextFrom s2.elems L i).map (fun q => q + 1) := by
          rw [nextFrom_insertAt_after hble3 (by omega)]
          rw [show i + 1 - 1 = i from rfl, hcong L i]
        cases hq : nextIdx s2.elems L (originAt arr L) with
        | some q =>
          have hqb := htarg q hq
          have hq9 : nextFrom s2.elems L (startOf (originAt arr L)) = some q := hq
          obtain ⟨hqa, hqb2⟩ := nextFrom_some_bounds hq9
          have hg1 : gapFrom s2.elems L (originAt arr L) =
              (q : Int) - idxInt (originAt arr L) := gapFrom_eq_some hq
          have hq2 : nextFrom s2.elems L i = some q := by
            refine nextFrom_determine (by omega) hqb2 (nextFrom_some_hit hq9) ?_
            intro u hu1 hu2
            exact nextFrom_some_min hq9 u (le_trans hstartle hu1) hu2
          have hgF : nextFrom (insertAt (⟨key, value, scoreG key,
              nuWidths arr s2 nuLevels pos⟩ : Elem K V) i
              (applySlots arr nuLevels pos (List.range N) s2).elems) L (i + 1) =
              some (q + 1) := by
            rw [hFafter, hq2]
            rfl
          have hg3 : gapFrom (insertAt (⟨key, value, scoreG key,
              nuWidths arr s2 nuLevels pos⟩ : Elem K V) i
              (applySlots arr nuLevels pos (List.range N) s2).elems) L (some i) =
              ((q + 1 : Nat) : Int) - idxInt (some i) := gapFrom_eq_some hgF
          rw [hg1, hg3, hpos]
          simp only [idxInt]
          omega
        | none =>
          have hq9 : nextFrom s2.elems L (startOf (originAt arr L)) = none := hq
          have hg1 : gapFrom s2.elems L (originAt arr L) =
              (s2.elems.length : Int) - idxInt (originAt arr L) := gapFrom_eq_none hq
          have hq2 : nextFrom s2.elems L i = none := by
            refine nextFrom_eq_none ?_
            intro u hu1 hu2
            exact nextFrom_none hq9 u (le_trans hstartle hu1) hu2
          have hgF : nextFrom (insertAt (⟨key, value, scoreG key,
              nuWidths arr s2 nuLevels pos⟩ : Elem K V) i
              (applySlots arr nuLevels pos (List.range N) s2).elems) L (i + 1) = none := by
            rw [hFafter, hq2]
            rfl
          have hg3 : gapFrom (insertAt (⟨key, value, scoreG key,
              nuWidths arr s2 nuLevels pos⟩ : Elem K V) i
              (applySlots arr nuLevels pos (List.range N) s2).elems) L (some i) =
              ((insertAt (⟨key, value, scoreG key,
                nuWidths arr s2 nuLevels pos⟩ : Elem K V) i
                (applySlots arr nuLevels pos (List.range N) s2).elems).length : Int) -
                idxInt (some i) := gapFrom_eq_none hgF
          rw [hg1, hg3, hlenF, hpos]
          simp only [idxInt]
          omega
    · have hacc : getE (insertAt (⟨key, value, scoreG key,
          nuWidths arr s2 nuLevels pos⟩ : Elem K V) b
          (applySlots arr nuLevels pos (List.range N) s2).elems) i =
          getE (applySlots arr nuLevels pos (List.range N) s2).elems (i - 1) :=
        getE_insertAt_gt hble3 hib
      have hu : i - 1 < s2.elems.length := by omega
      have hLh : L < (getE s2.elems (i - 1)).widths.length := by
        have h9 : L < (getE (insertAt (⟨key, value, scoreG key,
            nuWidths arr s2 nuLevels pos⟩ : Elem K V) b
            (applySlots arr nuLevels pos (List.range N) s2).elems) i).widths.length := hL
        rw [hacc, hhA (i - 1) hu] at h9
        exact h9
      have hLsp : L < s2.spine.length := lt_of_lt_of_le hLh (hhigh _ (getE_mem hu))
      obtain ⟨hch, hpos2, horig, htarg⟩ := htr L hLsp
      have hst : (getE (insertAt (⟨key, value, scoreG key,
          nuWidths arr s2 nuLevels pos⟩ : Elem K V) b
          (applySlots arr nuLevels pos (List.range N) s2).elems) i).widths.getD L 0 =
          WAt (applySlots arr nuLevels pos (List.range N) s2) L (some (i - 1)) := by
        rw [hacc, WAt, slotW_some_eq, if_pos (by rw [h3len]; omega)]
      show (getE (insertAt (⟨key, value, scoreG key,
          nuWidths arr s2 nuLevels pos⟩ : Elem K V) b
          (applySlots arr nuLevels pos (List.range N) s2).elems) i).widths.getD L 0 =
        gapFrom (insertAt (⟨key, value, scoreG key,
          nuWidths arr s2 nuLevels pos⟩ : Elem K V) b
          (applySlots arr nuLevels pos (List.range N) s2).elems) L (some i)
      rw [hst, hW3 L (some (i - 1))]
      have hno : ¬((L < N ∧ ¬ L = 0) ∧ some (i - 1) = originAt arr L ∧
          SlotIn s2 L (originAt arr L)) := by
        rintro ⟨h1, h2, h3⟩
        rcases horig with hno2 | ⟨t2, ht2, ht2b⟩
        · rw [hno2] at h2
          exact Option.noConfusion h2
        · rw [ht2] at h2
          have h9 := Option.some.inj h2
          omega
      rw [if_neg hno]
      have hWsi : WAt s2 L (some (i - 1)) = gapFrom s2.elems L (some (i - 1)) := by
        rw [WAt, slotW_some_eq, if_pos (by omega)]
        exact helw (i - 1) (by omega) L hLh
      rw [hWsi]
      have hFafter : nextFrom (insertAt (⟨key, value, scoreG key,
          nuWidths arr s2 nuLevels pos⟩ : Elem K V) b
          (applySlots arr nuLevels pos (List.range N) s2).elems) L (i + 1) =
          (nextFrom s2.elems L i).map (fun q => q + 1) := by
        rw [nextFrom_insertAt_after hble3 (by omega)]
        rw [show i + 1 - 1 = i from rfl, hcong L i]
      cases hq : nextFrom s2.elems L i with
      | some q =>
        obtain ⟨hqa, hqb2⟩ := nextFrom_some_bounds hq
        have hq9 : nextIdx s2.elems L (some (i - 1)) = some q := by
          rw [nextIdx_some, show i - 1 + 1 = i from by omega]
          exact hq
        have hg1 : gapFrom s2.elems L (some (i - 1)) =
            (q : Int) - idxInt (some (i - 1)) := gapFrom_eq_some hq9
        have hgF : nextFrom (insertAt (⟨key, value, scoreG key,
            nuWidths arr s2 nuLevels pos⟩ : Elem K V) b
            (applySlots arr nuLevels pos (List.range N) s2).elems) L (i + 1) =
            some (q + 1) := by
          rw [hFafter, hq]
          rfl
        have hg3 : gapFrom (insertAt (⟨key, value, scoreG key,
            nuWidths arr s2 nuLevels pos⟩ : Elem K V) b
            (applySlots arr nuLevels pos (List.range N) s2).elems) L (some i) =
            ((q + 1 : Nat) : Int) - idxInt (some i) := gapFrom_eq_some hgF
        rw [hg1, hg3]
        simp only [idxInt]
        omega
      | none =>
        have hq9 : nextIdx s2.elems L (some (i - 1)) = none := by
          rw [nextIdx_some, show i - 1 + 1 = i from by omega]
          exact hq
        have hg1 : gapFrom s2.elems L (some (i - 1)) =
            (s2.elems.length : Int) - idxInt (some (i - 1)) := gapFrom_eq_none hq9
        have hgF : nextFrom (insertAt (⟨key, value, scoreG key,
            nuWidths arr s2 nuLevels pos⟩ : Elem K V) b
            (applySlots arr nuLevels pos (List.range N) s2).elems) L (i + 1) = none := by
          rw [hFafter, hq]
          rfl
        have hg3 : gapFrom (insertAt (⟨key, value, scoreG key,
            nuWidths arr s2 nuLevels pos⟩ : Elem K V) b
            (applySlots arr nuLevels pos (List.range N) s2).elems) L (some i) =
            ((insertAt (⟨key, value, scoreG key,
              nuWidths arr s2 nuLevels pos⟩ : Elem K V) b
              (applySlots arr nuLevels pos (List.range N) s2).elems).length : Int) -
              idxInt (some i) := gapFrom_eq_none hgF
        rw [hg1, hg3, hlenF]
        simp only [idxInt]
        omega
  · show (insertAt (⟨key, value, scoreG key, nuWidths arr s2 nuLevels pos⟩ : Elem K V)
      b (applySlots arr nuLevels pos (List.range N) s2).elems).map proj =
      insertAt (key, value, scoreG key) b (s2.elems.map proj)
    rw [map_insertAt, h3proj]
    rfl
  · exact h3cnt

/-! Assembly of the full mutations: each public operation preserves the
invariant, with its content effect characterized. -/

theorem heights_getD {es : List (Elem K V)} {t : Nat} (ht : t < es.length) :
    (heightsOf es).getD t 0 = (getE es t).widths.length := by
  rw [heightsOf, List.getD_eq_getElem?_getD, List.getElem?_map, List.getElem?_eq_getElem ht]
  simp [getE_eq_getElem ht]

theorem getD_map_lt {l : List α} (f : α → β) {t : Nat} (ht : t < l.length) (d : α) (d2 : β) :
    (l.map f).getD t d2 = f (l.getD t d) := by
  rw [List.getD_eq_getElem?_getD, List.getElem?_map, List.getElem?_eq_getElem ht,
    List.getD_eq_getElem?_getD, List.getElem?_eq_getElem ht]
  rfl

theorem height_min_of_heights {es2 es : List (Elem K V)} {m : Nat}
    (hh : heightsOf es2 = (heightsOf es).map (fun h0 => min h0 m))
    {t : Nat} (ht : t < es.length) (ht2 : t < es2.length) :
    (getE es2 t).widths.length = min ((getE es t).widths.length) m := by
  rw [← heights_getD ht2, hh,
    getD_map_lt _ (show t < (heightsOf es).length by simpa [heightsOf] using ht) 0 0,
    heights_getD ht]

/-- Insert preserves the invariant; its content effect is exactly the
insertion of the new pair at the key boundary, and the count rises by one. -/
theorem Insert_wf (HL : LessOK lessG scoreG) {s : SL K V} (hwf : WF lessG scoreG s)
    (key : K) (value : V) {draw : Nat} (hdraw : 1 ≤ draw) :
    WF lessG scoreG (Insert lessG scoreG s key value draw) ∧
    (Insert lessG scoreG s key value draw).elems.map proj =
      insertAt (key, value, scoreG key) (lowerIdx lessG key (scoreG key) s.elems)
        (s.elems.map proj) ∧
    (Insert lessG scoreG s key value draw).cnt = s.cnt + 1 := by
  have hwf1 : WFc lessG scoreG 1 (grow s) := grow_wf hwf
  have hsp1 : 1 ≤ (grow s).spine.length := by
    rw [hwf1.spineLen, grow_cnt]
    exact levelsFor_ge_one (by omega)
  obtain ⟨N, hN⟩ : ∃ N, (grow s).spine.length = N + 1 :=
    ⟨(grow s).spine.length - 1, by omega⟩
  obtain ⟨hlen, htrK, hposEq⟩ := prevsGo_spec hwf1 lessG key (scoreG key) hN
  have harr0 : 0 < (prevsGo lessG (scoreG key) (grow s) key).1.length := by
    rw [hlen]; omega
  obtain ⟨hidx0, hnext0⟩ := ktrace_level0 hwf1 HL htrK harr0
  have hble : lowerIdx lessG key (scoreG key) (grow s).elems ≤ (grow s).elems.length :=
    lowerIdx_le lessG key (scoreG key) (grow s).elems
  have hpos : (prevsGo lessG (scoreG key) (grow s) key).2 =
      ((lowerIdx lessG key (scoreG key) (grow s).elems : Nat) : Int) := by
    have hp0 := (htrK 0 harr0).2.1
    rw [hposEq, hp0, hidx0]
    omega
  have hItr : ITraceW (grow s) (prevsGo lessG (scoreG key) (grow s) key).1
      (lowerIdx lessG key (scoreG key) (grow s).elems) := by
    intro L hL
    have hLarr : L < (prevsGo lessG (scoreG key) (grow s) key).1.length := by
      rw [hlen]; exact hL
    obtain ⟨hch, hp2, h3, h4⟩ := htrK L hLarr
    obtain ⟨ho, ht⟩ := ktrace_bounds hwf1 HL htrK L hLarr
    exact ⟨hch, hp2, ho, ht⟩
  have hnu1 : 1 ≤ (if draw > (grow s).spine.length then (grow s).spine.length else draw) := by
    by_cases h : draw > (grow s).spine.length
    · rw [if_pos h]; omega
    · rw [if_neg h]; omega
  have hnu2 : (if draw > (grow s).spine.length then (grow s).spine.length else draw) ≤
      (grow s).spine.length := by
    by_cases h : draw > (grow s).spine.length
    · rw [if_pos h]
    · rw [if_neg h]; omega
  have hsltb : ∀ t, t < lowerIdx lessG key (scoreG key) (grow s).elems →
      sLT lessG key (scoreG key) (getE (grow s).elems t) = true :=
    fun t ht => lowerIdx_sat ht
  have hsgeb : ∀ t, lowerIdx lessG key (scoreG key) (grow s).elems ≤ t →
      t < (grow s).elems.length →
      sLT lessG key (scoreG key) (getE (grow s).elems t) = false :=
    fun t h1 h2 => lowerIdx_tail HL hwf1.sorted h1 h2
  have hNle : (grow s).spine.length ≤ (prevsGo lessG (scoreG key) (grow s) key).1.length :=
    le_of_eq hlen.symm
  obtain ⟨hW, hproj, hcnt⟩ := splice_wf HL hwf1 hble hItr hnu1 hnu2 hpos key value
    hsltb hsgeb hNle
  have hiEq : (match nextIdx (grow s).elems 0
        (originAt (prevsGo lessG (scoreG key) (grow s) key).1 0) with
      | some j => j
      | none => (grow s).elems.length) =
      lowerIdx lessG key (scoreG key) (grow s).elems := by
    rw [hnext0]
    by_cases h : lowerIdx lessG key (scoreG key) (grow s).elems < (grow s).elems.length
    · rw [if_pos h]
    · rw [if_neg h]
      show (grow s).elems.length = lowerIdx lessG key (scoreG key) (grow s).elems
      omega
  have hid : Insert lessG scoreG s key value draw =
      spliced (prevsGo lessG (scoreG key) (grow s) key).1
        (lowerIdx lessG key (scoreG key) (grow s).elems)
        (if draw > (grow s).spine.length then (grow s).spine.length else draw)
        (prevsGo lessG (scoreG key) (grow s) key).2 (scoreG key) key value
        (prevsGo lessG (scoreG key) (grow s) key).1.length (grow s) := by
    rw [← hiEq]
    rfl
  refine ⟨?_, ?_, ?_⟩
  · rw [hid]
    exact hW
  · rw [hid]
    exact hproj
  · rw [hid]
    exact hcnt

/-- The integer binding satisfies the comparator assumptions. -/
theorem lessOK_int : LessOK lessInt scoreInt := by
  refine ⟨?_, ?_, ?_, ?_⟩ <;> intro a <;> simp [lessInt, scoreInt] <;> omega

/-- C1 counterexample: on the reachable one-element skiplist the level-0
width sum is 2, not the element count 1 — the widths along a level
telescope to one past the last element. -/
theorem C1_counterexample_width_sum : ¬ levelSum sI1 0 = (sI1.cnt : Int) := by decide

/-- C2 counterexample: on the reachable empty skiplist, GetAll faults
(prevs yields an empty trace and the code indexes its first entry) instead
of returning the empty sequence for an absent key. -/
theorem C2_counterexample_getall_empty :
    ¬ GetAll lessInt scoreInt emptyI 5 = some [] := by decide

/-- C3 counterexample: with the duplicate key 1 stored twice, the element
at rank 1 has key 1, yet key lookup lands on the youngest duplicate at rank
0: ElementN and Element disagree on the entry and Pos is 0, not 1. -/
theorem C3_counterexample_rank_roundtrip :
    ¬ ElementN sDup 1 = Element lessInt scoreInt sDup (getE sDup.elems 1).key ∧
    ¬ Pos lessInt scoreInt sDup (getE sDup.elems 1).key = some 1 := by decide

/-- C4 code evaluation: the element of value 10 is stored at index 1 of the
two-duplicate skiplist (it is not the youngest of its equal-key group), and
RemoveElement on it never terminates: the predecessor-advance loop of
RemoveElement copies prevs[level] once into l and never updates it, so its
condition stays true forever. -/
theorem C4_code_bug_eval :
    sDup.elems.length = 2 ∧ RemoveElement lessInt scoreInt sDup 1 = none := by decide

/-- C5 code evaluation: on the reachable empty skiplist every key lookup
and the key removal fault — prevs returns an empty predecessor trace and
the code indexes its first entry — instead of returning the documented
not-found results. -/
theorem C5_code_bug_eval :
    Get lessInt scoreInt emptyI 0 = none ∧
    Element lessInt scoreInt emptyI 0 = none ∧
    ElementPos lessInt scoreInt emptyI 0 = none ∧
    Remove lessInt scoreInt emptyI 0 = none := by decide

/-- C6 counterexample: a negative index is not guarded.  On the reachable
one-element skiplist, ElementN (-1) returns the element at position 0
rather than nil, and RemoveN (-1) removes and returns it rather than
leaving the skiplist unchanged. -/
theorem C6_counterexample_negative_index :
    ElementN sI1 (-1) = some (some (getE sI1.elems 0)) ∧
    RemoveN sI1 (-1) = some (some (getE sI1.elems 0), emptyI) := by decide

/-- C7 counterexample: after two Insert calls for key 1, Set (1, 30)
replaces only the youngest prior entry, so two entries for key 1 remain,
not exactly one. -/
theorem C7_counterexample_set_multiset : ¬ countEq lessInt scoreInt 1 sSet2 = 1 := by decide

/-- C8 code evaluation: the descending byte-sequence projection is not
monotone.  With a = [1] and b = [0, 255], a is strictly less than b under
the descending predicate, yet score a = -256 is greater than score b =
-65280: the byte loop of negativeScoreFn shifts after or-ing, so the
magnitude scales with the length of the sequence (and at length 8 the
first byte is lost to 64-bit wraparound). -/
theorem C8_code_bug_eval :
    lessDescBytes [1] [0, 255] = true ∧
    negScoreBytes [1] = -256 ∧
    negScoreBytes [0, 255] = -65280 ∧
    ¬ negScoreBytes [1] ≤ negScoreBytes [0, 255] := by decide

/-- C9: construction is deterministic.  The default constructor owns a
private generator seeded with the fixed constant 42, modeled as a stream
threaded through the run; two instances fed equal operation sequences with
equal streams produce equal states, hence equal internal structure and
diagnostic rendering. -/
theorem C9_deterministic_construction {K V : Type} [Inhabited K] [Inhabited V]
    [DecidableEq K] [DecidableEq V]
    (less : K → K → Bool) (score : K → Int) (r1 r2 : Nat → Nat)
    (ops1 ops2 : List (Op K V)) (hr : r1 = r2) (hops : ops1 = ops2) :
    runOps less score r1 ops1 = runOps less score r2 ops2 ∧
    structRender (runOps less score r1 ops1).1 = structRender (runOps less score r2 ops2).1 := by
  subst hr; subst hops; exact ⟨rfl, rfl⟩

/-- C9 witness: two default-constructed integer instances fed the same
insert, set and remove sequence over the same seed stream agree. -/
theorem C9_witness :
    runOps lessInt scoreInt (fun n => n + 1) [Op.ins 1 10, Op.set 1 20, Op.ins 2 7, Op.del 2] =
      runOps lessInt scoreInt (fun n => n + 1) [Op.ins 1 10, Op.set 1 20, Op.ins 2 7, Op.del 2] ∧
    structRender (runOps lessInt scoreInt (fun n => n + 1)
        [Op.ins 1 10, Op.set 1 20, Op.ins 2 7, Op.del 2]).1 =
      structRender (runOps lessInt scoreInt (fun n => n + 1)
        [Op.ins 1 10, Op.set 1 20, Op.ins 2 7, Op.del 2]).1 :=
  C9_deterministic_construction lessInt scoreInt (fun n => n + 1) (fun n => n + 1)
    [Op.ins 1 10, Op.set 1 20, Op.ins 2 7, Op.del 2]
    [Op.ins 1 10, Op.set 1 20, Op.ins 2 7, Op.del 2] rfl rfl

end SkiplistGo
